import Mathlib

/-!
Verification development for the streaming, backtracking, two-stage parsing
framework of the ecmac compiler front-end.

The newest revision of the code (src/compiler/parser.ts driving the
character-level lexer src/compiler/languages/ecmascript/token.ts and the
syntax stage in src/compiler/languages/ecmascript.ts) expresses every parser
as a JavaScript generator that yields Peek / Consume / Position commands and
receives their results.  We embed such a generator shallowly as an inductive
command tree `Coro`:

* a `peek` / `consume` node carries the continuation `k` used when the engine
  answers with an input item, and the continuation `h` obtained when the
  engine throws `EndOfParserStream` into the suspended generator
  (JavaScript's generator.throw resumes the generator with that exception;
  `h` is the whole behaviour of the generator after that resumption);
* a `position` node carries the optional new cursor and the continuation
  receiving the previous cursor;
* `done` is a normal return and `fail` a thrown error.

Errors are modelled by `Err`: `eos` corresponds to
`error instanceof EndOfParserStream` and `fatal` to the `fatalErrorTag`
symbol property set by `FatalError` / `ParserStream.fatal`.
-/

structure Err where
  eos : Bool
  fatal : Bool
  msg : String
deriving DecidableEq, Repr

/-- The error the engine throws into a coroutine at end of input
(class EndOfParserStream). -/
def eosErr : Err := ⟨true, false, "EndOfParserStream"⟩

/-- Failure of an assert(...) call from the standard assert module. -/
def assertionErr : Err := ⟨false, false, "assertion failed"⟩

/-- Engine error thrown when a coroutine completes with cursor 0. -/
def progressErr : Err := ⟨false, false, "parser doesn't consume any items"⟩

/-- Engine error thrown when input remains after the final coroutine. -/
def leftoverErr : Err :=
  ⟨false, false, "parser was not able to completely process the input stream"⟩

/-- Marker used when the fuel of a fueled model definition runs out.  Real
generators are not fueled; theorems either avoid this error or show that with
enough fuel it is never produced. -/
def fuelErr : Err := ⟨false, false, "model fuel exhausted"⟩

/-- Marker for an unreachable branch of the engine model. -/
def engineBugErr : Err := ⟨false, false, "engine model invariant broken"⟩

/-- Shallow embedding of a parser-stream generator (ParserStreamGenerator):
a tree of Peek / Consume / Position commands ending in a return or a throw. -/
inductive Coro (I O : Type) : Type where
  | done (value : O)
  | fail (error : Err)
  | peek (k : I → Coro I O) (h : Coro I O)
  | consume (k : I → Coro I O) (h : Coro I O)
  | position (arg : Option Nat) (k : Nat → Coro I O)

namespace Coro

/-- Sequencing with an error handler: the JavaScript pattern
try { x = yield* c; return ks(x) } catch (e) { return kh(e) } .
The handler also wraps the end-of-stream continuations, because an exception
thrown into the inner generator propagates to the enclosing try. -/
def tryCatch {I A B : Type} : Coro I A → (A → Coro I B) → (Err → Coro I B) → Coro I B
  | .done v, ks, _ => ks v
  | .fail e, _, kh => kh e
  | .peek k h, ks, kh => .peek (fun i => (k i).tryCatch ks kh) (h.tryCatch ks kh)
  | .consume k h, ks, kh => .consume (fun i => (k i).tryCatch ks kh) (h.tryCatch ks kh)
  | .position a k, ks, kh => .position a (fun p => (k p).tryCatch ks kh)

/-- Plain sequencing (yield* without a try/catch): errors propagate. -/
def bind {I A B : Type} (c : Coro I A) (f : A → Coro I B) : Coro I B :=
  c.tryCatch f .fail

end Coro

namespace PS

/-- ParserStream.position: yield a Position command (optionally setting the
cursor) and return the previous cursor. -/
def position {I : Type} (arg : Option Nat) : Coro I Nat :=
  .position arg (fun p => .done p)

/-- ParserStream.peek: yield a Peek command; EndOfParserStream propagates. -/
def peek {I : Type} : Coro I I :=
  .peek (fun i => .done i) (.fail eosErr)

/-- ParserStream.consume: yield a Consume command; EndOfParserStream
propagates. -/
def consume {I : Type} : Coro I I :=
  .consume (fun i => .done i) (.fail eosErr)

/-- ParserStream.tryPeek: peek, returning null instead of raising on end of
input. -/
def tryPeek {I : Type} : Coro I (Option I) :=
  Coro.tryCatch peek (fun i => .done (some i))
    (fun e => if e.eos then .done none else .fail e)

/-- ParserStream.tryConsume: consume, returning null instead of raising on
end of input. -/
def tryConsume {I : Type} : Coro I (Option I) :=
  Coro.tryCatch consume (fun i => .done (some i))
    (fun e => if e.eos then .done none else .fail e)

/-- ParserStream.null: succeed immediately with null, consuming nothing.
The result type is Option so that it can stand as a branch next to parsers
returning some value, as in ExpressionNode.parse. -/
def nullGen {I A : Type} : Coro I (Option A) :=
  .done none

/-- ParserStream.maybe: run the generator; on a non-fatal failure restore the
entry cursor and return null; re-raise fatal failures. -/
def maybe {I A : Type} (g : Coro I A) : Coro I (Option A) :=
  (position none).bind fun initialPosition =>
    g.tryCatch (fun v => .done (some v))
      (fun e =>
        if e.fatal then .fail e
        else (position (some initialPosition)).bind fun _ => .done none)

/-- ParserStream.fatal: run the generator; mark any escaping error with the
fatal tag and re-raise it. -/
def fatal {I A : Type} (g : Coro I A) : Coro I A :=
  g.tryCatch (fun v => .done v) (fun e => .fail { e with fatal := true })

/-- Result record returned by ParserStream.first and ParserStream.furthest:
the branch index, the cursor after the branch, and its value. -/
structure ChoiceRes (A : Type) where
  index : Nat
  pos : Nat
  value : A
deriving DecidableEq, Repr

/-- The update (furthestError?.position ?? -1) < position performed by both
ParserStream.first and ParserStream.furthest on their accumulator: replace
the remembered entry only when the new position is strictly higher. -/
def bump {R : Type} (acc : Option (Nat × Nat × R)) (idx p : Nat) (r : R) :
    Option (Nat × Nat × R) :=
  match acc with
  | none => some (idx, p, r)
  | some (j, q, r0) => if q < p then some (idx, p, r) else some (j, q, r0)

/-- Loop body of ParserStream.first over the remaining generators.
fe is the furthestError accumulator (index, position, error). -/
def firstGo {I A : Type} (initialPosition idx : Nat)
    (fe : Option (Nat × Nat × Err)) : List (Coro I A) → Coro I (ChoiceRes A)
  | [] =>
    match fe with
    | some (_, p, e) => (position (some p)).bind fun _ => .fail e
    | none => .fail assertionErr
  | g :: gs =>
    g.tryCatch
      (fun v => (position none).bind fun p => .done ⟨idx, p, v⟩)
      (fun e =>
        if e.fatal then .fail e
        else
          (position none).bind fun p =>
            (position (some initialPosition)).bind fun _ =>
              firstGo initialPosition (idx + 1) (bump fe idx p e) gs)

/-- ParserStream.first: try each generator in order from the entry cursor;
return the first success where it stopped; on all-failure rewind each branch,
remember the failure that reached the strictly highest cursor (earliest on
ties), finally set the cursor to that failure's position and re-raise it;
re-raise a fatal failure immediately. -/
def first {I A : Type} (gs : List (Coro I A)) : Coro I (ChoiceRes A) :=
  if gs.isEmpty then .fail assertionErr
  else (position none).bind fun initialPosition => firstGo initialPosition 0 none gs

/-- Loop body of ParserStream.furthest.  acc is the furthestResult
accumulator: index, position, and either a value (Sum.inl) or an error
(Sum.inr). -/
def furthestGo {I A : Type} (initialPosition idx : Nat)
    (acc : Option (Nat × Nat × (A ⊕ Err))) : List (Coro I A) → Coro I (ChoiceRes A)
  | [] =>
    match acc with
    | none => .fail assertionErr
    | some (j, p, .inl v) => (position (some p)).bind fun _ => .done ⟨j, p, v⟩
    | some (_, p, .inr e) => (position (some p)).bind fun _ => .fail e
  | g :: gs =>
    g.tryCatch
      (fun v =>
        (position none).bind fun p =>
          (position (some initialPosition)).bind fun _ =>
            furthestGo initialPosition (idx + 1) (bump acc idx p (Sum.inl v)) gs)
      (fun e =>
        if e.fatal then
          (position (some initialPosition)).bind fun _ => .fail e
        else
          (position none).bind fun p =>
            (position (some initialPosition)).bind fun _ =>
              furthestGo initialPosition (idx + 1) (bump acc idx p (Sum.inr e)) gs)

/-- ParserStream.furthest: run every generator from the entry cursor (the
finally clause rewinds after each branch, including after a fatal re-raise);
keep the single outcome, success or failure, that reached the strictly
highest cursor (earliest on ties); set the cursor to that position and
return its value or re-raise its error. -/
def furthest {I A : Type} (gs : List (Coro I A)) : Coro I (ChoiceRes A) :=
  (position none).bind fun initialPosition => furthestGo initialPosition 0 none gs

end PS

/-- Result of driving a single coroutine over the current input buffer.

* done / fail: the coroutine returned, or an error escaped it, while the
  engine was resuming it with generator.next (the engine does not catch
  errors from generator.next).
* doneInj / failInj: the coroutine returned, or an error escaped it,
  directly out of the engine's generator.throw call at end of input, with no
  intervening yield.  A doneInj is committed exactly like a done; a failInj
  is seen by the engine's catch block, which abandons the coroutine when the
  error is the EndOfParserStream instance and re-raises it otherwise.  The
  distinction matters for composition: when the suspended command sits under
  a try/catch, the handler runs inside the same generator.throw resumption.
* blocked: streaming mode and the next command needs the cursor to be below
  the buffer length; the engine waits for more input at this very node.
* hang: terminal mode with the cursor beyond the buffer length: the real
  loop makes no progress and the flush loop spins forever. -/
inductive RunRes (I O : Type) : Type where
  | done (value : O) (cur : Nat)
  | doneInj (value : O) (cur : Nat)
  | fail (error : Err) (cur : Nat)
  | failInj (error : Err) (cur : Nat)
  | blocked (c : Coro I O) (cur : Nat)
  | hang (cur : Nat)

/-- Drive one coroutine over the buffer, mirroring the while loop of the
ParserStream constructor.  eof = false is streaming mode (loop condition
cursor < inputBuffer.length before every command); eof = true is the flush
mode of process(null) with a live generator (loop condition
cursor <= inputBuffer.length, and a Peek/Consume at cursor = length throws
EndOfParserStream into the generator). -/
def runOne {I O : Type} (buf : List I) (eof : Bool) : Coro I O → Nat → RunRes I O
  | .done v, cur => .done v cur
  | .fail e, cur => .fail e cur
  | .peek k h, cur =>
    if hlt : cur < buf.length then runOne buf eof (k (buf.get ⟨cur, hlt⟩)) cur
    else if eof then
      if cur = buf.length then
        match h with
        | .fail e => .failInj e cur
        | .done v => .doneInj v cur
        | .peek k' h' => runOne buf eof (.peek k' h') cur
        | .consume k' h' => runOne buf eof (.consume k' h') cur
        | .position a k' => runOne buf eof (.position a k') cur
      else .hang cur
    else .blocked (.peek k h) cur
  | .consume k h, cur =>
    if hlt : cur < buf.length then runOne buf eof (k (buf.get ⟨cur, hlt⟩)) (cur + 1)
    else if eof then
      if cur = buf.length then
        match h with
        | .fail e => .failInj e cur
        | .done v => .doneInj v cur
        | .peek k' h' => runOne buf eof (.peek k' h') cur
        | .consume k' h' => runOne buf eof (.consume k' h') cur
        | .position a k' => runOne buf eof (.position a k') cur
      else .hang cur
    else .blocked (.consume k h) cur
  | .position a k, cur =>
    if cur < buf.length then runOne buf eof (k cur) (a.getD cur)
    else if eof then
      if cur ≤ buf.length then runOne buf eof (k cur) (a.getD cur)
      else .hang cur
    else .blocked (.position a k) cur

/-- The effect of throwing EndOfParserStream into a suspended generator whose
resumed behaviour is c: an immediate return or throw surfaces out of the
generator.throw call itself, while a yielded command is processed normally. -/
def injStep {I O : Type} (buf : List I) (eof : Bool) (c : Coro I O) (cur : Nat) :
    RunRes I O :=
  match c with
  | .done v => .doneInj v cur
  | .fail e => .failInj e cur
  | c => runOne buf eof c cur

/-- Unfolding runOne at a return node. -/
theorem runOne_done {I O : Type} (buf : List I) (eof : Bool) (v : O) (cur : Nat) :
    runOne buf eof (Coro.done (I := I) v) cur = .done v cur := rfl

/-- Unfolding runOne at a throw node. -/
theorem runOne_fail {I O : Type} (buf : List I) (eof : Bool) (e : Err) (cur : Nat) :
    runOne buf eof (Coro.fail (I := I) (O := O) e) cur = .fail e cur := rfl

/-- A Peek with the cursor inside the buffer delivers the current item. -/
theorem runOne_peek_lt {I O : Type} {buf : List I} {cur : Nat} (eof : Bool)
    (k : I → Coro I O) (h : Coro I O) (hlt : cur < buf.length) :
    runOne buf eof (.peek k h) cur = runOne buf eof (k (buf.get ⟨cur, hlt⟩)) cur := by
  conv_lhs => rw [runOne.eq_def]
  simp [hlt]

/-- In streaming mode a Peek past the buffer waits for more input. -/
theorem runOne_peek_block {I O : Type} {buf : List I} {cur : Nat}
    (k : I → Coro I O) (h : Coro I O) (hlt : ¬ cur < buf.length) :
    runOne buf false (.peek k h) cur = .blocked (.peek k h) cur := by
  conv_lhs => rw [runOne.eq_def]
  simp [hlt]

/-- In terminal mode a Peek at the buffer end throws EndOfParserStream into
the generator. -/
theorem runOne_peek_inj {I O : Type} {buf : List I} {cur : Nat}
    (k : I → Coro I O) (h : Coro I O) (heq : cur = buf.length) :
    runOne buf true (.peek k h) cur = injStep buf true h cur := by
  conv_lhs => rw [runOne.eq_def]
  cases h <;> simp [heq, injStep]

/-- In terminal mode a Peek with the cursor beyond the buffer end makes no
progress. -/
theorem runOne_peek_hang {I O : Type} {buf : List I} {cur : Nat}
    (k : I → Coro I O) (h : Coro I O) (hgt : buf.length < cur) :
    runOne buf true (.peek k h) cur = .hang cur := by
  conv_lhs => rw [runOne.eq_def]
  simp [Nat.lt_asymm hgt, Nat.ne_of_gt hgt]

/-- A Consume with the cursor inside the buffer delivers the current item and
advances the cursor. -/
theorem runOne_consume_lt {I O : Type} {buf : List I} {cur : Nat} (eof : Bool)
    (k : I → Coro I O) (h : Coro I O) (hlt : cur < buf.length) :
    runOne buf eof (.consume k h) cur =
      runOne buf eof (k (buf.get ⟨cur, hlt⟩)) (cur + 1) := by
  conv_lhs => rw [runOne.eq_def]
  simp [hlt]

/-- In streaming mode a Consume past the buffer waits for more input. -/
theorem runOne_consume_block {I O : Type} {buf : List I} {cur : Nat}
    (k : I → Coro I O) (h : Coro I O) (hlt : ¬ cur < buf.length) :
    runOne buf false (.consume k h) cur = .blocked (.consume k h) cur := by
  conv_lhs => rw [runOne.eq_def]
  simp [hlt]

/-- In terminal mode a Consume at the buffer end throws EndOfParserStream
into the generator. -/
theorem runOne_consume_inj {I O : Type} {buf : List I} {cur : Nat}
    (k : I → Coro I O) (h : Coro I O) (heq : cur = buf.length) :
    runOne buf true (.consume k h) cur = injStep buf true h cur := by
  conv_lhs => rw [runOne.eq_def]
  cases h <;> simp [heq, injStep]

/-- In terminal mode a Consume with the cursor beyond the buffer end makes no
progress. -/
theorem runOne_consume_hang {I O : Type} {buf : List I} {cur : Nat}
    (k : I → Coro I O) (h : Coro I O) (hgt : buf.length < cur) :
    runOne buf true (.consume k h) cur = .hang cur := by
  conv_lhs => rw [runOne.eq_def]
  simp [Nat.lt_asymm hgt, Nat.ne_of_gt hgt]

/-- A Position command with the cursor inside the buffer reports the old
cursor and optionally sets a new one. -/
theorem runOne_position_lt {I O : Type} {buf : List I} {cur : Nat} (eof : Bool)
    (a : Option Nat) (k : Nat → Coro I O) (hlt : cur < buf.length) :
    runOne buf eof (.position a k) cur = runOne buf eof (k cur) (a.getD cur) := by
  conv_lhs => rw [runOne.eq_def]
  simp [hlt]

/-- In terminal mode a Position command is processed whenever the cursor is
at most the buffer length. -/
theorem runOne_position_le {I O : Type} {buf : List I} {cur : Nat}
    (a : Option Nat) (k : Nat → Coro I O) (hle : cur ≤ buf.length) :
    runOne buf true (.position a k) cur = runOne buf true (k cur) (a.getD cur) := by
  conv_lhs => rw [runOne.eq_def]
  rcases Nat.lt_or_eq_of_le hle with hlt | heq
  · simp [hlt]
  · simp [heq]

/-- In streaming mode a Position command past the buffer end waits. -/
theorem runOne_position_block {I O : Type} {buf : List I} {cur : Nat}
    (a : Option Nat) (k : Nat → Coro I O) (hlt : ¬ cur < buf.length) :
    runOne buf false (.position a k) cur = .blocked (.position a k) cur := by
  conv_lhs => rw [runOne.eq_def]
  simp [hlt]

/-- In terminal mode a Position command beyond the buffer end makes no
progress. -/
theorem runOne_position_hang {I O : Type} {buf : List I} {cur : Nat}
    (a : Option Nat) (k : Nat → Coro I O) (hgt : buf.length < cur) :
    runOne buf true (.position a k) cur = .hang cur := by
  conv_lhs => rw [runOne.eq_def]
  simp [Nat.lt_asymm hgt, Nat.not_le_of_lt hgt]

/-- How a try/catch wrapper transforms the one-coroutine run: the handler (or
success continuation) picks up exactly where the wrapped coroutine stopped,
and stays inside the generator.throw resumption when the coroutine finished
inside one. -/
theorem runOne_tryCatch {I A B : Type} (buf : List I) (eof : Bool)
    (ks : A → Coro I B) (kh : Err → Coro I B) :
    ∀ (c : Coro I A) (cur : Nat),
      runOne buf eof (c.tryCatch ks kh) cur =
        match runOne buf eof c cur with
        | .done v c' => runOne buf eof (ks v) c'
        | .doneInj v c' => injStep buf eof (ks v) c'
        | .fail e c' => runOne buf eof (kh e) c'
        | .failInj e c' => injStep buf eof (kh e) c'
        | .blocked c' cur' => .blocked (c'.tryCatch ks kh) cur'
        | .hang cur' => .hang cur'
  | .done v, cur => by simp [Coro.tryCatch, runOne_done]
  | .fail e, cur => by simp [Coro.tryCatch, runOne_fail]
  | .peek k h, cur => by
    by_cases hlt : cur < buf.length
    · rw [Coro.tryCatch, runOne_peek_lt eof _ _ hlt, runOne_peek_lt eof _ _ hlt]
      exact runOne_tryCatch buf eof ks kh (k (buf.get ⟨cur, hlt⟩)) cur
    · cases eof with
      | false =>
        rw [Coro.tryCatch, runOne_peek_block _ _ hlt, runOne_peek_block _ _ hlt]
        simp [Coro.tryCatch]
      | true =>
        rcases Nat.lt_or_ge cur buf.length with h1 | h2
        · exact absurd h1 hlt
        · rcases Nat.eq_or_lt_of_le h2 with heq | hgt
          · rw [Coro.tryCatch, runOne_peek_inj _ _ heq.symm, runOne_peek_inj _ _ heq.symm]
            cases h with
            | done v => cases hks : ks v <;> simp [injStep, Coro.tryCatch, hks]
            | fail e => cases hkh : kh e <;> simp [injStep, Coro.tryCatch, hkh]
            | peek k' h' =>
              simpa [injStep, Coro.tryCatch] using
                runOne_tryCatch buf true ks kh (.peek k' h') cur
            | consume k' h' =>
              simpa [injStep, Coro.tryCatch] using
                runOne_tryCatch buf true ks kh (.consume k' h') cur
            | position a k' =>
              simpa [injStep, Coro.tryCatch] using
                runOne_tryCatch buf true ks kh (.position a k') cur
          · rw [Coro.tryCatch, runOne_peek_hang _ _ hgt, runOne_peek_hang _ _ hgt]
  | .consume k h, cur => by
    by_cases hlt : cur < buf.length
    · rw [Coro.tryCatch, runOne_consume_lt eof _ _ hlt, runOne_consume_lt eof _ _ hlt]
      exact runOne_tryCatch buf eof ks kh (k (buf.get ⟨cur, hlt⟩)) (cur + 1)
    · cases eof with
      | false =>
        rw [Coro.tryCatch, runOne_consume_block _ _ hlt, runOne_consume_block _ _ hlt]
        simp [Coro.tryCatch]
      | true =>
        rcases Nat.lt_or_ge cur buf.length with h1 | h2
        · exact absurd h1 hlt
        · rcases Nat.eq_or_lt_of_le h2 with heq | hgt
          · rw [Coro.tryCatch, runOne_consume_inj _ _ heq.symm,
              runOne_consume_inj _ _ heq.symm]
            cases h with
            | done v => cases hks : ks v <;> simp [injStep, Coro.tryCatch, hks]
            | fail e => cases hkh : kh e <;> simp [injStep, Coro.tryCatch, hkh]
            | peek k' h' =>
              simpa [injStep, Coro.tryCatch] using
                runOne_tryCatch buf true ks kh (.peek k' h') cur
            | consume k' h' =>
              simpa [injStep, Coro.tryCatch] using
                runOne_tryCatch buf true ks kh (.consume k' h') cur
            | position a k' =>
              simpa [injStep, Coro.tryCatch] using
                runOne_tryCatch buf true ks kh (.position a k') cur
          · rw [Coro.tryCatch, runOne_consume_hang _ _ hgt, runOne_consume_hang _ _ hgt]
  | .position a k, cur => by
    by_cases hlt : cur < buf.length
    · rw [Coro.tryCatch, runOne_position_lt eof _ _ hlt, runOne_position_lt eof _ _ hlt]
      exact runOne_tryCatch buf eof ks kh (k cur) (a.getD cur)
    · cases eof with
      | false =>
        rw [Coro.tryCatch, runOne_position_block _ _ hlt, runOne_position_block _ _ hlt]
        simp [Coro.tryCatch]
      | true =>
        by_cases hle : cur ≤ buf.length
        · rw [Coro.tryCatch, runOne_position_le _ _ hle, runOne_position_le _ _ hle]
          exact runOne_tryCatch buf true ks kh (k cur) (a.getD cur)
        · rw [Coro.tryCatch, runOne_position_hang _ _ (Nat.lt_of_not_le hle),
            runOne_position_hang _ _ (Nat.lt_of_not_le hle)]

/-- Plain sequencing distributes over the one-coroutine run; errors pass
through unchanged. -/
theorem runOne_bind {I A B : Type} (buf : List I) (eof : Bool)
    (c : Coro I A) (f : A → Coro I B) (cur : Nat) :
    runOne buf eof (c.bind f) cur =
      match runOne buf eof c cur with
      | .done v c' => runOne buf eof (f v) c'
      | .doneInj v c' => injStep buf eof (f v) c'
      | .fail e c' => .fail e c'
      | .failInj e c' => .failInj e c'
      | .blocked c' cur' => .blocked (c'.bind f) cur'
      | .hang cur' => .hang cur' := by
  rw [Coro.bind, runOne_tryCatch]
  cases runOne buf eof c cur <;> simp [injStep, runOne_fail, Coro.bind]

/-- bind pushes inside a position node (unfolding of tryCatch). -/
theorem Coro.bind_position {I A B : Type} (a : Option Nat) (k : Nat → Coro I A)
    (f : A → Coro I B) :
    (Coro.position a k).bind f = .position a (fun p => (k p).bind f) := rfl

/-- Running the position combinator in terminal mode with the cursor inside
the buffer: it returns the old cursor and moves to the requested one. -/
theorem runOne_psPosition {I : Type} {buf : List I} {cur : Nat}
    (a : Option Nat) (hle : cur ≤ buf.length) :
    runOne buf true (PS.position (I := I) a) cur = .done cur (a.getD cur) := by
  rw [PS.position, runOne_position_le _ _ hle, runOne_done]

/-- Reading the cursor (Position with no argument). -/
theorem runOne_psPosition_read {I : Type} {buf : List I} {cur : Nat}
    (hle : cur ≤ buf.length) :
    runOne buf true (PS.position (I := I) none) cur = .done cur cur :=
  runOne_psPosition none hle

/-- Setting the cursor (Position with an argument). -/
theorem runOne_psPosition_set {I : Type} {buf : List I} {cur : Nat}
    (p : Nat) (hle : cur ≤ buf.length) :
    runOne buf true (PS.position (I := I) (some p)) cur = .done cur p :=
  runOne_psPosition (some p) hle

/-- The common shape (yield* position(arg)).bind continuation, with the
cursor inside terminal input: the continuation receives the old cursor and
runs from the (optionally) updated one. -/
theorem runOne_psPosition_bind {I A : Type} {buf : List I} {cur : Nat}
    (a : Option Nat) (f : Nat → Coro I A) (hle : cur ≤ buf.length) :
    runOne buf true ((PS.position a).bind f) cur =
      runOne buf true (f cur) (a.getD cur) := by
  simp only [runOne_bind, runOne_psPosition a hle]

/-- A position command suspended at an end-of-input injection point is simply
processed: yielding a command leaves the generator.throw resumption. -/
theorem injStep_psPosition_bind {I A : Type} (buf : List I) (eof : Bool)
    (a : Option Nat) (f : Nat → Coro I A) (cur : Nat) :
    injStep buf eof ((PS.position a).bind f) cur =
      runOne buf eof ((PS.position a).bind f) cur := rfl

/-- C3: maybe(p), entered at a cursor c inside terminal input, behaves as the
spec says: if p fails non-fatally (whether the error escapes during a normal
resumption or directly out of the end-of-input injection), maybe(p) restores
the cursor to c and returns null, so that a position() read performed right
after it reports exactly the cursor observed before maybe was entered; a
fatal failure of p is re-raised instead of being caught. -/
theorem c3_maybe_rewinds {I A : Type} (g : Coro I A) (buf : List I) (cur : Nat)
    (hcur : cur ≤ buf.length) :
    (∀ e c', e.fatal = false → c' ≤ buf.length →
      (runOne buf true g cur = .fail e c' ∨ runOne buf true g cur = .failInj e c') →
      runOne buf true (PS.maybe g) cur = .done none cur ∧
      runOne buf true
          ((PS.maybe g).bind fun r => (PS.position none).bind fun p => .done (r, p))
          cur = .done (none, cur) cur) ∧
    (∀ e c', e.fatal = true →
      runOne buf true g cur = .fail e c' →
      runOne buf true (PS.maybe g) cur = .fail e c') := by
  constructor
  · intro e c' hf hc' hg
    have hmain : runOne buf true (PS.maybe g) cur = .done none cur := by
      rw [PS.maybe, runOne_psPosition_bind _ _ hcur]
      simp only [Option.getD]
      rw [runOne_tryCatch]
      rcases hg with hg | hg
      · rw [hg]
        simp only [hf, Bool.false_eq_true, if_false]
        rw [runOne_psPosition_bind _ _ hc']
        simp only [Option.getD, runOne_done]
      · rw [hg]
        simp only [hf, Bool.false_eq_true, if_false]
        rw [injStep_psPosition_bind, runOne_psPosition_bind _ _ hc']
        simp only [Option.getD, runOne_done]
    refine ⟨hmain, ?_⟩
    simp only [runOne_bind, hmain]
    rw [runOne_psPosition_read hcur]
    rfl
  · intro e c' hf hg
    rw [PS.maybe, runOne_psPosition_bind _ _ hcur]
    simp only [Option.getD]
    rw [runOne_tryCatch, hg]
    simp only [hf, if_true, runOne_fail]

/-- A concrete parser that consumes one item and then fails non-fatally. -/
def failAfterOne : Coro Nat Nat :=
  PS.consume.bind fun _ => .fail ⟨false, false, "nope"⟩

/-- Witness for C3 at a concrete input: maybe of a parser that consumed one
item of [5] and failed returns null with the cursor back at 0, and a
position() read right after reports 0. -/
theorem c3_maybe_rewinds_witness :
    runOne [5] true (PS.maybe failAfterOne) 0 = .done none 0 ∧
    runOne [5] true
        ((PS.maybe failAfterOne).bind fun r =>
          (PS.position none).bind fun p => .done (r, p)) 0 = .done (none, 0) 0 :=
  (c3_maybe_rewinds failAfterOne [5] 0 (by decide)).1
    ⟨false, false, "nope"⟩ 1 rfl (by decide) (Or.inl rfl)

/-- Pure description of how the furthestError / furthestResult accumulator
evolves over the per-branch outcomes (payload, end position), starting at
branch index idx. -/
def PS.foldBest {R : Type} (idx : Nat) (acc : Option (Nat × Nat × R)) :
    List (R × Nat) → Option (Nat × Nat × R)
  | [] => acc
  | (r, c) :: rest => PS.foldBest (idx + 1) (PS.bump acc idx c r) rest

/-- Folding from a non-empty accumulator: either the accumulator survives and
bounds every branch position, or some branch strictly beats it and realises
the maximum. -/
theorem PS.foldBest_some {R : Type} :
    ∀ (outs : List (R × Nat)) (idx j0 q : Nat) (r0 : R),
      (PS.foldBest idx (some (j0, q, r0)) outs = some (j0, q, r0) ∧
        ∀ j (hj : j < outs.length), (outs.get ⟨j, hj⟩).2 ≤ q) ∨
      (∃ j, ∃ hj : j < outs.length,
        PS.foldBest idx (some (j0, q, r0)) outs =
          some (idx + j, (outs.get ⟨j, hj⟩).2, (outs.get ⟨j, hj⟩).1) ∧
        q < (outs.get ⟨j, hj⟩).2 ∧
        ∀ j' (hj' : j' < outs.length),
          (outs.get ⟨j', hj'⟩).2 ≤ (outs.get ⟨j, hj⟩).2)
  | [], idx, j0, q, r0 => Or.inl ⟨rfl, fun j hj => absurd hj (Nat.not_lt_zero j)⟩
  | (r, c) :: rest, idx, j0, q, r0 => by
    rw [PS.foldBest]
    by_cases hqc : q < c
    · rw [show PS.bump (some (j0, q, r0)) idx c r = some (idx, c, r) from by
        simp [PS.bump, hqc]]
      rcases PS.foldBest_some rest (idx + 1) idx c r with ⟨heq, hmax⟩ | ⟨k, hk, heq, hlt, hmax⟩
      · right
        refine ⟨0, Nat.succ_pos _, ?_, by simpa using hqc, ?_⟩
        · simpa using heq
        · intro j' hj'
          cases j' with
          | zero => simp [List.get]
          | succ k' =>
            have hk' : k' < rest.length := by simpa using hj'
            simpa using hmax k' hk'
      · right
        refine ⟨k + 1, by simpa using Nat.succ_lt_succ hk, ?_, ?_, ?_⟩
        · simpa [Nat.add_assoc, Nat.add_comm 1 k] using heq
        · exact lt_trans hqc (by simpa using hlt)
        · intro j' hj'
          cases j' with
          | zero =>
            simpa using le_of_lt (by simpa using hlt)
          | succ k' =>
            have hk' : k' < rest.length := by simpa using hj'
            simpa using hmax k' hk'
    · rw [show PS.bump (some (j0, q, r0)) idx c r = some (j0, q, r0) from by
        simp [PS.bump, hqc]]
      rcases PS.foldBest_some rest (idx + 1) j0 q r0 with ⟨heq, hmax⟩ | ⟨k, hk, heq, hlt, hmax⟩
      · left
        refine ⟨heq, ?_⟩
        intro j hj
        cases j with
        | zero => simpa using Nat.le_of_not_lt hqc
        | succ k' =>
          have hk' : k' < rest.length := by simpa using hj
          simpa using hmax k' hk'
      · right
        refine ⟨k + 1, by simpa using Nat.succ_lt_succ hk, ?_, ?_, ?_⟩
        · simpa [Nat.add_assoc, Nat.add_comm 1 k] using heq
        · calc q < (rest.get ⟨k, hk⟩).2 := by simpa using hlt
            _ = (((r, c) :: rest).get ⟨k + 1, by simpa using Nat.succ_lt_succ hk⟩).2 := by simp
        · intro j' hj'
          cases j' with
          | zero =>
            have : c ≤ q := Nat.le_of_not_lt hqc
            exact le_trans this (le_of_lt (by simpa using hlt))
          | succ k' =>
            have hk' : k' < rest.length := by simpa using hj'
            simpa using hmax k' hk'

/-- Folding from the empty accumulator over a non-empty outcome list yields
an entry of the list realising the maximum end position. -/
theorem PS.foldBest_none {R : Type} (outs : List (R × Nat)) (idx : Nat)
    (hne : outs ≠ []) :
    ∃ j, ∃ hj : j < outs.length,
      PS.foldBest idx none outs =
        some (idx + j, (outs.get ⟨j, hj⟩).2, (outs.get ⟨j, hj⟩).1) ∧
      ∀ j' (hj' : j' < outs.length),
        (outs.get ⟨j', hj'⟩).2 ≤ (outs.get ⟨j, hj⟩).2 := by
  match outs, hne with
  | (r, c) :: rest, _ =>
    rw [PS.foldBest, show PS.bump (none : Option (Nat × Nat × R)) idx c r =
      some (idx, c, r) from rfl]
    rcases PS.foldBest_some rest (idx + 1) idx c r with ⟨heq, hmax⟩ | ⟨k, hk, heq, hlt, hmax⟩
    · refine ⟨0, Nat.succ_pos _, by simpa using heq, ?_⟩
      intro j' hj'
      cases j' with
      | zero => simp [List.get]
      | succ k' =>
        have hk' : k' < rest.length := by simpa using hj'
        simpa using hmax k' hk'
    · refine ⟨k + 1, by simpa using Nat.succ_lt_succ hk, ?_, ?_⟩
      · simpa [Nat.add_assoc, Nat.add_comm 1 k] using heq
      · intro j' hj'
        cases j' with
        | zero => simpa using le_of_lt (by simpa using hlt)
        | succ k' =>
          have hk' : k' < rest.length := by simpa using hj'
          simpa using hmax k' hk'

/-- g, run on terminal input from cursor cur, succeeds with value v ending at
cursor c (either in a normal resumption or inside the end-of-input
injection). -/
def SucceedsAt {I A : Type} (buf : List I) (g : Coro I A) (cur : Nat) (v : A) (c : Nat) :
    Prop :=
  runOne buf true g cur = .done v c ∨ runOne buf true g cur = .doneInj v c

/-- g, run on terminal input from cursor cur, raises error e with the cursor
at c (either in a normal resumption or directly out of the end-of-input
injection). -/
def FailsAt {I A : Type} (buf : List I) (g : Coro I A) (cur : Nat) (e : Err) (c : Nat) :
    Prop :=
  runOne buf true g cur = .fail e c ∨ runOne buf true g cur = .failInj e c

/-- One loop iteration of first when the branch succeeds: first returns the
branch value, its index, and the cursor where the branch stopped. -/
theorem firstGo_cons_succ {I A : Type} {buf : List I} {init idx : Nat}
    {fe : Option (Nat × Nat × Err)} {g : Coro I A} {gs : List (Coro I A)}
    {v : A} {c : Nat}
    (hg : SucceedsAt buf g init v c) (hc : c ≤ buf.length) :
    runOne buf true (PS.firstGo init idx fe (g :: gs)) init = .done ⟨idx, c, v⟩ c := by
  rw [PS.firstGo, runOne_tryCatch]
  rcases hg with hg | hg
  · rw [hg]
    simp only []
    rw [runOne_psPosition_bind _ _ hc]
    simp only [Option.getD, runOne_done]
  · rw [hg]
    simp only []
    rw [injStep_psPosition_bind, runOne_psPosition_bind _ _ hc]
    simp only [Option.getD, runOne_done]

/-- One loop iteration of first when the branch fails non-fatally: record the
failure into the accumulator and rewind to the entry position. -/
theorem firstGo_cons_failNF {I A : Type} {buf : List I} {init idx : Nat}
    {fe : Option (Nat × Nat × Err)} {g : Coro I A} {gs : List (Coro I A)}
    {e0 : Err} {c0 : Nat}
    (hg : FailsAt buf g init e0 c0) (hf : e0.fatal = false) (hc : c0 ≤ buf.length) :
    runOne buf true (PS.firstGo init idx fe (g :: gs)) init =
      runOne buf true (PS.firstGo init (idx + 1) (PS.bump fe idx c0 e0) gs) init := by
  rw [PS.firstGo, runOne_tryCatch]
  rcases hg with hg | hg
  · rw [hg]
    simp only [hf, Bool.false_eq_true, if_false]
    rw [runOne_psPosition_bind _ _ hc]
    simp only [Option.getD]
    rw [runOne_psPosition_bind _ _ hc]
    simp only [Option.getD]
  · rw [hg]
    simp only [hf, Bool.false_eq_true, if_false]
    rw [injStep_psPosition_bind, runOne_psPosition_bind _ _ hc]
    simp only [Option.getD]
    rw [runOne_psPosition_bind _ _ hc]
    simp only [Option.getD]

/-- One loop iteration of first when the branch fails fatally: the error is
re-raised at once, without rewinding and without trying later branches. -/
theorem firstGo_cons_fatal {I A : Type} {buf : List I} {init idx : Nat}
    {fe : Option (Nat × Nat × Err)} {g : Coro I A} {gs : List (Coro I A)}
    {e : Err} {c : Nat} (hf : e.fatal = true) :
    (runOne buf true g init = .fail e c →
      runOne buf true (PS.firstGo init idx fe (g :: gs)) init = .fail e c) ∧
    (runOne buf true g init = .failInj e c →
      runOne buf true (PS.firstGo init idx fe (g :: gs)) init = .failInj e c) := by
  constructor
  · intro hg
    rw [PS.firstGo, runOne_tryCatch, hg]
    simp only [hf, if_true, runOne_fail]
  · intro hg
    rw [PS.firstGo, runOne_tryCatch, hg]
    simp only [hf, if_true, injStep]

/-- The epilogue of first after the loop: re-raise the recorded furthest
failure at its position (assertion failure when there was no branch). -/
theorem firstGo_nil {I A : Type} {buf : List I} {init idx : Nat}
    {fe : Option (Nat × Nat × Err)} (hinit : init ≤ buf.length) :
    runOne buf true (PS.firstGo (I := I) (A := A) init idx fe []) init =
      match fe with
      | some (_, p, e) => .fail e p
      | none => .fail assertionErr init := by
  match fe with
  | none => rw [PS.firstGo, runOne_fail]
  | some (j, p, e) =>
    rw [PS.firstGo, runOne_psPosition_bind _ _ hinit]
    simp only [Option.getD, runOne_fail]

/-- Running the first loop when branch i succeeds and every earlier branch
fails non-fatally: the loop returns branch i's value and end cursor. -/
theorem firstGo_success {I A : Type} {buf : List I} {init : Nat}
    (hinit : init ≤ buf.length) :
    ∀ (gs : List (Coro I A)) (i : Nat) (hi : i < gs.length) (idx : Nat)
      (fe : Option (Nat × Nat × Err)) (v : A) (c : Nat),
      (∀ j (hj : j < i), ∃ e0 c0,
        FailsAt buf (gs.get ⟨j, lt_trans hj hi⟩) init e0 c0 ∧
        e0.fatal = false ∧ c0 ≤ buf.length) →
      SucceedsAt buf (gs.get ⟨i, hi⟩) init v c → c ≤ buf.length →
      runOne buf true (PS.firstGo init idx fe gs) init = .done ⟨idx + i, c, v⟩ c
  | [], i, hi, _, _, _, _ => absurd hi (Nat.not_lt_zero i)
  | g :: gs, 0, hi, idx, fe, v, c => by
    intro _ hsucc hc
    simpa using firstGo_cons_succ (by simpa using hsucc) hc
  | g :: gs, i + 1, hi, idx, fe, v, c => by
    intro hpre hsucc hc
    obtain ⟨e0, c0, hfail, hf, hc0⟩ := hpre 0 (Nat.succ_pos i)
    rw [firstGo_cons_failNF (by simpa using hfail) hf hc0]
    have hi' : i < gs.length := by simpa using hi
    have := firstGo_success hinit gs i hi' (idx + 1) (PS.bump fe idx c0 e0) v c
      (fun j hj => by
        obtain ⟨e1, c1, h1, h2, h3⟩ := hpre (j + 1) (Nat.succ_lt_succ hj)
        exact ⟨e1, c1, by simpa using h1, h2, h3⟩)
      (by simpa using hsucc) hc
    rw [this]
    have : idx + 1 + i = idx + (i + 1) := by omega
    rw [this]

/-- Running the first loop when every branch fails non-fatally: the result is
the rendering of the folded furthest-failure accumulator. -/
theorem firstGo_allfail {I A : Type} {buf : List I} {init : Nat}
    (hinit : init ≤ buf.length) :
    ∀ (gs : List (Coro I A)) (outs : List (Err × Nat)) (idx : Nat)
      (fe : Option (Nat × Nat × Err)) (hlen : gs.length = outs.length),
      (∀ j (hj : j < gs.length),
        FailsAt buf (gs.get ⟨j, hj⟩) init
          (outs.get ⟨j, by omega⟩).1 (outs.get ⟨j, by omega⟩).2 ∧
        (outs.get ⟨j, by omega⟩).1.fatal = false ∧
        (outs.get ⟨j, by omega⟩).2 ≤ buf.length) →
      runOne buf true (PS.firstGo init idx fe gs) init =
        match PS.foldBest idx fe outs with
        | some (_, p, e) => .fail e p
        | none => .fail assertionErr init
  | [], outs, idx, fe, hlen => by
    intro _
    have : outs = [] := List.length_eq_zero.mp (by simpa using hlen.symm)
    subst this
    rw [firstGo_nil hinit, PS.foldBest]
  | g :: gs, outs, idx, fe, hlen => by
    intro hout
    match outs, hlen with
    | (e0, c0) :: outs, hlen =>
      obtain ⟨hfail, hf, hc0⟩ := hout 0 (Nat.succ_pos _)
      rw [firstGo_cons_failNF (by simpa using hfail) (by simpa using hf)
        (by simpa using hc0)]
      rw [firstGo_allfail hinit gs outs (idx + 1) (PS.bump fe idx c0 e0)
        (by simpa using hlen)
        (fun j hj => by
          obtain ⟨h1, h2, h3⟩ := hout (j + 1) (Nat.succ_lt_succ hj)
          exact ⟨by simpa using h1, by simpa using h2, by simpa using h3⟩)]
      rw [PS.foldBest]

/-- Running the first loop when branch i fails fatally after a prefix of
non-fatal failures: branch i's error escapes immediately with the cursor
where that branch stopped. -/
theorem firstGo_fatal {I A : Type} {buf : List I} {init : Nat}
    (hinit : init ≤ buf.length) :
    ∀ (gs : List (Coro I A)) (i : Nat) (hi : i < gs.length) (idx : Nat)
      (fe : Option (Nat × Nat × Err)) (e : Err) (c : Nat),
      (∀ j (hj : j < i), ∃ e0 c0,
        FailsAt buf (gs.get ⟨j, lt_trans hj hi⟩) init e0 c0 ∧
        e0.fatal = false ∧ c0 ≤ buf.length) →
      e.fatal = true →
      (runOne buf true (gs.get ⟨i, hi⟩) init = .fail e c →
        runOne buf true (PS.firstGo init idx fe gs) init = .fail e c) ∧
      (runOne buf true (gs.get ⟨i, hi⟩) init = .failInj e c →
        runOne buf true (PS.firstGo init idx fe gs) init = .failInj e c)
  | [], i, hi, _, _, _, _ => absurd hi (Nat.not_lt_zero i)
  | g :: gs, 0, hi, idx, fe, e, c => by
    intro _ hfat
    constructor
    · intro hg
      exact (firstGo_cons_fatal hfat).1 (by simpa using hg)
    · intro hg
      exact (firstGo_cons_fatal hfat).2 (by simpa using hg)
  | g :: gs, i + 1, hi, idx, fe, e, c => by
    intro hpre hfat
    obtain ⟨e0, c0, hfail, hf, hc0⟩ := hpre 0 (Nat.succ_pos i)
    have hi' : i < gs.length := by simpa using hi
    have hrec := firstGo_fatal hinit gs i hi' (idx + 1) (PS.bump fe idx c0 e0) e c
      (fun j hj => by
        obtain ⟨e1, c1, h1, h2, h3⟩ := hpre (j + 1) (Nat.succ_lt_succ hj)
        exact ⟨e1, c1, by simpa using h1, h2, h3⟩)
      hfat
    constructor
    · intro hg
      rw [firstGo_cons_failNF (by simpa using hfail) hf hc0]
      exact hrec.1 (by simpa using hg)
    · intro hg
      rw [firstGo_cons_failNF (by simpa using hfail) hf hc0]
      exact hrec.2 (by simpa using hg)

/-- Entering first with a non-empty branch list reads the entry cursor and
runs the loop. -/
theorem first_unfold {I A : Type} {buf : List I} {cur0 : Nat}
    (gs : List (Coro I A)) (hne : gs ≠ []) (hcur : cur0 ≤ buf.length) :
    runOne buf true (PS.first gs) cur0 =
      runOne buf true (PS.firstGo cur0 0 none gs) cur0 := by
  rw [PS.first]
  rw [if_neg (by simpa [List.isEmpty_iff] using hne)]
  rw [runOne_psPosition_bind _ _ hcur]
  simp only [Option.getD]

/-- C1: ParserStream.first on a non-empty list of parser coroutines, run on
terminal input from a common start cursor: (a) if every branch before i fails
non-fatally and branch i succeeds, first returns branch i's value and leaves
the cursor exactly where branch i stopped; (b) if every branch fails
non-fatally, first sets the cursor to the highest position any failing branch
reached and re-raises the error of a branch that reached that furthest
position; (c) a fatal failure of a branch (after non-fatally failing earlier
branches) is re-raised immediately, without trying later branches and without
rewinding. -/
theorem c1_first_spec {I A : Type} (gs : List (Coro I A)) (buf : List I) (cur0 : Nat)
    (hne : gs ≠ []) (hcur : cur0 ≤ buf.length) :
    (∀ i (hi : i < gs.length) (v : A) (c : Nat),
      (∀ j (hj : j < i), ∃ e0 c0,
        FailsAt buf (gs.get ⟨j, lt_trans hj hi⟩) cur0 e0 c0 ∧ e0.fatal = false ∧
        c0 ≤ buf.length) →
      SucceedsAt buf (gs.get ⟨i, hi⟩) cur0 v c → c ≤ buf.length →
      runOne buf true (PS.first gs) cur0 = .done ⟨i, c, v⟩ c) ∧
    (∀ (E : Nat → Err) (C : Nat → Nat),
      (∀ j (hj : j < gs.length),
        FailsAt buf (gs.get ⟨j, hj⟩) cur0 (E j) (C j) ∧ (E j).fatal = false ∧
        C j ≤ buf.length) →
      ∃ m, ∃ hm : m < gs.length,
        (∀ j (hj : j < gs.length), C j ≤ C m) ∧
        runOne buf true (PS.first gs) cur0 = .fail (E m) (C m)) ∧
    (∀ i (hi : i < gs.length) (e : Err) (c : Nat),
      (∀ j (hj : j < i), ∃ e0 c0,
        FailsAt buf (gs.get ⟨j, lt_trans hj hi⟩) cur0 e0 c0 ∧ e0.fatal = false ∧
        c0 ≤ buf.length) →
      e.fatal = true →
      (runOne buf true (gs.get ⟨i, hi⟩) cur0 = .fail e c →
        runOne buf true (PS.first gs) cur0 = .fail e c) ∧
      (runOne buf true (gs.get ⟨i, hi⟩) cur0 = .failInj e c →
        runOne buf true (PS.first gs) cur0 = .failInj e c)) := by
  refine ⟨?_, ?_, ?_⟩
  · intro i hi v c hpre hsucc hc
    rw [first_unfold gs hne hcur]
    simpa using firstGo_success hcur gs i hi 0 none v c hpre hsucc hc
  · intro E C hall
    have hne' : (List.range gs.length).map (fun j => (E j, C j)) ≠ [] := by
      intro h
      exact hne (by simpa using congrArg List.length h)
    obtain ⟨m, hm, heq, hmax⟩ :=
      PS.foldBest_none ((List.range gs.length).map (fun j => (E j, C j))) 0 hne'
    have hmlen : m < gs.length := by simpa using hm
    have hget : ∀ j (hj : j < gs.length),
        ((List.range gs.length).map (fun j => (E j, C j))).get ⟨j, by simpa using hj⟩ =
          (E j, C j) := by
      intro j hj
      simp [List.get_map]
    refine ⟨m, hmlen, ?_, ?_⟩
    · intro j hj
      have := hmax j (by simpa using hj)
      rwa [hget j hj, hget m hmlen] at this
    · rw [first_unfold gs hne hcur]
      rw [firstGo_allfail hcur gs ((List.range gs.length).map (fun j => (E j, C j))) 0 none
        (by simp)
        (fun j hj => by
          rw [hget j hj]
          exact hall j hj)]
      rw [heq, hget m hmlen]
  · intro i hi e c hpre hfat
    constructor
    · intro hg
      rw [first_unfold gs hne hcur]
      exact (firstGo_fatal hcur gs i hi 0 none e c hpre hfat).1 hg
    · intro hg
      rw [first_unfold gs hne hcur]
      exact (firstGo_fatal hcur gs i hi 0 none e c hpre hfat).2 hg

/-- A concrete parser that consumes two items and then fails non-fatally. -/
def failAfterTwo : Coro Nat Nat :=
  PS.consume.bind fun _ => PS.consume.bind fun _ => .fail ⟨false, false, "deep"⟩

/-- A concrete parser that consumes one item and returns it. -/
def succeedAfterOne : Coro Nat Nat :=
  PS.consume.bind fun x => .done x

/-- Witness for C1 at a concrete input: on buffer [7, 8, 9], a first whose
branch 0 consumes two items and fails while branch 1 consumes one item and
succeeds returns branch 1's value with the cursor at 1. -/
theorem c1_first_spec_witness :
    runOne [7, 8, 9] true (PS.first [failAfterTwo, succeedAfterOne]) 0 =
      .done ⟨1, 1, 7⟩ 1 := by
  refine (c1_first_spec [failAfterTwo, succeedAfterOne] [7, 8, 9] 0
    (List.cons_ne_nil _ _) (Nat.zero_le _)).1 1 (by decide) 7 1 ?_ (Or.inl rfl) (by decide)
  intro j hj
  cases j with
  | zero => exact ⟨⟨false, false, "deep"⟩, 2, Or.inl rfl, rfl, by decide⟩
  | succ n => omega

/-- The per-branch outcome record used to describe furthest: a value or a
non-fatal error, together with the cursor the branch reached. -/
def OutcomeAt {I A : Type} (buf : List I) (g : Coro I A) (cur : Nat)
    (o : (A ⊕ Err) × Nat) : Prop :=
  match o.1 with
  | .inl v => SucceedsAt buf g cur v o.2
  | .inr e => FailsAt buf g cur e o.2 ∧ e.fatal = false

/-- Rendering of the final furthestResult accumulator by the epilogue of
furthest: set the cursor to the recorded position, then return the value or
re-raise the error. -/
def renderBest {I A : Type} (acc : Option (Nat × Nat × (A ⊕ Err))) (init : Nat) :
    RunRes I (PS.ChoiceRes A) :=
  match acc with
  | none => .fail assertionErr init
  | some (j, p, .inl v) => .done ⟨j, p, v⟩ p
  | some (_, p, .inr e) => .fail e p

/-- One loop iteration of furthest when the branch succeeds: record the
success if it went strictly furthest, rewind, and continue. -/
theorem furthestGo_cons_succ {I A : Type} {buf : List I} {init idx : Nat}
    {acc : Option (Nat × Nat × (A ⊕ Err))} {g : Coro I A} {gs : List (Coro I A)}
    {v : A} {c : Nat}
    (hg : SucceedsAt buf g init v c) (hc : c ≤ buf.length) :
    runOne buf true (PS.furthestGo init idx acc (g :: gs)) init =
      runOne buf true
        (PS.furthestGo init (idx + 1) (PS.bump acc idx c (Sum.inl v)) gs) init := by
  rw [PS.furthestGo, runOne_tryCatch]
  rcases hg with hg | hg
  · rw [hg]
    simp only []
    rw [runOne_psPosition_bind _ _ hc]
    simp only [Option.getD]
    rw [runOne_psPosition_bind _ _ hc]
    simp only [Option.getD]
  · rw [hg]
    simp only []
    rw [injStep_psPosition_bind, runOne_psPosition_bind _ _ hc]
    simp only [Option.getD]
    rw [runOne_psPosition_bind _ _ hc]
    simp only [Option.getD]

/-- One loop iteration of furthest when the branch fails non-fatally: record
the failure if it went strictly furthest, rewind, and continue. -/
theorem furthestGo_cons_failNF {I A : Type} {buf : List I} {init idx : Nat}
    {acc : Option (Nat × Nat × (A ⊕ Err))} {g : Coro I A} {gs : List (Coro I A)}
    {e0 : Err} {c0 : Nat}
    (hg : FailsAt buf g init e0 c0) (hf : e0.fatal = false) (hc : c0 ≤ buf.length) :
    runOne buf true (PS.furthestGo init idx acc (g :: gs)) init =
      runOne buf true
        (PS.furthestGo init (idx + 1) (PS.bump acc idx c0 (Sum.inr e0)) gs) init := by
  rw [PS.furthestGo, runOne_tryCatch]
  rcases hg with hg | hg
  · rw [hg]
    simp only [hf, Bool.false_eq_true, if_false]
    rw [runOne_psPosition_bind _ _ hc]
    simp only [Option.getD]
    rw [runOne_psPosition_bind _ _ hc]
    simp only [Option.getD]
  · rw [hg]
    simp only [hf, Bool.false_eq_true, if_false]
    rw [injStep_psPosition_bind, runOne_psPosition_bind _ _ hc]
    simp only [Option.getD]
    rw [runOne_psPosition_bind _ _ hc]
    simp only [Option.getD]

/-- One loop iteration of furthest when the branch fails fatally: the finally
clause rewinds to the entry cursor and the error is then re-raised. -/
theorem furthestGo_cons_fatal {I A : Type} {buf : List I} {init idx : Nat}
    {acc : Option (Nat × Nat × (A ⊕ Err))} {g : Coro I A} {gs : List (Coro I A)}
    {e : Err} {c : Nat} (hf : e.fatal = true) (hc : c ≤ buf.length)
    (hg : FailsAt buf g init e c) :
    runOne buf true (PS.furthestGo init idx acc (g :: gs)) init = .fail e init := by
  rw [PS.furthestGo, runOne_tryCatch]
  rcases hg with hg | hg
  · rw [hg]
    simp only [hf, if_true]
    rw [runOne_psPosition_bind _ _ hc]
    simp only [Option.getD, runOne_fail]
  · rw [hg]
    simp only [hf, if_true]
    rw [injStep_psPosition_bind, runOne_psPosition_bind _ _ hc]
    simp only [Option.getD, runOne_fail]

/-- The epilogue of furthest after the loop: render the recorded furthest
outcome at its position. -/
theorem furthestGo_nil {I A : Type} {buf : List I} {init idx : Nat}
    {acc : Option (Nat × Nat × (A ⊕ Err))} (hinit : init ≤ buf.length) :
    runOne buf true (PS.furthestGo (I := I) init idx acc []) init =
      renderBest acc init := by
  match acc with
  | none => rw [PS.furthestGo, renderBest, runOne_fail]
  | some (j, p, .inl v) =>
    rw [PS.furthestGo, runOne_psPosition_bind _ _ hinit, renderBest]
    simp only [Option.getD, runOne_done]
  | some (j, p, .inr e) =>
    rw [PS.furthestGo, runOne_psPosition_bind _ _ hinit, renderBest]
    simp only [Option.getD, runOne_fail]

/-- Running the furthest loop when every branch either succeeds or fails
non-fatally: the result renders the folded furthest-outcome accumulator. -/
theorem furthestGo_run {I A : Type} {buf : List I} {init : Nat}
    (hinit : init ≤ buf.length) :
    ∀ (gs : List (Coro I A)) (outs : List ((A ⊕ Err) × Nat)) (idx : Nat)
      (acc : Option (Nat × Nat × (A ⊕ Err))) (hlen : gs.length = outs.length),
      (∀ j (hj : j < gs.length),
        OutcomeAt buf (gs.get ⟨j, hj⟩) init (outs.get ⟨j, by omega⟩) ∧
        (outs.get ⟨j, by omega⟩).2 ≤ buf.length) →
      runOne buf true (PS.furthestGo init idx acc gs) init =
        renderBest (PS.foldBest idx acc outs) init
  | [], outs, idx, acc, hlen => by
    intro _
    have : outs = [] := List.length_eq_zero.mp (by simpa using hlen.symm)
    subst this
    rw [furthestGo_nil hinit, PS.foldBest]
  | g :: gs, outs, idx, acc, hlen => by
    intro hout
    match outs, hlen with
    | (r0, c0) :: outs, hlen =>
      obtain ⟨ho, hc0⟩ := hout 0 (Nat.succ_pos _)
      have step : runOne buf true (PS.furthestGo init idx acc (g :: gs)) init =
          runOne buf true
            (PS.furthestGo init (idx + 1) (PS.bump acc idx c0 r0) gs) init := by
        match r0, ho with
        | .inl v, ho =>
          exact furthestGo_cons_succ (by simpa [OutcomeAt] using ho)
            (by simpa using hc0)
        | .inr e, ho =>
          exact furthestGo_cons_failNF (by simpa [OutcomeAt] using ho.1)
            (by simpa [OutcomeAt] using ho.2) (by simpa using hc0)
      rw [step]
      rw [furthestGo_run hinit gs outs (idx + 1) (PS.bump acc idx c0 r0)
        (by simpa using hlen)
        (fun j hj => by
          obtain ⟨h1, h2⟩ := hout (j + 1) (Nat.succ_lt_succ hj)
          exact ⟨by simpa using h1, by simpa using h2⟩)]
      rw [PS.foldBest]

/-- Entering furthest reads the entry cursor and runs the loop. -/
theorem furthest_unfold {I A : Type} {buf : List I} {cur0 : Nat}
    (gs : List (Coro I A)) (hcur : cur0 ≤ buf.length) :
    runOne buf true (PS.furthest gs) cur0 =
      runOne buf true (PS.furthestGo cur0 0 none gs) cur0 := by
  rw [PS.furthest]
  rw [runOne_psPosition_bind _ _ hcur]
  simp only [Option.getD]

/-- Running the furthest loop when branch i fails fatally after earlier
branches produced any (non-fatal) outcomes: the fatal error escapes with the
cursor rewound to the entry position by the finally clause. -/
theorem furthestGo_fatal {I A : Type} {buf : List I} {init : Nat}
    (hinit : init ≤ buf.length) :
    ∀ (gs : List (Coro I A)) (i : Nat) (hi : i < gs.length) (idx : Nat)
      (acc : Option (Nat × Nat × (A ⊕ Err))) (e : Err) (c : Nat),
      (∀ j (hj : j < i), ∃ o,
        OutcomeAt buf (gs.get ⟨j, lt_trans hj hi⟩) init o ∧ o.2 ≤ buf.length) →
      e.fatal = true → c ≤ buf.length →
      FailsAt buf (gs.get ⟨i, hi⟩) init e c →
      runOne buf true (PS.furthestGo init idx acc gs) init = .fail e init
  | [], i, hi, _, _, _, _ => absurd hi (Nat.not_lt_zero i)
  | g :: gs, 0, hi, idx, acc, e, c => by
    intro _ hfat hc hfail
    exact furthestGo_cons_fatal hfat hc (by simpa using hfail)
  | g :: gs, i + 1, hi, idx, acc, e, c => by
    intro hpre hfat hc hfail
    obtain ⟨o, ho, hoc⟩ := hpre 0 (Nat.succ_pos i)
    have hi' : i < gs.length := by simpa using hi
    have step : runOne buf true (PS.furthestGo init idx acc (g :: gs)) init =
        runOne buf true
          (PS.furthestGo init (idx + 1) (PS.bump acc idx o.2 o.1) gs) init := by
      match o, ho with
      | (.inl v, c0), ho =>
        exact furthestGo_cons_succ (by simpa [OutcomeAt] using ho) hoc
      | (.inr e0, c0), ho =>
        exact furthestGo_cons_failNF (by simpa [OutcomeAt] using ho.1)
          (by simpa [OutcomeAt] using ho.2) hoc
    rw [step]
    exact furthestGo_fatal hinit gs i hi' (idx + 1) (PS.bump acc idx o.2 o.1) e c
      (fun j hj => by
        obtain ⟨o1, h1, h2⟩ := hpre (j + 1) (Nat.succ_lt_succ hj)
        exact ⟨o1, by simpa using h1, h2⟩)
      hfat hc (by simpa using hfail)

/-- C2 counterexample: on buffer [7, 8, 9], branch 0 consumes one item and
succeeds (end cursor 1), branch 1 consumes two items and then fails
non-fatally (end cursor 2).  furthest re-raises branch 1's error at cursor 2
even though branch 0 succeeded, contradicting the claim that furthest
"reports a failure only when all branches fail" and returns the successful
branch that advanced the furthest. -/
theorem c2_furthest_counterexample :
    runOne [7, 8, 9] true (PS.furthest [succeedAfterOne, failAfterTwo]) 0 =
      .fail ⟨false, false, "deep"⟩ 2 ∧
    runOne [7, 8, 9] true succeedAfterOne 0 = .done 7 1 :=
  ⟨rfl, rfl⟩

/-- C2 (amended): furthest runs every branch of a non-empty list from the
same start cursor and keeps the single outcome, success or failure, that
reached the strictly highest cursor (the earliest such branch on ties); it
sets the cursor to that position and returns the value if that outcome was a
success or re-raises its error if it was a failure (so a failure that went
strictly further than every success is reported even though some branch
succeeded); a fatal failure of a branch is re-raised immediately, with the
cursor restored to the entry position by the finally clause, without trying
later branches. -/
theorem c2_furthest_spec {I A : Type} (gs : List (Coro I A)) (buf : List I)
    (cur0 : Nat) (hne : gs ≠ []) (hcur : cur0 ≤ buf.length) :
    (∀ (R : Nat → A ⊕ Err) (C : Nat → Nat),
      (∀ j (hj : j < gs.length),
        OutcomeAt buf (gs.get ⟨j, hj⟩) cur0 (R j, C j) ∧ C j ≤ buf.length) →
      ∃ m, ∃ hm : m < gs.length,
        (∀ j (hj : j < gs.length), C j ≤ C m) ∧
        runOne buf true (PS.furthest gs) cur0 =
          (match R m with
           | .inl v => .done ⟨m, C m, v⟩ (C m)
           | .inr e => .fail e (C m))) ∧
    (∀ i (hi : i < gs.length) (e : Err) (c : Nat),
      (∀ j (hj : j < i), ∃ o,
        OutcomeAt buf (gs.get ⟨j, lt_trans hj hi⟩) cur0 o ∧ o.2 ≤ buf.length) →
      e.fatal = true → c ≤ buf.length →
      FailsAt buf (gs.get ⟨i, hi⟩) cur0 e c →
      runOne buf true (PS.furthest gs) cur0 = .fail e cur0) := by
  constructor
  · intro R C hall
    have hne' : (List.range gs.length).map (fun j => (R j, C j)) ≠ [] := by
      intro h
      exact hne (by simpa using congrArg List.length h)
    obtain ⟨m, hm, heq, hmax⟩ :=
      PS.foldBest_none ((List.range gs.length).map (fun j => (R j, C j))) 0 hne'
    have hmlen : m < gs.length := by simpa using hm
    have hget : ∀ j (hj : j < gs.length),
        ((List.range gs.length).map (fun j => (R j, C j))).get ⟨j, by simpa using hj⟩ =
          (R j, C j) := by
      intro j hj
      simp [List.getElem_map]
    refine ⟨m, hmlen, ?_, ?_⟩
    · intro j hj
      have := hmax j (by simpa using hj)
      rwa [hget j hj, hget m hmlen] at this
    · rw [furthest_unfold gs hcur]
      rw [furthestGo_run hcur gs ((List.range gs.length).map (fun j => (R j, C j))) 0 none
        (by simp)
        (fun j hj => by
          rw [hget j hj]
          exact hall j hj)]
      rw [heq, hget m hmlen]
      match R m with
      | .inl v => simp [renderBest]
      | .inr e => simp [renderBest]
  · intro i hi e c hpre hfat hc hfail
    rw [furthest_unfold gs hcur]
    exact furthestGo_fatal hcur gs i hi 0 none e c hpre hfat hc hfail

/-- A concrete parser that consumes one item and then fails fatally. -/
def fatalAfterOne : Coro Nat Nat :=
  PS.consume.bind fun _ => .fail ⟨false, true, "boom"⟩

/-- Witness for the amended C2 at a concrete input: with branch 0 succeeding
and branch 1 failing fatally, furthest re-raises the fatal error with the
cursor back at the entry position 0. -/
theorem c2_furthest_spec_witness :
    runOne [7, 8, 9] true (PS.furthest [succeedAfterOne, fatalAfterOne]) 0 =
      .fail ⟨false, true, "boom"⟩ 0 := by
  refine (c2_furthest_spec [succeedAfterOne, fatalAfterOne] [7, 8, 9] 0
    (List.cons_ne_nil _ _) (Nat.zero_le _)).2 1 (by decide) ⟨false, true, "boom"⟩ 1
    ?_ rfl (by decide) (Or.inl rfl)
  intro j hj
  cases j with
  | zero => exact ⟨(Sum.inl 7, 1), Or.inl rfl, by decide⟩
  | succ n => omega

/-- Engine state between chunks: the uncommitted input buffer, the cursor,
the suspended coroutine (if any), and the outputs emitted so far (the
flattened concatenation of the yielded output batches). -/
structure ESt (I O : Type) where
  buf : List I
  cur : Nat
  pend : Option (Coro I O)
  outs : List O

/-- Result of feeding chunks so far: still streaming, or the transform
generator threw (terminating the stream with that error). -/
inductive Feed (I O : Type) where
  | ok (st : ESt I O)
  | err (outs : List O) (e : Err)

/-- Result of the whole stream: completed, terminated by an error, or stuck
forever (flush loop spinning with the cursor beyond the buffer). -/
inductive Final (I O : Type) where
  | success (outs : List O)
  | failure (outs : List O) (e : Err)
  | hung (outs : List O)

/-- What one round of the streaming loop does. -/
inductive DStep (I O : Type) where
  | idle
  | blocked (c' : Coro I O) (cur' : Nat)
  | commit (value : O) (cur' : Nat)
  | bad (e : Err)

/-- One round of the streaming loop of process(chunk): start the parser when
idle and the cursor is inside the buffer, then drive the live coroutine.
Completion is a commit; an escaping error kills the stream.  Injection
results cannot appear in streaming mode. -/
def driveStep {I O : Type} (p : Coro I O) (buf : List I) (cur : Nat)
    (pend : Option (Coro I O)) : DStep I O :=
  match (match pend with
         | some c => some c
         | none => if cur < buf.length then some p else none) with
  | none => .idle
  | some c =>
    match runOne buf false c cur with
    | .blocked c' cur' => .blocked c' cur'
    | .done v cur' => .commit v cur'
    | .doneInj _ _ => .bad engineBugErr
    | .fail e _ => .bad e
    | .failInj _ _ => .bad engineBugErr
    | .hang _ => .bad engineBugErr

/-- The streaming part of process(chunk): iterate driveStep, committing
completed results (erroring when the cursor is still 0) and stopping when
more input is needed.  Fuel only bounds the number of commits of the model;
every commit removes buffered items, so buf.length + 2 rounds suffice. -/
def driveAux {I O : Type} (p : Coro I O) :
    Nat → List I → Nat → Option (Coro I O) → List O → Feed I O
  | 0, _, _, _, outs => .err outs fuelErr
  | fuel + 1, buf, cur, pend, outs =>
    match driveStep p buf cur pend with
    | .idle => .ok ⟨buf, cur, pend, outs⟩
    | .blocked c' cur' => .ok ⟨buf, cur', some c', outs⟩
    | .commit v cur' =>
      if cur' = 0 then .err outs progressErr
      else driveAux p fuel (buf.drop cur') 0 none (outs ++ [v])
    | .bad e => .err outs e

/-- What one round of the flush loop does. -/
inductive FStep (I O : Type) where
  | idle
  | commit (value : O) (cur' : Nat)
  | abandon (cur' : Nat)
  | bad (e : Err)
  | stuck

/-- One round of the flush loop (process(null) with terminal input):
end-of-input is injected into Peek/Consume at the buffer end; an
EndOfParserStream escaping straight out of the generator.throw call abandons
the coroutine; any other escaping error kills the stream; completion is a
commit; a cursor beyond the buffer spins forever. -/
def flushStep {I O : Type} (p : Coro I O) (buf : List I) (cur : Nat)
    (pend : Option (Coro I O)) : FStep I O :=
  match (match pend with
         | some c => some c
         | none => if cur < buf.length then some p else none) with
  | none => .idle
  | some c =>
    match runOne buf true c cur with
    | .done v cur' => .commit v cur'
    | .doneInj v cur' => .commit v cur'
    | .fail e _ => .bad e
    | .failInj e cur' => if e.eos then .abandon cur' else .bad e
    | .hang _ => .stuck
    | .blocked _ _ => .bad engineBugErr

/-- The flush part of the stream close, followed by the leftover-input
check. -/
def flushAux {I O : Type} (p : Coro I O) :
    Nat → List I → Nat → Option (Coro I O) → List O → Final I O
  | 0, _, _, _, outs => .failure outs fuelErr
  | fuel + 1, buf, cur, pend, outs =>
    match flushStep p buf cur pend with
    | .idle => if buf.isEmpty then .success outs else .failure outs leftoverErr
    | .commit v cur' =>
      if cur' = 0 then .failure outs progressErr
      else flushAux p fuel (buf.drop cur') 0 none (outs ++ [v])
    | .abandon cur' => flushAux p fuel buf cur' none outs
    | .bad e => .failure outs e
    | .stuck => .hung outs

/-- process(chunk) on the current engine state, with enough fuel. -/
def driveTop {I O : Type} (p : Coro I O) (buf : List I) (cur : Nat)
    (pend : Option (Coro I O)) (outs : List O) : Feed I O :=
  driveAux p (buf.length + 2) buf cur pend outs

/-- Feeding one chunk to the stream (append to the buffer and run the
streaming loop); after an error the stream stays terminated. -/
def feedChunk {I O : Type} (p : Coro I O) : Feed I O → List I → Feed I O
  | .err outs e, _ => .err outs e
  | .ok st, chunk => driveTop p (st.buf ++ chunk) st.cur st.pend st.outs

/-- Feeding a whole sequence of input chunks from the initial engine state. -/
def runChunks {I O : Type} (p : Coro I O) (chunks : List (List I)) : Feed I O :=
  chunks.foldl (feedChunk p) (.ok ⟨[], 0, none, []⟩)

/-- What happens at stream close: if a coroutine is suspended, run the flush
loop; otherwise only the leftover-input check remains. -/
def finishFeed {I O : Type} (p : Coro I O) : Feed I O → Final I O
  | .err outs e => .failure outs e
  | .ok st =>
    match st.pend with
    | none => if st.buf.isEmpty then .success st.outs else .failure st.outs leftoverErr
    | some _ => flushAux p (st.buf.length + 3) st.buf st.cur st.pend st.outs

/-- The whole pipeline stage: feed all chunks, then close the stream. -/
def runChunked {I O : Type} (p : Coro I O) (chunks : List (List I)) : Final I O :=
  finishFeed p (runChunks p chunks)

/-- Invariant of the streaming loop: a suspended coroutine exists only if the
buffer is non-empty (a coroutine is only started when the cursor is inside
the buffer, and a commit discards it). -/
def PendNonempty {I O : Type} (pend : Option (Coro I O)) (buf : List I) : Prop :=
  pend.isSome → buf ≠ []

/-- The streaming loop only works on a non-empty buffer. -/
theorem driveStep_ne_nil {I O : Type} {p : Coro I O} {buf : List I} {cur : Nat}
    {pend : Option (Coro I O)}
    (hpend : PendNonempty pend buf) (hstep : driveStep p buf cur pend ≠ .idle) :
    buf ≠ [] := by
  rcases pend with _ | c
  · by_cases hlt : cur < buf.length
    · intro hebuf
      rw [hebuf] at hlt
      exact Nat.not_lt_zero cur (by simpa using hlt)
    · exact absurd (by rw [driveStep]; simp [hlt]) hstep
  · exact hpend (by simp)

/-- Streaming progress: every output the streaming loop emits is paid for by
at least one input item removed from the buffer, and the suspension invariant
is preserved. -/
theorem driveAux_ok_bound {I O : Type} (p : Coro I O) :
    ∀ (fuel : Nat) (buf : List I) (cur : Nat) (pend : Option (Coro I O))
      (outs : List O) (st : ESt I O),
      PendNonempty pend buf →
      driveAux p fuel buf cur pend outs = .ok st →
      (st.outs.length + st.buf.length ≤ outs.length + buf.length) ∧
      PendNonempty st.pend st.buf
  | 0, buf, cur, pend, outs, st => by
    intro _ h
    simp [driveAux] at h
  | fuel + 1, buf, cur, pend, outs, st => by
    intro hpend h
    rw [driveAux] at h
    match hstep : driveStep p buf cur pend, h with
    | .idle, h =>
      simp only at h
      cases h
      exact ⟨le_refl _, hpend⟩
    | .blocked c' cur', h =>
      simp only at h
      cases h
      have hne : buf ≠ [] := driveStep_ne_nil hpend (by rw [hstep]; intro hc; cases hc)
      exact ⟨le_refl _, fun _ => hne⟩
    | .commit v cur', h =>
      simp only at h
      have hne : buf ≠ [] := driveStep_ne_nil hpend (by rw [hstep]; intro hc; cases hc)
      by_cases hz : cur' = 0
      · simp [hz] at h
      · simp only [hz, if_false] at h
        obtain ⟨hb, hp⟩ := driveAux_ok_bound p fuel (buf.drop cur') 0 none
          (outs ++ [v]) st (fun hs => by simp at hs) h
        refine ⟨?_, hp⟩
        have hlen : (buf.drop cur').length = buf.length - cur' := by simp
        have hb1 : 1 ≤ buf.length := by
          cases buf with
          | nil => exact absurd rfl hne
          | cons a l => simp
        simp only [List.length_append, List.length_singleton] at hb
        omega
    | .bad e, h =>
      simp at h

/-- Flush progress: every output the flush loop emits is paid for by at
least one input item removed from the buffer. -/
theorem flushAux_success_bound {I O : Type} (p : Coro I O) :
    ∀ (fuel : Nat) (buf : List I) (cur : Nat) (pend : Option (Coro I O))
      (outs outs' : List O),
      PendNonempty pend buf →
      flushAux p fuel buf cur pend outs = .success outs' →
      outs'.length ≤ outs.length + buf.length
  | 0, buf, cur, pend, outs, outs' => by
    intro _ h
    simp [flushAux] at h
  | fuel + 1, buf, cur, pend, outs, outs' => by
    intro hpend h
    rw [flushAux] at h
    match hstep : flushStep p buf cur pend, h with
    | .idle, h =>
      by_cases hb : buf.isEmpty
      · simp only [hb, if_true] at h
        cases h
        exact Nat.le_add_right _ _
      · simp [hb] at h
    | .commit v cur', h =>
      simp only at h
      by_cases hz : cur' = 0
      · simp [hz] at h
      · simp only [hz, if_false] at h
        have hb := flushAux_success_bound p fuel (buf.drop cur') 0 none
          (outs ++ [v]) outs' (fun hs => by simp at hs) h
        have hne : buf ≠ [] := by
          intro hebuf
          subst hebuf
          rcases pend with _ | c
          · rw [flushStep] at hstep
            simp at hstep
          · exact hpend (by simp) rfl
        have hb1 : 1 ≤ buf.length := by
          cases buf with
          | nil => exact absurd rfl hne
          | cons a l => simp
        have hlen : (buf.drop cur').length = buf.length - cur' := by simp
        simp only [List.length_append, List.length_singleton] at hb
        omega
    | .abandon cur', h =>
      simp only at h
      exact flushAux_success_bound p fuel buf cur' none outs outs'
        (fun hs => by simp at hs) h
    | .bad e, h => simp at h
    | .stuck, h => simp at h

/-- C4: the engine never commits without having advanced the cursor: a
coroutine completing with cursor 0 makes the engine raise the internal error
"parser doesn't consume any items" instead of committing (both in streaming
mode and in the flush loop, where completion may also happen inside the
end-of-input injection), and consequently the number of emitted outputs
never exceeds the number of input items removed from the buffer. -/
theorem c4_commit_progress {I O : Type} (p : Coro I O) :
    (∀ (fuel : Nat) (buf : List I) (cur : Nat) (c : Coro I O) (outs : List O) (v : O),
      runOne buf false c cur = .done v 0 →
      driveAux p (fuel + 1) buf cur (some c) outs = .err outs progressErr) ∧
    (∀ (fuel : Nat) (buf : List I) (cur : Nat) (c : Coro I O) (outs : List O) (v : O),
      (runOne buf true c cur = .done v 0 ∨ runOne buf true c cur = .doneInj v 0) →
      flushAux p (fuel + 1) buf cur (some c) outs = .failure outs progressErr) ∧
    (∀ (fuel : Nat) (buf : List I) (cur : Nat) (pend : Option (Coro I O))
        (outs : List O) (st : ESt I O),
      PendNonempty pend buf →
      driveAux p fuel buf cur pend outs = .ok st →
      st.outs.length + st.buf.length ≤ outs.length + buf.length) ∧
    (∀ (fuel : Nat) (buf : List I) (cur : Nat) (pend : Option (Coro I O))
        (outs outs' : List O),
      PendNonempty pend buf →
      flushAux p fuel buf cur pend outs = .success outs' →
      outs'.length ≤ outs.length + buf.length) := by
  refine ⟨?_, ?_, ?_, ?_⟩
  · intro fuel buf cur c outs v hrun
    rw [driveAux, driveStep]
    simp [hrun]
  · intro fuel buf cur c outs v hrun
    rw [flushAux, flushStep]
    rcases hrun with hrun | hrun <;> simp [hrun]
  · intro fuel buf cur pend outs st hpend h
    exact (driveAux_ok_bound p fuel buf cur pend outs st hpend h).1
  · intro fuel buf cur pend outs outs' hpend h
    exact flushAux_success_bound p fuel buf cur pend outs outs' hpend h

/-- Witness for C4 at a concrete input: a coroutine that returns immediately
(cursor still 0) over buffer [1] makes the streaming loop raise the internal
progress error. -/
theorem c4_commit_progress_witness :
    driveAux (PS.consume (I := Nat)) 3 [1] 0 (some (.done 42)) [] =
      .err [] progressErr :=
  (c4_commit_progress (PS.consume (I := Nat))).1 2 [1] 0 (.done 42) [] 42 rfl

/-- A coroutine run that blocked in streaming mode on a buffer resumes, on
any extension of that buffer and in either mode, exactly where it stopped:
replaying it from the start gives the same continuation. -/
theorem runOne_extend_blocked {I O : Type} :
    ∀ (c : Coro I O) (cur : Nat) (buf : List I) (c' : Coro I O) (cur' : Nat),
      runOne buf false c cur = .blocked c' cur' →
      ∀ (ext : List I) (eof2 : Bool),
        runOne (buf ++ ext) eof2 c cur = runOne (buf ++ ext) eof2 c' cur'
  | .done v, cur => by
    intro buf c' cur' h
    rw [runOne_done] at h
    cases h
  | .fail e, cur => by
    intro buf c' cur' h
    rw [runOne_fail] at h
    cases h
  | .peek k h, cur => by
    intro buf c' cur' hrun ext eof2
    by_cases hlt : cur < buf.length
    · rw [runOne_peek_lt false _ _ hlt] at hrun
      have hlt2 : cur < (buf ++ ext).length := by
        rw [List.length_append]
        omega
      rw [runOne_peek_lt eof2 _ _ hlt2]
      have hitem : (buf ++ ext).get ⟨cur, hlt2⟩ = buf.get ⟨cur, hlt⟩ := by
        simp [List.getElem_append_left hlt]
      rw [hitem]
      exact runOne_extend_blocked (k (buf.get ⟨cur, hlt⟩)) cur buf c' cur' hrun ext eof2
    · rw [runOne_peek_block _ _ hlt] at hrun
      cases hrun
      rfl
  | .consume k h, cur => by
    intro buf c' cur' hrun ext eof2
    by_cases hlt : cur < buf.length
    · rw [runOne_consume_lt false _ _ hlt] at hrun
      have hlt2 : cur < (buf ++ ext).length := by
        rw [List.length_append]
        omega
      rw [runOne_consume_lt eof2 _ _ hlt2]
      have hitem : (buf ++ ext).get ⟨cur, hlt2⟩ = buf.get ⟨cur, hlt⟩ := by
        simp [List.getElem_append_left hlt]
      rw [hitem]
      exact runOne_extend_blocked (k (buf.get ⟨cur, hlt⟩)) (cur + 1) buf c' cur' hrun ext eof2
    · rw [runOne_consume_block _ _ hlt] at hrun
      cases hrun
      rfl
  | .position a k, cur => by
    intro buf c' cur' hrun ext eof2
    by_cases hlt : cur < buf.length
    · rw [runOne_position_lt false _ _ hlt] at hrun
      have hlt2 : cur < (buf ++ ext).length := by
        rw [List.length_append]
        omega
      rw [runOne_position_lt eof2 _ _ hlt2]
      exact runOne_extend_blocked (k cur) (a.getD cur) buf c' cur' hrun ext eof2
    · rw [runOne_position_block _ _ hlt] at hrun
      cases hrun
      rfl

/-- A coroutine run that completed or failed in streaming mode does exactly
the same on any extension of the buffer, in either mode: it only ever looked
at items below the buffer length. -/
theorem runOne_extend_stable {I O : Type} :
    ∀ (c : Coro I O) (cur : Nat) (buf : List I) (r : RunRes I O),
      runOne buf false c cur = r →
      (∃ v cur', r = .done v cur') ∨ (∃ e cur', r = .fail e cur') →
      ∀ (ext : List I) (eof2 : Bool), runOne (buf ++ ext) eof2 c cur = r
  | .done v, cur => by
    intro buf r h _ ext eof2
    rw [runOne_done] at h
    subst h
    rw [runOne_done]
  | .fail e, cur => by
    intro buf r h _ ext eof2
    rw [runOne_fail] at h
    subst h
    rw [runOne_fail]
  | .peek k h, cur => by
    intro buf r hrun hshape ext eof2
    by_cases hlt : cur < buf.length
    · rw [runOne_peek_lt false _ _ hlt] at hrun
      have hlt2 : cur < (buf ++ ext).length := by
        rw [List.length_append]
        omega
      rw [runOne_peek_lt eof2 _ _ hlt2]
      have hitem : (buf ++ ext).get ⟨cur, hlt2⟩ = buf.get ⟨cur, hlt⟩ := by
        simp [List.getElem_append_left hlt]
      rw [hitem]
      exact runOne_extend_stable (k (buf.get ⟨cur, hlt⟩)) cur buf r hrun hshape ext eof2
    · rw [runOne_peek_block _ _ hlt] at hrun
      subst hrun
      rcases hshape with ⟨v, cur', hr⟩ | ⟨e, cur', hr⟩ <;> cases hr
  | .consume k h, cur => by
    intro buf r hrun hshape ext eof2
    by_cases hlt : cur < buf.length
    · rw [runOne_consume_lt false _ _ hlt] at hrun
      have hlt2 : cur < (buf ++ ext).length := by
        rw [List.length_append]
        omega
      rw [runOne_consume_lt eof2 _ _ hlt2]
      have hitem : (buf ++ ext).get ⟨cur, hlt2⟩ = buf.get ⟨cur, hlt⟩ := by
        simp [List.getElem_append_left hlt]
      rw [hitem]
      exact runOne_extend_stable (k (buf.get ⟨cur, hlt⟩)) (cur + 1) buf r hrun hshape ext eof2
    · rw [runOne_consume_block _ _ hlt] at hrun
      subst hrun
      rcases hshape with ⟨v, cur', hr⟩ | ⟨e, cur', hr⟩ <;> cases hr
  | .position a k, cur => by
    intro buf r hrun hshape ext eof2
    by_cases hlt : cur < buf.length
    · rw [runOne_position_lt false _ _ hlt] at hrun
      have hlt2 : cur < (buf ++ ext).length := by
        rw [List.length_append]
        omega
      rw [runOne_position_lt eof2 _ _ hlt2]
      exact runOne_extend_stable (k cur) (a.getD cur) buf r hrun hshape ext eof2
    · rw [runOne_position_block _ _ hlt] at hrun
      subst hrun
      rcases hshape with ⟨v, cur', hr⟩ | ⟨e, cur', hr⟩ <;> cases hr

/-- Cursor within a source (code_point.ts): 0-based position in code points,
column, and line.  The source URL is carried separately for diagnostics. -/
structure Cur where
  pos : Nat
  col : Nat
  line : Nat
deriving DecidableEq, Repr

/-- Span: inclusive begin cursor and exclusive end cursor. -/
structure Span where
  beginCur : Cur
  endCur : Cur
deriving DecidableEq, Repr

/-- Span.around from code_point.ts: with a last span, cover begin-to-end;
otherwise just the first span. -/
def Span.around (first : Span) (last : Option Span) : Span :=
  match last with
  | some l => ⟨first.beginCur, l.endCur⟩
  | none => first

/-- CodePoint: a Unicode scalar value plus its one-code-point span. -/
structure CodePoint where
  code : Nat
  span : Span
deriving DecidableEq, Repr

/-- Running position state of CodePointsStream. -/
structure CPSt where
  pos : Nat
  col : Nat
  line : Nat
deriving DecidableEq, Repr

/-- One chunk of CodePointsStream: every code point of the decoded chunk
becomes a CodePoint whose span runs from the state before it to the state
after it; a line feed resets the column and bumps the line, everything else
bumps the column; the position always advances by one. -/
def cpChunk : CPSt → List Nat → CPSt × List CodePoint
  | st, [] => (st, [])
  | st, c :: rest =>
    let b : Cur := ⟨st.pos, st.col, st.line⟩
    let st' : CPSt :=
      if c ≠ 10 then ⟨st.pos + 1, st.col + 1, st.line⟩ else ⟨st.pos + 1, 0, st.line + 1⟩
    let cp : CodePoint := ⟨c, ⟨b, ⟨st'.pos, st'.col, st'.line⟩⟩⟩
    let out := cpChunk st' rest
    (out.1, cp :: out.2)

/-- Feeding a sequence of decoded text chunks through CodePointsStream: one
CodePoint batch per chunk, with the position state carried across chunks. -/
def cpChunks : CPSt → List (List Nat) → List (List CodePoint)
  | _, [] => []
  | st, chunk :: rest =>
    let out := cpChunk st chunk
    out.2 :: cpChunks out.1 rest

/-- Token kinds of languages/ecmascript/token.ts (one class per kind). -/
inductive TokKind where
  | unknown
  | identifier
  | string
  | lineTerminator
  | whitespace
  | punctuator
deriving DecidableEq, Repr

/-- A token: its kind and the code points handed to the Token constructor.
The payload is the string of those code points and the span is
Span.around(first, last). -/
structure Tok where
  kind : TokKind
  cps : List CodePoint
deriving DecidableEq, Repr

/-- The token payload as a sequence of code point values
(String.fromCodePoint of the constructor arguments). -/
def Tok.payload (t : Tok) : List Nat := t.cps.map (·.code)

/-- The token span: Span.around(codePoints[0].span, codePoints.at(-1)?.span).
The source indexes codePoints[0] unconditionally; tokens are always built
from at least one code point, so the empty case is arbitrary. -/
def Tok.span (t : Tok) : Span :=
  match t.cps with
  | [] => ⟨⟨0, 0, 0⟩, ⟨0, 0, 0⟩⟩
  | hd :: _ => Span.around hd.span ((t.cps.getLast?).map (·.span))

/-- The lexical error of the string rule. -/
def unclosedStringErr : Err := ⟨false, false, "Unclosed string literal"⟩

/-- Predicate helpers of token.ts: a nullable code point equals a value. -/
def cpIs (n : Nat) : Option CodePoint → Bool
  | some cp => cp.code = n
  | none => false

/-- isWhitespace of token.ts: space or tab. -/
def isWhitespaceCp (c : Option CodePoint) : Bool :=
  cpIs 32 c || cpIs 9 c

/-- isDigit of token.ts: 0-9. -/
def isDigitCp : Option CodePoint → Bool
  | some cp => decide (48 ≤ cp.code ∧ cp.code ≤ 57)
  | none => false

/-- isAlphabet of token.ts: A-Z or a-z. -/
def isAlphabetCp : Option CodePoint → Bool
  | some cp => decide ((65 ≤ cp.code ∧ cp.code ≤ 90) ∨ (97 ≤ cp.code ∧ cp.code ≤ 122))
  | none => false

/-- isIdentifierStart of token.ts: dollar sign, letter, or low line. -/
def isIdentifierStartCp (c : Option CodePoint) : Bool :=
  cpIs 36 c || isAlphabetCp c || cpIs 95 c

/-- isIdentifierPart of token.ts: identifier start or digit. -/
def isIdentifierPartCp (c : Option CodePoint) : Bool :=
  isIdentifierStartCp c || isDigitCp c

/-- Tail of the lineTerminator rule: a lone line feed is a terminator token,
anything else is not this rule's token. -/
def lineTerminatorTail (i : CodePoint) : Coro CodePoint (Option Tok) :=
  if i.code = 10 then .done (some ⟨.lineTerminator, [i]⟩) else .done none

/-- lineTerminator rule of token.ts: a carriage return peeks for a following
line feed (restoring the cursor when there is none) and CRLF forms one
token; a lone LF is a token; a lone CR falls through to the later rules. -/
def lineTerminatorRule (i : CodePoint) : Coro CodePoint (Option Tok) :=
  if i.code = 13 then
    (PS.position none).bind fun cursor =>
      PS.tryConsume.bind fun cp? =>
        match cp? with
        | some cp =>
          if cp.code = 10 then .done (some ⟨.lineTerminator, [i, cp]⟩)
          else (PS.position (some cursor)).bind fun _ => lineTerminatorTail i
        | none => (PS.position (some cursor)).bind fun _ => lineTerminatorTail i
  else lineTerminatorTail i

/-- The while loop of the whitespace rule: keep consuming while the next code
point is whitespace. -/
def whitespaceLoop : Nat → List CodePoint → Coro CodePoint (Option Tok)
  | 0, _ => .fail fuelErr
  | f + 1, acc =>
    PS.tryPeek.bind fun cp? =>
      if isWhitespaceCp cp? then
        PS.consume.bind fun cp => whitespaceLoop f (acc ++ [cp])
      else .done (some ⟨.whitespace, acc⟩)

/-- whitespace rule of token.ts. -/
def whitespaceRule (f : Nat) (i : CodePoint) : Coro CodePoint (Option Tok) :=
  if isWhitespaceCp (some i) then whitespaceLoop f [i] else .done none

/-- punctuator rule of token.ts: exactly one of , . ; ( ). -/
def punctuatorRule (i : CodePoint) : Coro CodePoint (Option Tok) :=
  if cpIs 44 (some i) || cpIs 46 (some i) || cpIs 59 (some i) ||
      cpIs 40 (some i) || cpIs 41 (some i) then
    .done (some ⟨.punctuator, [i]⟩)
  else .done none

/-- The while loop of the identifier rule. -/
def identifierLoop : Nat → List CodePoint → Coro CodePoint (Option Tok)
  | 0, _ => .fail fuelErr
  | f + 1, acc =>
    PS.tryPeek.bind fun cp? =>
      if isIdentifierPartCp cp? then
        PS.consume.bind fun cp => identifierLoop f (acc ++ [cp])
      else .done (some ⟨.identifier, acc⟩)

/-- identifier rule of token.ts. -/
def identifierRule (f : Nat) (i : CodePoint) : Coro CodePoint (Option Tok) :=
  if isIdentifierStartCp (some i) then identifierLoop f [i] else .done none

/-- The scan loop of the string rule: consume the next code point; a line
feed or end of input raises "Unclosed string literal"; the code point is
appended and a code point equal to the opening quote ends the token. -/
def stringLoop : Nat → Nat → List CodePoint → Coro CodePoint (Option Tok)
  | 0, _, _ => .fail fuelErr
  | f + 1, q, acc =>
    PS.tryConsume.bind fun cp? =>
      match cp? with
      | none => .fail unclosedStringErr
      | some cp =>
        if cp.code = 10 then .fail unclosedStringErr
        else
          if cp.code = q then .done (some ⟨.string, acc ++ [cp]⟩)
          else stringLoop f q (acc ++ [cp])

/-- string rule of token.ts: opened by a quotation mark or apostrophe. -/
def stringRule (f : Nat) (i : CodePoint) : Coro CodePoint (Option Tok) :=
  if cpIs 34 (some i) || cpIs 39 (some i) then stringLoop f i.code [i] else .done none

/-- unknown rule of token.ts: one code point, always matches. -/
def unknownRule (i : CodePoint) : Coro CodePoint Tok :=
  .done ⟨.unknown, [i]⟩

/-- Token.parse of token.ts: consume the initial code point, then try the
rules in order (l-terminator, whitespace, punctuator, identifier, string)
falling back to unknown. -/
def tokenParse (f : Nat) : Coro CodePoint Tok :=
  PS.consume.bind fun i =>
    (lineTerminatorRule i).bind fun r1 =>
      match r1 with
      | some t => .done t
      | none =>
        (whitespaceRule f i).bind fun r2 =>
          match r2 with
          | some t => .done t
          | none =>
            (punctuatorRule i).bind fun r3 =>
              match r3 with
              | some t => .done t
              | none =>
                (identifierRule f i).bind fun r4 =>
                  match r4 with
                  | some t => .done t
                  | none =>
                    (stringRule f i).bind fun r5 =>
                      match r5 with
                      | some t => .done t
                      | none => (unknownRule i).bind fun t => .done t

/-- Feeding one source through the code-point stream (as one chunk) and the
lexical stage. -/
def lexSource (f : Nat) (src : List Nat) : Final CodePoint Tok :=
  runChunked (tokenParse f) [(cpChunk ⟨0, 0, 0⟩ src).2]

/-- The outputs a stage emitted, whatever its final status. -/
def finalOuts {I O : Type} : Final I O → List O
  | .success outs => outs
  | .failure outs _ => outs
  | .hung outs => outs

/-- The terminal error of a stage, when it failed. -/
def finalErr {I O : Type} : Final I O → Option Err
  | .failure _ e => some e
  | _ => none

/-- tryConsume followed by a continuation, with the cursor inside the
buffer: the continuation receives the item and runs one step further. -/
theorem runOne_tryConsume_bind_lt {I A : Type} {buf : List I} {cur : Nat}
    (eof : Bool) (kf : Option I → Coro I A) (hlt : cur < buf.length) :
    runOne buf eof (PS.tryConsume.bind kf) cur =
      runOne buf eof (kf (some (buf.get ⟨cur, hlt⟩))) (cur + 1) := by
  rw [runOne_bind]
  rw [show PS.tryConsume (I := I) =
    Coro.consume (fun i => Coro.done (some i)) (Coro.done none) from rfl]
  rw [runOne_consume_lt eof _ _ hlt, runOne_done]

/-- tryConsume followed by a continuation, at the end of terminal input: the
null is delivered inside the generator.throw resumption, so the continuation
runs inside the injection. -/
theorem runOne_tryConsume_bind_eof {I A : Type} {buf : List I} {cur : Nat}
    (kf : Option I → Coro I A) (heq : cur = buf.length) :
    runOne buf true (PS.tryConsume.bind kf) cur = injStep buf true (kf none) cur := by
  rw [runOne_bind]
  rw [show PS.tryConsume (I := I) =
    Coro.consume (fun i => Coro.done (some i)) (Coro.done none) from rfl]
  rw [runOne_consume_inj _ _ heq]
  rfl

/-- tryPeek followed by a continuation, with the cursor inside the buffer. -/
theorem runOne_tryPeek_bind_lt {I A : Type} {buf : List I} {cur : Nat}
    (eof : Bool) (kf : Option I → Coro I A) (hlt : cur < buf.length) :
    runOne buf eof (PS.tryPeek.bind kf) cur =
      runOne buf eof (kf (some (buf.get ⟨cur, hlt⟩))) cur := by
  rw [runOne_bind]
  rw [show PS.tryPeek (I := I) =
    Coro.peek (fun i => Coro.done (some i)) (Coro.done none) from rfl]
  rw [runOne_peek_lt eof _ _ hlt, runOne_done]

/-- tryPeek followed by a continuation, at the end of terminal input. -/
theorem runOne_tryPeek_bind_eof {I A : Type} {buf : List I} {cur : Nat}
    (kf : Option I → Coro I A) (heq : cur = buf.length) :
    runOne buf true (PS.tryPeek.bind kf) cur = injStep buf true (kf none) cur := by
  rw [runOne_bind]
  rw [show PS.tryPeek (I := I) =
    Coro.peek (fun i => Coro.done (some i)) (Coro.done none) from rfl]
  rw [runOne_peek_inj _ _ heq]
  rfl

/-- consume followed by a continuation, with the cursor inside the buffer. -/
theorem runOne_psConsume_bind_lt {I A : Type} {buf : List I} {cur : Nat}
    (eof : Bool) (kf : I → Coro I A) (hlt : cur < buf.length) :
    runOne buf eof (PS.consume.bind kf) cur =
      runOne buf eof (kf (buf.get ⟨cur, hlt⟩)) (cur + 1) := by
  rw [runOne_bind]
  rw [show PS.consume (I := I) =
    Coro.consume (fun i => Coro.done i) (Coro.fail eosErr) from rfl]
  rw [runOne_consume_lt eof _ _ hlt, runOne_done]

/-- consume followed by a continuation, at the end of terminal input: the
EndOfParserStream escapes straight out of the injection. -/
theorem runOne_psConsume_bind_eof {I A : Type} {buf : List I} {cur : Nat}
    (kf : I → Coro I A) (heq : cur = buf.length) :
    runOne buf true (PS.consume.bind kf) cur = .failInj eosErr cur := by
  rw [runOne_bind]
  rw [show PS.consume (I := I) =
    Coro.consume (fun i => Coro.done i) (Coro.fail eosErr) from rfl]
  rw [runOne_consume_inj _ _ heq]
  rfl

/-- Pure description of the string rule's scan: the code points a string
literal opened with quote q consumes after the opening quote.  A backslash is
an ordinary code point with no escaping effect; the scan stops at the first
code point equal to q (included), and yields none when a line feed or the end
of the list comes first. -/
def scanString (q : Nat) : List CodePoint → Option (List CodePoint)
  | [] => none
  | cp :: rest =>
    if cp.code = 10 then none
    else if cp.code = q then some [cp]
    else (scanString q rest).map (cp :: ·)

/-- The string-rule loop over terminal input follows scanString: it returns
the accumulated code points extended by the scan when the scan closes, and
raises "Unclosed string literal" when the scan hits a line feed or the end
of input. -/
theorem stringLoop_run :
    ∀ (f q : Nat) (acc : List CodePoint) (buf : List CodePoint) (cur : Nat),
      cur ≤ buf.length → buf.length < cur + f →
      (∀ cps, scanString q (buf.drop cur) = some cps →
        runOne buf true (stringLoop f q acc) cur =
          .done (some ⟨.string, acc ++ cps⟩) (cur + cps.length)) ∧
      (scanString q (buf.drop cur) = none →
        ∃ c', c' ≤ buf.length ∧ FailsAt buf (stringLoop f q acc) cur unclosedStringErr c')
  | 0, q, acc, buf, cur => by
    intro hcur hfuel
    omega
  | f + 1, q, acc, buf, cur => by
    intro hcur hfuel
    rcases Nat.lt_or_eq_of_le hcur with hlt | heq
    · have hdrop : buf.drop cur = buf.get ⟨cur, hlt⟩ :: buf.drop (cur + 1) := by
        rw [List.drop_eq_getElem_cons hlt]
        rfl
      rw [stringLoop]
      constructor
      · intro cps hscan
        rw [runOne_tryConsume_bind_lt true _ hlt]
        simp only []
        rw [hdrop, scanString] at hscan
        by_cases h10 : (buf.get ⟨cur, hlt⟩).code = 10
        · rw [if_pos h10] at hscan
          cases hscan
        · rw [if_neg h10] at hscan
          by_cases hq : (buf.get ⟨cur, hlt⟩).code = q
          · rw [if_pos hq] at hscan
            cases hscan
            rw [if_neg h10, if_pos hq, runOne_done]
            rfl
          · rw [if_neg hq, Option.map_eq_some'] at hscan
            obtain ⟨cps', hscan', hcons⟩ := hscan
            subst hcons
            rw [if_neg h10, if_neg hq]
            rw [(stringLoop_run f q (acc ++ [buf.get ⟨cur, hlt⟩]) buf (cur + 1)
              (by omega) (by omega)).1 cps' hscan']
            simp only [List.append_assoc, List.singleton_append, List.length_cons]
            have harith : cur + 1 + cps'.length = cur + (cps'.length + 1) := by omega
            rw [harith]
      · intro hscan
        rw [hdrop, scanString] at hscan
        by_cases h10 : (buf.get ⟨cur, hlt⟩).code = 10
        · refine ⟨cur + 1, by omega, ?_⟩
          left
          rw [runOne_tryConsume_bind_lt true _ hlt]
          simp only []
          rw [if_pos h10, runOne_fail]
        · rw [if_neg h10] at hscan
          by_cases hq : (buf.get ⟨cur, hlt⟩).code = q
          · rw [if_pos hq] at hscan
            cases hscan
          · rw [if_neg hq, Option.map_eq_none'] at hscan
            obtain ⟨c', hc', hfails⟩ := (stringLoop_run f q (acc ++ [buf.get ⟨cur, hlt⟩])
              buf (cur + 1) (by omega) (by omega)).2 hscan
            refine ⟨c', hc', ?_⟩
            rcases hfails with hfails | hfails
            · left
              rw [runOne_tryConsume_bind_lt true _ hlt]
              simp only []
              rw [if_neg h10, if_neg hq]
              exact hfails
            · right
              rw [runOne_tryConsume_bind_lt true _ hlt]
              simp only []
              rw [if_neg h10, if_neg hq]
              exact hfails
    · have hdrop : buf.drop cur = [] := by
        rw [List.drop_eq_nil_iff]
        omega
      rw [stringLoop]
      constructor
      · intro cps hscan
        rw [hdrop, scanString] at hscan
        cases hscan
      · intro _
        refine ⟨cur, by omega, ?_⟩
        right
        rw [runOne_tryConsume_bind_eof _ heq]
        rfl

/-- C6 counterexample: the spec example source with an escaped quote,
code points 34 97 92 34 98 34 (quote, a, backslash, quote, b, quote), does
not lex as one String token: the backslash does not escape the following
quote, so the String token ends at that quote (payload 34 97 92 34), the b
becomes an Identifier, and the final lone quote raises
"Unclosed string literal". -/
theorem c6_string_escape_counterexample :
    (finalOuts (lexSource 20 [34, 97, 92, 34, 98, 34])).map Tok.payload =
      [[34, 97, 92, 34], [98]] ∧
    finalErr (lexSource 20 [34, 97, 92, 34, 98, 34]) = some unclosedStringErr := by
  decide

/-- C6 (amended): when the lexer's first code point is a double or single
quote, the string rule consumes code points until the first occurrence of
the same quote (a backslash is an ordinary code point with no escaping
effect, as scanString states), and a line feed or the end of input before
the closing quote raises "Unclosed string literal"; in particular the source
consisting of a single quote followed by a line feed fails with exactly that
error and emits no token. -/
theorem c6_string_rule_spec :
    (∀ (f : Nat) (i : CodePoint) (buf : List CodePoint) (cur : Nat),
      i.code = 34 ∨ i.code = 39 → cur ≤ buf.length → buf.length < cur + f →
      (∀ cps, scanString i.code (buf.drop cur) = some cps →
        runOne buf true (stringRule f i) cur =
          .done (some ⟨.string, i :: cps⟩) (cur + cps.length)) ∧
      (scanString i.code (buf.drop cur) = none →
        ∃ c', c' ≤ buf.length ∧ FailsAt buf (stringRule f i) cur unclosedStringErr c')) ∧
    ((finalOuts (lexSource 20 [39, 10])).map Tok.payload = [] ∧
      finalErr (lexSource 20 [39, 10]) = some unclosedStringErr) := by
  constructor
  · intro f i buf cur hq hcur hfuel
    have hcond : (cpIs 34 (some i) || cpIs 39 (some i)) = true := by
      rcases hq with h | h <;> simp [cpIs, h]
    constructor
    · intro cps hscan
      rw [stringRule, if_pos hcond]
      rw [(stringLoop_run f i.code [i] buf cur hcur hfuel).1 cps hscan]
      rw [List.singleton_append]
    · intro hscan
      obtain ⟨c', hc', hfails⟩ := (stringLoop_run f i.code [i] buf cur hcur hfuel).2 hscan
      refine ⟨c', hc', ?_⟩
      rcases hfails with hfails | hfails
      · left
        rw [stringRule, if_pos hcond]
        exact hfails
      · right
        rw [stringRule, if_pos hcond]
        exact hfails
  · exact ⟨by decide, by decide⟩

/-- Witness for the amended C6 at a concrete input: the source quote-a-b-
quote (code points 39 97 98 39), entered at cursor 1 after the opening quote
was consumed, yields one String token covering all four code points. -/
theorem c6_string_rule_spec_witness :
    runOne (cpChunk ⟨0, 0, 0⟩ [39, 97, 98, 39]).2 true
        (stringRule 10 ⟨39, ⟨⟨0, 0, 0⟩, ⟨1, 1, 0⟩⟩⟩) 1 =
      .done (some ⟨.string,
        [⟨39, ⟨⟨0, 0, 0⟩, ⟨1, 1, 0⟩⟩⟩, ⟨97, ⟨⟨1, 1, 0⟩, ⟨2, 2, 0⟩⟩⟩,
         ⟨98, ⟨⟨2, 2, 0⟩, ⟨3, 3, 0⟩⟩⟩, ⟨39, ⟨⟨3, 3, 0⟩, ⟨4, 4, 0⟩⟩⟩]⟩) 4 :=
  (c6_string_rule_spec.1 10 ⟨39, ⟨⟨0, 0, 0⟩, ⟨1, 1, 0⟩⟩⟩
    (cpChunk ⟨0, 0, 0⟩ [39, 97, 98, 39]).2 1 (Or.inr rfl) (by decide) (by decide)).1
    [⟨97, ⟨⟨1, 1, 0⟩, ⟨2, 2, 0⟩⟩⟩, ⟨98, ⟨⟨2, 2, 0⟩, ⟨3, 3, 0⟩⟩⟩,
     ⟨39, ⟨⟨3, 3, 0⟩, ⟨4, 4, 0⟩⟩⟩] rfl

/-- The half-open slice of a buffer between two cursors. -/
def bufSlice {α : Type} (buf : List α) (a b : Nat) : List α :=
  (buf.take b).drop a

/-- An empty slice. -/
theorem bufSlice_self {α : Type} (buf : List α) (a : Nat) : bufSlice buf a a = [] := by
  rw [bufSlice, List.drop_eq_nil_iff, List.length_take]
  omega

/-- Peeling the first item off a slice. -/
theorem bufSlice_cons {α : Type} {buf : List α} {cur b : Nat}
    (hcur : cur < buf.length) (hb : cur < b) :
    bufSlice buf cur b = buf.get ⟨cur, hcur⟩ :: bufSlice buf (cur + 1) b := by
  rw [bufSlice, bufSlice]
  have hlen : cur < (buf.take b).length := by
    rw [List.length_take]
    omega
  rw [List.drop_eq_getElem_cons hlen]
  congr 1
  simp [List.getElem_take]

/-- A slice starting at 0 is a prefix. -/
theorem bufSlice_zero {α : Type} (buf : List α) (b : Nat) :
    bufSlice buf 0 b = buf.take b := by
  rw [bufSlice, List.drop_zero]

/-- Shape of the result a token rule may deliver: either it declined (with
the cursor back at its entry value) or it produced a token whose code points
are exactly the initial code point followed by everything the rule consumed
from the buffer. -/
def RuleCov (buf : List CodePoint) (i : CodePoint) (cur : Nat) (r : Option Tok)
    (c' : Nat) : Prop :=
  match r with
  | none => c' = cur
  | some t => t.cps = i :: bufSlice buf cur c' ∧ cur ≤ c' ∧ c' ≤ buf.length

/-- position followed by a continuation, with the cursor inside the buffer,
in either mode. -/
theorem runOne_psPosition_bind_lt {I A : Type} {buf : List I} {cur : Nat}
    (eof : Bool) (a : Option Nat) (f : Nat → Coro I A) (hlt : cur < buf.length) :
    runOne buf eof ((PS.position a).bind f) cur =
      runOne buf eof (f cur) (a.getD cur) := by
  rw [runOne_bind]
  rw [show PS.position (I := I) a = Coro.position a (fun p => Coro.done p) from rfl]
  rw [runOne_position_lt eof _ _ hlt, runOne_done]

/-- In streaming mode a position command past the buffer end waits. -/
theorem runOne_psPosition_bind_block {I A : Type} {buf : List I} {cur : Nat}
    (a : Option Nat) (f : Nat → Coro I A) (hlt : ¬ cur < buf.length) :
    runOne buf false ((PS.position a).bind f) cur =
      .blocked ((PS.position a).bind f) cur := by
  rw [runOne_bind]
  rw [show PS.position (I := I) a = Coro.position a (fun p => Coro.done p) from rfl]
  rw [runOne_position_block _ _ hlt]

/-- In streaming mode a tryPeek past the buffer end waits. -/
theorem runOne_tryPeek_bind_block {I A : Type} {buf : List I} {cur : Nat}
    (kf : Option I → Coro I A) (hlt : ¬ cur < buf.length) :
    runOne buf false (PS.tryPeek.bind kf) cur =
      .blocked (PS.tryPeek.bind kf) cur := by
  rw [runOne_bind]
  rw [show PS.tryPeek (I := I) =
    Coro.peek (fun i => Coro.done (some i)) (Coro.done none) from rfl]
  rw [runOne_peek_block _ _ hlt]

/-- In streaming mode a tryConsume past the buffer end waits. -/
theorem runOne_tryConsume_bind_block {I A : Type} {buf : List I} {cur : Nat}
    (kf : Option I → Coro I A) (hlt : ¬ cur < buf.length) :
    runOne buf false (PS.tryConsume.bind kf) cur =
      .blocked (PS.tryConsume.bind kf) cur := by
  rw [runOne_bind]
  rw [show PS.tryConsume (I := I) =
    Coro.consume (fun i => Coro.done (some i)) (Coro.done none) from rfl]
  rw [runOne_consume_block _ _ hlt]

/-- In streaming mode a consume past the buffer end waits. -/
theorem runOne_psConsume_bind_block {I A : Type} {buf : List I} {cur : Nat}
    (kf : I → Coro I A) (hlt : ¬ cur < buf.length) :
    runOne buf false (PS.consume.bind kf) cur =
      .blocked (PS.consume.bind kf) cur := by
  rw [runOne_bind]
  rw [show PS.consume (I := I) =
    Coro.consume (fun i => Coro.done i) (Coro.fail eosErr) from rfl]
  rw [runOne_consume_block _ _ hlt]

/-- A successful outcome of a generator.throw resumption comes from the same
outcome of plain processing: only an immediate completion or throw is treated
specially by the injection. -/
theorem injStep_done_cases {I O : Type} {buf : List I} {eof : Bool}
    {c : Coro I O} {cur : Nat} {t : O} {c2 : Nat}
    (h : injStep buf eof c cur = .done t c2 ∨ injStep buf eof c cur = .doneInj t c2) :
    runOne buf eof c cur = .done t c2 ∨ runOne buf eof c cur = .doneInj t c2 := by
  cases c with
  | done v =>
    rcases h with h | h
    · cases (show (RunRes.doneInj (I := I) v cur) = .done t c2 from h)
    · cases (show (RunRes.doneInj (I := I) v cur) = .doneInj t c2 from h)
      exact Or.inl rfl
  | fail e =>
    rcases h with h | h
    · cases (show (RunRes.failInj (I := I) (O := O) e cur) = .done t c2 from h)
    · cases (show (RunRes.failInj (I := I) (O := O) e cur) = .doneInj t c2 from h)
  | peek k hh => exact h
  | consume k hh => exact h
  | position a k => exact h

/-- Coverage of the lineTerminator rule: a produced token holds exactly the
initial code point followed by everything the rule consumed, and a declined
rule leaves the cursor where it entered (the CR lookahead restores it). -/
theorem lineTerminatorRule_cov (buf : List CodePoint) (i : CodePoint) :
    ∀ (eof : Bool) (cur : Nat) (r : Option Tok) (c2 : Nat), cur ≤ buf.length →
      (runOne buf eof (lineTerminatorRule i) cur = .done r c2 ∨
       runOne buf eof (lineTerminatorRule i) cur = .doneInj r c2) →
      RuleCov buf i cur r c2 := by
  intro eof cur r c2 hcur hrun
  rw [lineTerminatorRule] at hrun
  by_cases h13 : i.code = 13
  · rw [if_pos h13] at hrun
    by_cases hlt : cur < buf.length
    · rw [runOne_psPosition_bind_lt eof _ _ hlt] at hrun
      simp only [Option.getD_none] at hrun
      rw [runOne_tryConsume_bind_lt eof _ hlt] at hrun
      simp only [] at hrun
      by_cases h10 : (buf.get ⟨cur, hlt⟩).code = 10
      · rw [if_pos h10, runOne_done] at hrun
        rcases hrun with h | h
        · cases h
          exact ⟨by rw [bufSlice_cons hlt (by omega), bufSlice_self], by omega, by omega⟩
        · cases h
      · rw [if_neg h10] at hrun
        by_cases hlt2 : cur + 1 < buf.length
        · rw [runOne_psPosition_bind_lt eof _ _ hlt2] at hrun
          simp only [Option.getD_some] at hrun
          rw [lineTerminatorTail, if_neg (by omega), runOne_done] at hrun
          rcases hrun with h | h
          · cases h
            exact rfl
          · cases h
        · cases eof with
          | false =>
            rw [runOne_psPosition_bind_block _ _ hlt2] at hrun
            rcases hrun with h | h <;> cases h
          | true =>
            rw [runOne_psPosition_bind _ _ (by omega)] at hrun
            simp only [Option.getD_some] at hrun
            rw [lineTerminatorTail, if_neg (by omega), runOne_done] at hrun
            rcases hrun with h | h
            · cases h
              exact rfl
            · cases h
    · cases eof with
      | false =>
        rw [runOne_psPosition_bind_block _ _ hlt] at hrun
        rcases hrun with h | h <;> cases h
      | true =>
        have heq : cur = buf.length := by omega
        rw [runOne_psPosition_bind _ _ hcur] at hrun
        simp only [Option.getD_none] at hrun
        rw [runOne_tryConsume_bind_eof _ heq] at hrun
        simp only [] at hrun
        rw [injStep_psPosition_bind] at hrun
        rw [runOne_psPosition_bind _ _ hcur] at hrun
        simp only [Option.getD_some] at hrun
        rw [lineTerminatorTail, if_neg (by omega), runOne_done] at hrun
        rcases hrun with h | h
        · cases h
          exact rfl
        · cases h
  · rw [if_neg h13, lineTerminatorTail] at hrun
    by_cases h10 : i.code = 10
    · rw [if_pos h10, runOne_done] at hrun
      rcases hrun with h | h
      · cases h
        exact ⟨by rw [bufSlice_self], Nat.le_refl _, hcur⟩
      · cases h
    · rw [if_neg h10, runOne_done] at hrun
      rcases hrun with h | h
      · cases h
        exact rfl
      · cases h

/-- Coverage of the whitespace rule's while loop: the finished token carries
the accumulated code points followed by exactly the consumed slice. -/
theorem whitespaceLoop_cov (buf : List CodePoint) :
    ∀ (f : Nat) (acc : List CodePoint) (eof : Bool) (cur : Nat) (r : Option Tok)
      (c2 : Nat), cur ≤ buf.length →
      (runOne buf eof (whitespaceLoop f acc) cur = .done r c2 ∨
       runOne buf eof (whitespaceLoop f acc) cur = .doneInj r c2) →
      r = some ⟨.whitespace, acc ++ bufSlice buf cur c2⟩ ∧ cur ≤ c2 ∧ c2 ≤ buf.length
  | 0, acc, eof, cur, r, c2 => by
    intro hcur hrun
    simp only [whitespaceLoop, runOne_fail] at hrun
    rcases hrun with h | h <;> cases h
  | f + 1, acc, eof, cur, r, c2 => by
    intro hcur hrun
    simp only [whitespaceLoop] at hrun
    by_cases hlt : cur < buf.length
    · rw [runOne_tryPeek_bind_lt eof _ hlt] at hrun
      by_cases hws : isWhitespaceCp (some (buf.get ⟨cur, hlt⟩)) = true
      · rw [if_pos hws] at hrun
        rw [runOne_psConsume_bind_lt eof _ hlt] at hrun
        have ih := whitespaceLoop_cov buf f (acc ++ [buf.get ⟨cur, hlt⟩]) eof
          (cur + 1) r c2 (by omega) hrun
        refine ⟨?_, by omega, ih.2.2⟩
        rw [ih.1, bufSlice_cons hlt (by omega)]
        simp
      · rw [if_neg hws, runOne_done] at hrun
        rcases hrun with h | h
        · cases h
          exact ⟨by rw [bufSlice_self]; simp, Nat.le_refl _, hcur⟩
        · cases h
    · cases eof with
      | false =>
        rw [runOne_tryPeek_bind_block _ hlt] at hrun
        rcases hrun with h | h <;> cases h
      | true =>
        have heq : cur = buf.length := by omega
        rw [runOne_tryPeek_bind_eof _ heq] at hrun
        rw [if_neg (show ¬ (isWhitespaceCp none = true) by decide)] at hrun
        simp only [injStep] at hrun
        rcases hrun with h | h
        · cases h
        · cases h
          exact ⟨by rw [bufSlice_self]; simp, Nat.le_refl _, hcur⟩

/-- Coverage of the identifier rule's while loop. -/
theorem identifierLoop_cov (buf : List CodePoint) :
    ∀ (f : Nat) (acc : List CodePoint) (eof : Bool) (cur : Nat) (r : Option Tok)
      (c2 : Nat), cur ≤ buf.length →
      (runOne buf eof (identifierLoop f acc) cur = .done r c2 ∨
       runOne buf eof (identifierLoop f acc) cur = .doneInj r c2) →
      r = some ⟨.identifier, acc ++ bufSlice buf cur c2⟩ ∧ cur ≤ c2 ∧ c2 ≤ buf.length
  | 0, acc, eof, cur, r, c2 => by
    intro hcur hrun
    simp only [identifierLoop, runOne_fail] at hrun
    rcases hrun with h | h <;> cases h
  | f + 1, acc, eof, cur, r, c2 => by
    intro hcur hrun
    simp only [identifierLoop] at hrun
    by_cases hlt : cur < buf.length
    · rw [runOne_tryPeek_bind_lt eof _ hlt] at hrun
      by_cases hid : isIdentifierPartCp (some (buf.get ⟨cur, hlt⟩)) = true
      · rw [if_pos hid] at hrun
        rw [runOne_psConsume_bind_lt eof _ hlt] at hrun
        have ih := identifierLoop_cov buf f (acc ++ [buf.get ⟨cur, hlt⟩]) eof
          (cur + 1) r c2 (by omega) hrun
        refine ⟨?_, by omega, ih.2.2⟩
        rw [ih.1, bufSlice_cons hlt (by omega)]
        simp
      · rw [if_neg hid, runOne_done] at hrun
        rcases hrun with h | h
        · cases h
          exact ⟨by rw [bufSlice_self]; simp, Nat.le_refl _, hcur⟩
        · cases h
    · cases eof with
      | false =>
        rw [runOne_tryPeek_bind_block _ hlt] at hrun
        rcases hrun with h | h <;> cases h
      | true =>
        have heq : cur = buf.length := by omega
        rw [runOne_tryPeek_bind_eof _ heq] at hrun
        rw [if_neg (show ¬ (isIdentifierPartCp none = true) by decide)] at hrun
        simp only [injStep] at hrun
        rcases hrun with h | h
        · cases h
        · cases h
          exact ⟨by rw [bufSlice_self]; simp, Nat.le_refl _, hcur⟩

/-- Coverage of the string rule's scan loop. -/
theorem stringLoop_cov (buf : List CodePoint) :
    ∀ (f q : Nat) (acc : List CodePoint) (eof : Bool) (cur : Nat) (r : Option Tok)
      (c2 : Nat), cur ≤ buf.length →
      (runOne buf eof (stringLoop f q acc) cur = .done r c2 ∨
       runOne buf eof (stringLoop f q acc) cur = .doneInj r c2) →
      r = some ⟨.string, acc ++ bufSlice buf cur c2⟩ ∧ cur ≤ c2 ∧ c2 ≤ buf.length
  | 0, q, acc, eof, cur, r, c2 => by
    intro hcur hrun
    simp only [stringLoop, runOne_fail] at hrun
    rcases hrun with h | h <;> cases h
  | f + 1, q, acc, eof, cur, r, c2 => by
    intro hcur hrun
    simp only [stringLoop] at hrun
    by_cases hlt : cur < buf.length
    · rw [runOne_tryConsume_bind_lt eof _ hlt] at hrun
      simp only [] at hrun
      by_cases h10 : (buf.get ⟨cur, hlt⟩).code = 10
      · rw [if_pos h10, runOne_fail] at hrun
        rcases hrun with h | h <;> cases h
      · rw [if_neg h10] at hrun
        by_cases hq : (buf.get ⟨cur, hlt⟩).code = q
        · rw [if_pos hq, runOne_done] at hrun
          rcases hrun with h | h
          · cases h
            exact ⟨by rw [bufSlice_cons hlt (by omega), bufSlice_self], by omega, by omega⟩
          · cases h
        · rw [if_neg hq] at hrun
          have ih := stringLoop_cov buf f q (acc ++ [buf.get ⟨cur, hlt⟩]) eof
            (cur + 1) r c2 (by omega) hrun
          refine ⟨?_, by omega, ih.2.2⟩
          rw [ih.1, bufSlice_cons hlt (by omega)]
          simp
    · cases eof with
      | false =>
        rw [runOne_tryConsume_bind_block _ hlt] at hrun
        rcases hrun with h | h <;> cases h
      | true =>
        have heq : cur = buf.length := by omega
        rw [runOne_tryConsume_bind_eof _ heq] at hrun
        simp only [] at hrun
        simp only [injStep] at hrun
        rcases hrun with h | h <;> cases h

/-- Coverage of the whitespace rule. -/
theorem whitespaceRule_cov (buf : List CodePoint) (f : Nat) (i : CodePoint) :
    ∀ (eof : Bool) (cur : Nat) (r : Option Tok) (c2 : Nat), cur ≤ buf.length →
      (runOne buf eof (whitespaceRule f i) cur = .done r c2 ∨
       runOne buf eof (whitespaceRule f i) cur = .doneInj r c2) →
      RuleCov buf i cur r c2 := by
  intro eof cur r c2 hcur hrun
  rw [whitespaceRule] at hrun
  by_cases hws : isWhitespaceCp (some i) = true
  · rw [if_pos hws] at hrun
    have h := whitespaceLoop_cov buf f [i] eof cur r c2 hcur hrun
    rw [h.1]
    exact ⟨by simp, h.2.1, h.2.2⟩
  · rw [if_neg hws, runOne_done] at hrun
    rcases hrun with h | h
    · cases h
      exact rfl
    · cases h

/-- Coverage of the punctuator rule. -/
theorem punctuatorRule_cov (buf : List CodePoint) (i : CodePoint) :
    ∀ (eof : Bool) (cur : Nat) (r : Option Tok) (c2 : Nat), cur ≤ buf.length →
      (runOne buf eof (punctuatorRule i) cur = .done r c2 ∨
       runOne buf eof (punctuatorRule i) cur = .doneInj r c2) →
      RuleCov buf i cur r c2 := by
  intro eof cur r c2 hcur hrun
  rw [punctuatorRule] at hrun
  by_cases hp : (cpIs 44 (some i) || cpIs 46 (some i) || cpIs 59 (some i) ||
      cpIs 40 (some i) || cpIs 41 (some i)) = true
  · rw [if_pos hp, runOne_done] at hrun
    rcases hrun with h | h
    · cases h
      exact ⟨by rw [bufSlice_self], Nat.le_refl _, hcur⟩
    · cases h
  · rw [if_neg hp, runOne_done] at hrun
    rcases hrun with h | h
    · cases h
      exact rfl
    · cases h

/-- Coverage of the identifier rule. -/
theorem identifierRule_cov (buf : List CodePoint) (f : Nat) (i : CodePoint) :
    ∀ (eof : Bool) (cur : Nat) (r : Option Tok) (c2 : Nat), cur ≤ buf.length →
      (runOne buf eof (identifierRule f i) cur = .done r c2 ∨
       runOne buf eof (identifierRule f i) cur = .doneInj r c2) →
      RuleCov buf i cur r c2 := by
  intro eof cur r c2 hcur hrun
  rw [identifierRule] at hrun
  by_cases hid : isIdentifierStartCp (some i) = true
  · rw [if_pos hid] at hrun
    have h := identifierLoop_cov buf f [i] eof cur r c2 hcur hrun
    rw [h.1]
    exact ⟨by simp, h.2.1, h.2.2⟩
  · rw [if_neg hid, runOne_done] at hrun
    rcases hrun with h | h
    · cases h
      exact rfl
    · cases h

/-- Coverage of the string rule. -/
theorem stringRule_cov (buf : List CodePoint) (f : Nat) (i : CodePoint) :
    ∀ (eof : Bool) (cur : Nat) (r : Option Tok) (c2 : Nat), cur ≤ buf.length →
      (runOne buf eof (stringRule f i) cur = .done r c2 ∨
       runOne buf eof (stringRule f i) cur = .doneInj r c2) →
      RuleCov buf i cur r c2 := by
  intro eof cur r c2 hcur hrun
  rw [stringRule] at hrun
  by_cases hq : (cpIs 34 (some i) || cpIs 39 (some i)) = true
  · rw [if_pos hq] at hrun
    have h := stringLoop_cov buf f i.code [i] eof cur r c2 hcur hrun
    rw [h.1]
    exact ⟨by simp, h.2.1, h.2.2⟩
  · rw [if_neg hq, runOne_done] at hrun
    rcases hrun with h | h
    · cases h
      exact rfl
    · cases h

/-- One stage of Token.parse: run a rule; a produced token finishes the
parse, a declined rule falls through to the rest of the chain. -/
def ruleStep (c : Coro CodePoint (Option Tok)) (rest : Coro CodePoint Tok) :
    Coro CodePoint Tok :=
  c.bind fun r =>
    match r with
    | some t => .done t
    | none => rest

/-- Token.parse as a chain of rule stages over the initial code point. -/
def tokenChain (f : Nat) (i : CodePoint) : Coro CodePoint Tok :=
  ruleStep (lineTerminatorRule i) <|
    ruleStep (whitespaceRule f i) <|
      ruleStep (punctuatorRule i) <|
        ruleStep (identifierRule f i) <|
          ruleStep (stringRule f i) ((unknownRule i).bind fun t => .done t)

/-- Token.parse is the initial consume followed by the rule chain. -/
theorem tokenParse_eq (f : Nat) :
    tokenParse f = PS.consume.bind fun i => tokenChain f i := rfl

/-- Coverage of the unknown-token fallback at the end of the chain. -/
theorem unknownTail_cov (buf : List CodePoint) (i : CodePoint) :
    ∀ (eof : Bool) (cur : Nat) (t : Tok) (c2 : Nat), cur ≤ buf.length →
      (runOne buf eof ((unknownRule i).bind fun u => Coro.done u) cur = .done t c2 ∨
       runOne buf eof ((unknownRule i).bind fun u => Coro.done u) cur = .doneInj t c2) →
      t.cps = i :: bufSlice buf cur c2 ∧ cur ≤ c2 ∧ c2 ≤ buf.length := by
  intro eof cur t c2 hcur hrun
  rw [show (unknownRule i).bind (fun u => Coro.done u) =
    Coro.done (⟨TokKind.unknown, [i]⟩ : Tok) from rfl, runOne_done] at hrun
  rcases hrun with h | h
  · cases h
    exact ⟨by rw [bufSlice_self], Nat.le_refl _, hcur⟩
  · cases h

/-- Coverage propagates through one stage of the rule chain. -/
theorem ruleStep_cov (buf : List CodePoint) (i : CodePoint)
    (c : Coro CodePoint (Option Tok)) (rest : Coro CodePoint Tok)
    (hc : ∀ (eof : Bool) (cur : Nat) (r : Option Tok) (c2 : Nat), cur ≤ buf.length →
      (runOne buf eof c cur = .done r c2 ∨ runOne buf eof c cur = .doneInj r c2) →
      RuleCov buf i cur r c2)
    (hrest : ∀ (eof : Bool) (cur : Nat) (t : Tok) (c2 : Nat), cur ≤ buf.length →
      (runOne buf eof rest cur = .done t c2 ∨ runOne buf eof rest cur = .doneInj t c2) →
      t.cps = i :: bufSlice buf cur c2 ∧ cur ≤ c2 ∧ c2 ≤ buf.length) :
    ∀ (eof : Bool) (cur : Nat) (t : Tok) (c2 : Nat), cur ≤ buf.length →
      (runOne buf eof (ruleStep c rest) cur = .done t c2 ∨
       runOne buf eof (ruleStep c rest) cur = .doneInj t c2) →
      t.cps = i :: bufSlice buf cur c2 ∧ cur ≤ c2 ∧ c2 ≤ buf.length := by
  intro eof cur t c2 hcur hrun
  rw [ruleStep, runOne_bind] at hrun
  rcases hres : runOne buf eof c cur with ⟨r, c1⟩ | ⟨r, c1⟩ | ⟨e, c1⟩ | ⟨e, c1⟩ | ⟨cc, c1⟩ | c1
  · rw [hres] at hrun
    simp only [] at hrun
    rcases r with _ | tk
    · have hc1 : c1 = cur := hc eof cur none c1 hcur (Or.inl hres)
      rw [hc1] at hrun
      exact hrest eof cur t c2 hcur hrun
    · rw [runOne_done] at hrun
      rcases hrun with h | h
      · cases h
        exact hc eof cur (some t) c2 hcur (Or.inl hres)
      · cases h
  · rw [hres] at hrun
    simp only [] at hrun
    have hrun2 := injStep_done_cases hrun
    rcases r with _ | tk
    · have hc1 : c1 = cur := hc eof cur none c1 hcur (Or.inr hres)
      rw [hc1] at hrun2
      simp only [] at hrun2
      exact hrest eof cur t c2 hcur hrun2
    · simp only [] at hrun2
      rw [runOne_done] at hrun2
      rcases hrun2 with h | h
      · cases h
        exact hc eof cur (some t) c2 hcur (Or.inr hres)
      · cases h
  · rw [hres] at hrun
    rcases hrun with h | h <;> cases h
  · rw [hres] at hrun
    rcases hrun with h | h <;> cases h
  · rw [hres] at hrun
    rcases hrun with h | h <;> cases h
  · rw [hres] at hrun
    rcases hrun with h | h <;> cases h

/-- Coverage of Token.parse: a completed parse entered at some cursor
produced a token made of exactly the consumed slice of the buffer, consuming
at least the initial code point and never reading past the buffer. -/
theorem tokenParse_cov (f : Nat) (buf : List CodePoint) (eof : Bool) (cur : Nat)
    (t : Tok) (c2 : Nat) (hcur : cur ≤ buf.length)
    (hrun : runOne buf eof (tokenParse f) cur = .done t c2 ∨
            runOne buf eof (tokenParse f) cur = .doneInj t c2) :
    t.cps = bufSlice buf cur c2 ∧ cur < c2 ∧ c2 ≤ buf.length := by
  rw [tokenParse_eq] at hrun
  by_cases hlt : cur < buf.length
  · rw [runOne_psConsume_bind_lt eof _ hlt] at hrun
    rw [tokenChain] at hrun
    have h := ruleStep_cov buf (buf.get ⟨cur, hlt⟩) _ _
      (lineTerminatorRule_cov buf (buf.get ⟨cur, hlt⟩))
      (ruleStep_cov buf _ _ _ (whitespaceRule_cov buf f _)
        (ruleStep_cov buf _ _ _ (punctuatorRule_cov buf _)
          (ruleStep_cov buf _ _ _ (identifierRule_cov buf f _)
            (ruleStep_cov buf _ _ _ (stringRule_cov buf f _)
              (unknownTail_cov buf _)))))
      eof (cur + 1) t c2 (by omega) hrun
    refine ⟨?_, by omega, h.2.2⟩
    rw [h.1, bufSlice_cons hlt (by omega)]
  · cases eof with
    | false =>
      rw [runOne_psConsume_bind_block _ hlt] at hrun
      rcases hrun with h | h <;> cases h
    | true =>
      rw [runOne_psConsume_bind_eof _ (by omega)] at hrun
      rcases hrun with h | h <;> cases h

/-- A streaming run that completed keeps the same outcome on the same buffer
in terminal mode: it never looked past the buffer. -/
theorem runOne_false_to_true {I O : Type} {buf : List I} {c : Coro I O}
    {cur : Nat} {v : O} {c2 : Nat} (h : runOne buf false c cur = .done v c2) :
    runOne buf true c cur = .done v c2 := by
  have h2 := runOne_extend_stable c cur buf _ h (Or.inl ⟨v, c2, rfl⟩) [] true
  rwa [List.append_nil] at h2

/-- Resuming a coroutine that blocked in streaming mode, on the same buffer,
is the same as running the original coroutine, in either mode. -/
theorem blocked_rel {I O : Type} {buf : List I} {c c' : Coro I O} {cur cur' : Nat}
    (h : runOne buf false c cur = .blocked c' cur') (eof2 : Bool) :
    runOne buf eof2 c' cur' = runOne buf eof2 c cur := by
  have h2 := runOne_extend_blocked c cur buf c' cur' h [] eof2
  rw [List.append_nil] at h2
  exact h2.symm

/-- An error escaping straight out of the generator.throw call can only have
been raised at an end-of-input injection, so its cursor is the buffer
length. -/
theorem runOne_failInj_cursor {I O : Type} {buf : List I} :
    ∀ (c : Coro I O) (cur : Nat) (e : Err) (c2 : Nat),
      runOne buf true c cur = .failInj e c2 → c2 = buf.length
  | .done v, cur, e, c2 => by
    intro h
    rw [runOne_done] at h
    cases h
  | .fail e0, cur, e, c2 => by
    intro h
    rw [runOne_fail] at h
    cases h
  | .peek k hh, cur, e, c2 => by
    intro hrun
    by_cases hlt : cur < buf.length
    · rw [runOne_peek_lt true _ _ hlt] at hrun
      exact runOne_failInj_cursor (k (buf.get ⟨cur, hlt⟩)) cur e c2 hrun
    · by_cases heq : cur = buf.length
      · rw [runOne_peek_inj _ _ heq] at hrun
        cases hh with
        | done v => cases (show (RunRes.doneInj (I := I) v cur) = .failInj e c2 from hrun)
        | fail e1 =>
          cases (show (RunRes.failInj (I := I) (O := O) e1 cur) = .failInj e c2 from hrun)
          exact heq
        | peek k2 h2 => exact runOne_failInj_cursor (.peek k2 h2) cur e c2 hrun
        | consume k2 h2 => exact runOne_failInj_cursor (.consume k2 h2) cur e c2 hrun
        | position a k2 => exact runOne_failInj_cursor (.position a k2) cur e c2 hrun
      · rw [runOne_peek_hang _ _ (by omega)] at hrun
        cases hrun
  | .consume k hh, cur, e, c2 => by
    intro hrun
    by_cases hlt : cur < buf.length
    · rw [runOne_consume_lt true _ _ hlt] at hrun
      exact runOne_failInj_cursor (k (buf.get ⟨cur, hlt⟩)) (cur + 1) e c2 hrun
    · by_cases heq : cur = buf.length
      · rw [runOne_consume_inj _ _ heq] at hrun
        cases hh with
        | done v => cases (show (RunRes.doneInj (I := I) v cur) = .failInj e c2 from hrun)
        | fail e1 =>
          cases (show (RunRes.failInj (I := I) (O := O) e1 cur) = .failInj e c2 from hrun)
          exact heq
        | peek k2 h2 => exact runOne_failInj_cursor (.peek k2 h2) cur e c2 hrun
        | consume k2 h2 => exact runOne_failInj_cursor (.consume k2 h2) cur e c2 hrun
        | position a k2 => exact runOne_failInj_cursor (.position a k2) cur e c2 hrun
      · rw [runOne_consume_hang _ _ (by omega)] at hrun
        cases hrun
  | .position a k, cur, e, c2 => by
    intro hrun
    by_cases hle : cur ≤ buf.length
    · rw [runOne_position_le _ _ hle] at hrun
      exact runOne_failInj_cursor (k cur) (a.getD cur) e c2 hrun
    · rw [runOne_position_hang _ _ (by omega)] at hrun
      cases hrun

/-- Relation between a suspended coroutine of the engine state and the fresh
parser: no suspension means the cursor was not advanced (it is 0 after the
last commit); a suspended coroutine resumes exactly like a fresh parser run
from 0 on the current buffer. -/
def PendRel {I O : Type} (p : Coro I O) (buf : List I) (cur : Nat) :
    Option (Coro I O) → Prop
  | none => cur = 0
  | some c => ∀ (eof2 : Bool), runOne buf eof2 c cur = runOne buf eof2 p 0

/-- What a blocked round of the streaming loop says: the suspended coroutine
is a faithful continuation of a fresh parser run on the current buffer. -/
theorem driveStep_blocked {I O : Type} {p : Coro I O} {buf : List I} {cur : Nat}
    {pend : Option (Coro I O)} {c' : Coro I O} {cur' : Nat}
    (hrel : PendRel p buf cur pend)
    (hstep : driveStep p buf cur pend = .blocked c' cur') :
    ∀ (eof2 : Bool), runOne buf eof2 c' cur' = runOne buf eof2 p 0 := by
  cases pend with
  | some c =>
    simp only [driveStep] at hstep
    rcases hres : runOne buf false c cur with ⟨v1, c1⟩ | ⟨v1, c1⟩ | ⟨e1, c1⟩ |
        ⟨e1, c1⟩ | ⟨cc, c1⟩ | c1 <;> rw [hres] at hstep <;> simp only [] at hstep
    · cases hstep
    · cases hstep
    · cases hstep
    · cases hstep
    · cases hstep
      intro eof2
      exact (blocked_rel hres eof2).trans (hrel eof2)
    · cases hstep
  | none =>
    have h0 : cur = 0 := hrel
    subst h0
    simp only [driveStep] at hstep
    by_cases hlen : 0 < buf.length
    · rw [if_pos hlen] at hstep
      simp only [] at hstep
      rcases hres : runOne buf false p 0 with ⟨v1, c1⟩ | ⟨v1, c1⟩ | ⟨e1, c1⟩ |
          ⟨e1, c1⟩ | ⟨cc, c1⟩ | c1 <;> rw [hres] at hstep <;> simp only [] at hstep
      · cases hstep
      · cases hstep
      · cases hstep
      · cases hstep
      · cases hstep
        exact fun eof2 => blocked_rel hres eof2
      · cases hstep
    · rw [if_neg hlen] at hstep
      simp only [] at hstep
      cases hstep

/-- What a commit of the streaming loop says: a fresh parser run from 0 on
the current buffer completes at the committed cursor. -/
theorem driveStep_commit {I O : Type} {p : Coro I O} {buf : List I} {cur : Nat}
    {pend : Option (Coro I O)} {v : O} {cur' : Nat}
    (hrel : PendRel p buf cur pend)
    (hstep : driveStep p buf cur pend = .commit v cur') :
    runOne buf false p 0 = .done v cur' := by
  cases pend with
  | some c =>
    simp only [driveStep] at hstep
    rcases hres : runOne buf false c cur with ⟨v1, c1⟩ | ⟨v1, c1⟩ | ⟨e1, c1⟩ |
        ⟨e1, c1⟩ | ⟨cc, c1⟩ | c1 <;> rw [hres] at hstep <;> simp only [] at hstep
    · cases hstep
      exact ((hrel false).symm).trans hres
    · cases hstep
    · cases hstep
    · cases hstep
    · cases hstep
    · cases hstep
  | none =>
    have h0 : cur = 0 := hrel
    subst h0
    simp only [driveStep] at hstep
    by_cases hlen : 0 < buf.length
    · rw [if_pos hlen] at hstep
      simp only [] at hstep
      rcases hres : runOne buf false p 0 with ⟨v1, c1⟩ | ⟨v1, c1⟩ | ⟨e1, c1⟩ |
          ⟨e1, c1⟩ | ⟨cc, c1⟩ | c1 <;> rw [hres] at hstep <;> simp only [] at hstep
      · cases hstep
        rfl
      · cases hstep
      · cases hstep
      · cases hstep
      · cases hstep
      · cases hstep
    · rw [if_neg hlen] at hstep
      simp only [] at hstep
      cases hstep

/-- What a commit of the flush loop says: a fresh parser run from 0 on the
current terminal buffer completes (possibly inside the end-of-input
injection) at the committed cursor. -/
theorem flushStep_commit {I O : Type} {p : Coro I O} {buf : List I} {cur : Nat}
    {pend : Option (Coro I O)} {v : O} {cur' : Nat}
    (hrel : PendRel p buf cur pend)
    (hstep : flushStep p buf cur pend = .commit v cur') :
    runOne buf true p 0 = .done v cur' ∨ runOne buf true p 0 = .doneInj v cur' := by
  cases pend with
  | some c =>
    simp only [flushStep] at hstep
    rcases hres : runOne buf true c cur with ⟨v1, c1⟩ | ⟨v1, c1⟩ | ⟨e1, c1⟩ |
        ⟨e1, c1⟩ | ⟨cc, c1⟩ | c1 <;> rw [hres] at hstep <;> simp only [] at hstep
    · cases hstep
      exact Or.inl (((hrel true).symm).trans hres)
    · cases hstep
      exact Or.inr (((hrel true).symm).trans hres)
    · cases hstep
    · by_cases he : e1.eos = true
      · rw [if_pos he] at hstep
        cases hstep
      · rw [if_neg he] at hstep
        cases hstep
    · cases hstep
    · cases hstep
  | none =>
    have h0 : cur = 0 := hrel
    subst h0
    simp only [flushStep] at hstep
    by_cases hlen : 0 < buf.length
    · rw [if_pos hlen] at hstep
      simp only [] at hstep
      rcases hres : runOne buf true p 0 with ⟨v1, c1⟩ | ⟨v1, c1⟩ | ⟨e1, c1⟩ |
          ⟨e1, c1⟩ | ⟨cc, c1⟩ | c1 <;> rw [hres] at hstep <;> simp only [] at hstep
      · cases hstep
        exact Or.inl rfl
      · cases hstep
        exact Or.inr rfl
      · cases hstep
      · by_cases he : e1.eos = true
        · rw [if_pos he] at hstep
          cases hstep
        · rw [if_neg he] at hstep
          cases hstep
      · cases hstep
      · cases hstep
    · rw [if_neg hlen] at hstep
      simp only [] at hstep
      cases hstep

/-- An abandoned coroutine was abandoned by an EndOfParserStream escaping out
of an injection, so the recorded cursor is the buffer length. -/
theorem flushStep_abandon {I O : Type} {p : Coro I O} {buf : List I} {cur : Nat}
    {pend : Option (Coro I O)} {cur' : Nat}
    (hrel : PendRel p buf cur pend)
    (hstep : flushStep p buf cur pend = .abandon cur') :
    cur' = buf.length := by
  cases pend with
  | some c =>
    simp only [flushStep] at hstep
    rcases hres : runOne buf true c cur with ⟨v1, c1⟩ | ⟨v1, c1⟩ | ⟨e1, c1⟩ |
        ⟨e1, c1⟩ | ⟨cc, c1⟩ | c1 <;> rw [hres] at hstep <;> simp only [] at hstep
    · cases hstep
    · cases hstep
    · cases hstep
    · by_cases he : e1.eos = true
      · rw [if_pos he] at hstep
        cases hstep
        exact runOne_failInj_cursor c cur e1 cur' hres
      · rw [if_neg he] at hstep
        cases hstep
    · cases hstep
    · cases hstep
  | none =>
    have h0 : cur = 0 := hrel
    subst h0
    simp only [flushStep] at hstep
    by_cases hlen : 0 < buf.length
    · rw [if_pos hlen] at hstep
      simp only [] at hstep
      rcases hres : runOne buf true p 0 with ⟨v1, c1⟩ | ⟨v1, c1⟩ | ⟨e1, c1⟩ |
          ⟨e1, c1⟩ | ⟨cc, c1⟩ | c1 <;> rw [hres] at hstep <;> simp only [] at hstep
      · cases hstep
      · cases hstep
      · cases hstep
      · by_cases he : e1.eos = true
        · rw [if_pos he] at hstep
          cases hstep
          exact runOne_failInj_cursor p 0 e1 cur' hres
        · rw [if_neg he] at hstep
          cases hstep
      · cases hstep
      · cases hstep
    · rw [if_neg hlen] at hstep
      simp only [] at hstep
      cases hstep

/-- Coverage invariant of the streaming loop: committed outputs concatenated
with the remaining buffer always reconstruct the outputs and buffer the loop
started from, and a surviving suspension still mirrors a fresh parser run. -/
theorem driveAux_cov {I O : Type} (p : Coro I O) (μ : O → List I)
    (hp : ∀ (buf : List I) (v : O) (c2 : Nat),
      (runOne buf true p 0 = .done v c2 ∨ runOne buf true p 0 = .doneInj v c2) →
      μ v = buf.take c2) :
    ∀ (fuel : Nat) (buf : List I) (cur : Nat) (pend : Option (Coro I O))
      (outs : List O) (r : Feed I O),
      PendRel p buf cur pend →
      driveAux p fuel buf cur pend outs = r →
      (∀ st, r = .ok st →
        ((st.outs.map μ).flatten ++ st.buf = (outs.map μ).flatten ++ buf ∧
         PendRel p st.buf st.cur st.pend)) ∧
      (∀ (outs2 : List O) (e : Err), r = .err outs2 e →
        ∃ rest, (outs2.map μ).flatten ++ rest = (outs.map μ).flatten ++ buf)
  | 0, buf, cur, pend, outs, r => by
    intro hrel hr
    simp only [driveAux] at hr
    subst hr
    constructor
    · intro st hst
      cases hst
    · intro outs2 e he
      cases he
      exact ⟨buf, rfl⟩
  | fuel + 1, buf, cur, pend, outs, r => by
    intro hrel hr
    simp only [driveAux] at hr
    rcases hstep : driveStep p buf cur pend with _ | ⟨c1, cur1⟩ | ⟨v, cur1⟩ | e1 <;>
      rw [hstep] at hr <;> simp only [] at hr
    · subst hr
      constructor
      · intro st hst
        cases hst
        exact ⟨rfl, hrel⟩
      · intro outs2 e he
        cases he
    · subst hr
      constructor
      · intro st hst
        cases hst
        exact ⟨rfl, driveStep_blocked hrel hstep⟩
      · intro outs2 e he
        cases he
    · by_cases hz : cur1 = 0
      · rw [if_pos hz] at hr
        subst hr
        constructor
        · intro st hst
          cases hst
        · intro outs2 e he
          cases he
          exact ⟨buf, rfl⟩
      · rw [if_neg hz] at hr
        have hdone := runOne_false_to_true (driveStep_commit hrel hstep)
        have hμ : μ v = buf.take cur1 := hp buf v cur1 (Or.inl hdone)
        have ih := driveAux_cov p μ hp fuel (buf.drop cur1) 0 none (outs ++ [v]) r
          rfl hr
        have hout : ((outs ++ [v]).map μ).flatten ++ buf.drop cur1 =
            (outs.map μ).flatten ++ buf := by
          rw [List.map_append, List.flatten_append]
          simp only [List.map_cons, List.map_nil, List.flatten_cons, List.flatten_nil,
            List.append_nil]
          rw [hμ, List.append_assoc, List.take_append_drop]
        constructor
        · intro st hst
          have h1 := ih.1 st hst
          exact ⟨by rw [h1.1, hout], h1.2⟩
        · intro outs2 e he
          obtain ⟨rest, hrest⟩ := ih.2 outs2 e he
          refine ⟨rest, ?_⟩
          rw [← hout]
          exact hrest
    · subst hr
      constructor
      · intro st hst
        cases hst
      · intro outs2 e he
        cases he
        exact ⟨buf, rfl⟩

/-- Coverage invariant of the flush loop: on success the committed outputs
concatenated reconstruct exactly the outputs and buffer the loop started
from; whatever the outcome, they reconstruct a prefix of it. -/
theorem flushAux_cov {I O : Type} (p : Coro I O) (μ : O → List I)
    (hp : ∀ (buf : List I) (v : O) (c2 : Nat),
      (runOne buf true p 0 = .done v c2 ∨ runOne buf true p 0 = .doneInj v c2) →
      μ v = buf.take c2) :
    ∀ (fuel : Nat) (buf : List I) (cur : Nat) (pend : Option (Coro I O))
      (outs : List O) (r : Final I O),
      PendRel p buf cur pend →
      flushAux p fuel buf cur pend outs = r →
      (∀ outs2, r = .success outs2 →
        (outs2.map μ).flatten = (outs.map μ).flatten ++ buf) ∧
      (∃ rest, ((finalOuts r).map μ).flatten ++ rest = (outs.map μ).flatten ++ buf)
  | 0, buf, cur, pend, outs, r => by
    intro hrel hr
    simp only [flushAux] at hr
    subst hr
    constructor
    · intro outs2 h
      cases h
    · exact ⟨buf, rfl⟩
  | fuel + 1, buf, cur, pend, outs, r => by
    intro hrel hr
    simp only [flushAux] at hr
    rcases hstep : flushStep p buf cur pend with _ | ⟨v, cur1⟩ | cur1 | e1 | _ <;>
      rw [hstep] at hr <;> simp only [] at hr
    · by_cases hemp : buf.isEmpty = true
      · rw [if_pos hemp] at hr
        subst hr
        have hb : buf = [] := by simpa using hemp
        constructor
        · intro outs2 h
          cases h
          simp [hb]
        · exact ⟨[], by simp [hb, finalOuts]⟩
      · rw [if_neg hemp] at hr
        subst hr
        constructor
        · intro outs2 h
          cases h
        · exact ⟨buf, rfl⟩
    · by_cases hz : cur1 = 0
      · rw [if_pos hz] at hr
        subst hr
        constructor
        · intro outs2 h
          cases h
        · exact ⟨buf, rfl⟩
      · rw [if_neg hz] at hr
        have hμ : μ v = buf.take cur1 := hp buf v cur1 (flushStep_commit hrel hstep)
        have ih := flushAux_cov p μ hp fuel (buf.drop cur1) 0 none (outs ++ [v]) r
          rfl hr
        have hout : ((outs ++ [v]).map μ).flatten ++ buf.drop cur1 =
            (outs.map μ).flatten ++ buf := by
          rw [List.map_append, List.flatten_append]
          simp only [List.map_cons, List.map_nil, List.flatten_cons, List.flatten_nil,
            List.append_nil]
          rw [hμ, List.append_assoc, List.take_append_drop]
        constructor
        · intro outs2 h
          have h1 := ih.1 outs2 h
          rw [h1]
          exact hout
        · obtain ⟨rest, hrest⟩ := ih.2
          refine ⟨rest, ?_⟩
          rw [← hout]
          exact hrest
    · have hc := flushStep_abandon hrel hstep
      subst hc
      cases fuel with
      | zero =>
        simp only [flushAux] at hr
        subst hr
        constructor
        · intro outs2 h
          cases h
        · exact ⟨buf, rfl⟩
      | succ fuel2 =>
        simp only [flushAux] at hr
        rw [show flushStep p buf buf.length none = FStep.idle from by
          simp [flushStep]] at hr
        simp only [] at hr
        by_cases hemp : buf.isEmpty = true
        · rw [if_pos hemp] at hr
          subst hr
          have hb : buf = [] := by simpa using hemp
          constructor
          · intro outs2 h
            cases h
            simp [hb]
          · exact ⟨[], by simp [hb, finalOuts]⟩
        · rw [if_neg hemp] at hr
          subst hr
          constructor
          · intro outs2 h
            cases h
          · exact ⟨buf, rfl⟩
    · subst hr
      constructor
      · intro outs2 h
        cases h
      · exact ⟨buf, rfl⟩
    · subst hr
      constructor
      · intro outs2 h
        cases h
      · exact ⟨buf, rfl⟩

/-- The code points produced by one CodePointsStream chunk carry exactly the
decoded chunk's code values. -/
theorem cpChunk_codes : ∀ (st : CPSt) (src : List Nat),
    ((cpChunk st src).2).map (fun cp => cp.code) = src
  | st, [] => rfl
  | st, c :: rest => by
    simp only [cpChunk, List.map_cons]
    rw [cpChunk_codes _ rest]

/-- Coverage of a whole single-chunk stage run: on success the committed
outputs concatenated reconstruct exactly the input chunk; whatever the
outcome, they reconstruct a prefix of it. -/
theorem runChunked_single_cov {I O : Type} (p : Coro I O) (μ : O → List I)
    (hp : ∀ (buf : List I) (v : O) (c2 : Nat),
      (runOne buf true p 0 = .done v c2 ∨ runOne buf true p 0 = .doneInj v c2) →
      μ v = buf.take c2) (buf0 : List I) :
    (∀ outs2, runChunked p [buf0] = .success outs2 →
      (outs2.map μ).flatten = buf0) ∧
    (∃ rest, ((finalOuts (runChunked p [buf0])).map μ).flatten ++ rest = buf0) := by
  have hrc : runChunked p [buf0] =
      finishFeed p (driveAux p (buf0.length + 2) buf0 0 none []) := rfl
  rcases hfeed : driveAux p (buf0.length + 2) buf0 0 none [] with st | ⟨outs2e, e⟩
  · rw [hfeed] at hrc
    rcases st with ⟨sbuf, scur, spend, souts⟩
    have hd := (driveAux_cov p μ hp (buf0.length + 2) buf0 0 none [] _ rfl hfeed).1
      ⟨sbuf, scur, spend, souts⟩ rfl
    have hbase : (souts.map μ).flatten ++ sbuf = buf0 := by simpa using hd.1
    rcases spend with _ | c
    · simp only [finishFeed] at hrc
      by_cases hemp : sbuf.isEmpty = true
      · rw [if_pos hemp] at hrc
        have hb : sbuf = [] := by simpa using hemp
        subst hb
        constructor
        · intro outs2 h
          rw [hrc] at h
          cases h
          simpa using hbase
        · refine ⟨[], ?_⟩
          rw [hrc]
          simpa [finalOuts] using hbase
      · rw [if_neg hemp] at hrc
        constructor
        · intro outs2 h
          rw [hrc] at h
          cases h
        · refine ⟨sbuf, ?_⟩
          rw [hrc]
          simpa [finalOuts] using hbase
    · have hrel2 : PendRel p sbuf scur (some c) := hd.2
      simp only [finishFeed] at hrc
      have hf := flushAux_cov p μ hp (sbuf.length + 3) sbuf scur (some c) souts _
        hrel2 rfl
      constructor
      · intro outs2 h
        rw [hrc] at h
        have h1 := hf.1 outs2 h
        rw [h1]
        exact hbase
      · obtain ⟨rest, hrest⟩ := hf.2
        refine ⟨rest, ?_⟩
        rw [hrc, ← hbase]
        exact hrest
  · rw [hfeed] at hrc
    have hd := (driveAux_cov p μ hp (buf0.length + 2) buf0 0 none [] _ rfl hfeed).2
      outs2e e rfl
    obtain ⟨rest, hrest⟩ := hd
    constructor
    · intro outs2 h
      rw [hrc] at h
      cases h
    · refine ⟨rest, ?_⟩
      rw [hrc]
      simpa [finalOuts] using hrest

/-- Concatenated payloads are the code values of the concatenated code point
lists. -/
theorem payload_flatten (outs : List Tok) :
    (outs.map Tok.payload).flatten =
      ((outs.map Tok.cps).flatten).map (fun cp => cp.code) := by
  induction outs with
  | nil => rfl
  | cons t ts ih => simp [Tok.payload, ih]

/-- C9 (corrected): the lexical stage never invents or drops consumed code
points: concatenating the payloads of the emitted tokens in emission order
always reproduces a prefix of the source text (each committed code point is
in exactly one payload), and reproduces the source exactly whenever the
stage completes successfully.  The original claim's unconditional exact
reproduction fails on sources where lexing errors, such as a lone quote. -/
theorem c9_lexer_coverage :
    (∀ (f : Nat) (src : List Nat) (outs : List Tok),
        lexSource f src = .success outs →
        (outs.map Tok.payload).flatten = src) ∧
    (∀ (f : Nat) (src : List Nat),
        ∃ (rest : List Nat),
          ((finalOuts (lexSource f src)).map Tok.payload).flatten ++ rest = src) := by
  have hp : ∀ (f : Nat) (buf : List CodePoint) (v : Tok) (c2 : Nat),
      (runOne buf true (tokenParse f) 0 = .done v c2 ∨
       runOne buf true (tokenParse f) 0 = .doneInj v c2) →
      Tok.cps v = buf.take c2 := by
    intro f buf v c2 h
    have hc := tokenParse_cov f buf true 0 v c2 (Nat.zero_le _) h
    exact hc.1.trans (bufSlice_zero buf c2)
  constructor
  · intro f src outs h
    have hc := (runChunked_single_cov (tokenParse f) Tok.cps (hp f)
      ((cpChunk ⟨0, 0, 0⟩ src).2)).1 outs h
    rw [payload_flatten, hc, cpChunk_codes]
  · intro f src
    obtain ⟨rest, hrest⟩ := (runChunked_single_cov (tokenParse f) Tok.cps (hp f)
      ((cpChunk ⟨0, 0, 0⟩ src).2)).2
    refine ⟨rest.map (fun cp => cp.code), ?_⟩
    rw [show lexSource f src =
      runChunked (tokenParse f) [(cpChunk ⟨0, 0, 0⟩ src).2] from rfl]
    rw [payload_flatten, ← List.map_append, hrest, cpChunk_codes]

/-- C9 counterexample to the frozen wording: on the one-code-point source
consisting of a lone quotation mark the lexical stage emits no tokens and
terminates with "Unclosed string literal", so the concatenated payloads do
not reproduce the source. -/
theorem c9_coverage_counterexample :
    ((finalOuts (lexSource 20 [34])).map Tok.payload).flatten ≠ [34] ∧
    finalErr (lexSource 20 [34]) = some unclosedStringErr := by
  constructor
  · decide
  · decide

/-- C9 witness: on the source "(" the stage succeeds with one punctuator
token and the coverage theorem reports its payload as the whole source. -/
theorem c9_lexer_coverage_witness :
    ([(⟨TokKind.punctuator,
        [⟨40, ⟨⟨0, 0, 0⟩, ⟨1, 1, 0⟩⟩⟩]⟩ : Tok)].map Tok.payload).flatten = [40] :=
  c9_lexer_coverage.1 20 [40]
    [⟨TokKind.punctuator, [⟨40, ⟨⟨0, 0, 0⟩, ⟨1, 1, 0⟩⟩⟩]⟩] rfl

/-- A run outcome that witnesses termination of the source coroutine: it
completed or raised (possibly straight out of the end-of-input injection),
and the raised error is never the model's fuel sentinel. -/
def TotalOutcome {I O : Type} (r : RunRes I O) : Prop :=
  (∃ v c2, r = RunRes.done v c2 ∨ r = RunRes.doneInj v c2) ∨
  (∃ e c2, (r = RunRes.fail e c2 ∨ r = RunRes.failInj e c2) ∧ e ≠ fuelErr)

/-- Throwing end-of-input into a terminating coroutine still terminates. -/
theorem injStep_total {I O : Type} {buf : List I} {c : Coro I O} {cur : Nat}
    (h : TotalOutcome (runOne buf true c cur)) :
    TotalOutcome (injStep buf true c cur) := by
  cases c with
  | done v => exact Or.inl ⟨v, cur, Or.inr rfl⟩
  | fail e =>
    rcases h with ⟨v, c2, hd | hd⟩ | ⟨e2, c2, hd | hd, hne⟩
    · cases (show (RunRes.fail (I := I) (O := O) e cur) = .done v c2 from hd)
    · cases (show (RunRes.fail (I := I) (O := O) e cur) = .doneInj v c2 from hd)
    · cases (show (RunRes.fail (I := I) (O := O) e cur) = .fail e2 c2 from hd)
      exact Or.inr ⟨e, cur, Or.inr rfl, hne⟩
    · cases (show (RunRes.fail (I := I) (O := O) e cur) = .failInj e2 c2 from hd)
  | peek k hh => exact h
  | consume k hh => exact h
  | position a k => exact h

/-- The whitespace loop terminates on terminal input once the fuel covers the
remaining buffer. -/
theorem whitespaceLoop_total (buf : List CodePoint) :
    ∀ (f : Nat) (acc : List CodePoint) (cur : Nat), cur ≤ buf.length →
      buf.length + 1 - cur ≤ f →
      TotalOutcome (runOne buf true (whitespaceLoop f acc) cur)
  | 0, acc, cur => by
    intro hcur hf
    omega
  | f + 1, acc, cur => by
    intro hcur hf
    simp only [whitespaceLoop]
    by_cases hlt : cur < buf.length
    · rw [runOne_tryPeek_bind_lt true _ hlt]
      by_cases hws : isWhitespaceCp (some (buf.get ⟨cur, hlt⟩)) = true
      · rw [if_pos hws, runOne_psConsume_bind_lt true _ hlt]
        exact whitespaceLoop_total buf f (acc ++ [buf.get ⟨cur, hlt⟩]) (cur + 1)
          (by omega) (by omega)
      · rw [if_neg hws, runOne_done]
        exact Or.inl ⟨_, _, Or.inl rfl⟩
    · rw [runOne_tryPeek_bind_eof _ (by omega)]
      exact Or.inl ⟨some ⟨TokKind.whitespace, acc⟩, cur, Or.inr rfl⟩

/-- The identifier loop terminates on terminal input once the fuel covers the
remaining buffer. -/
theorem identifierLoop_total (buf : List CodePoint) :
    ∀ (f : Nat) (acc : List CodePoint) (cur : Nat), cur ≤ buf.length →
      buf.length + 1 - cur ≤ f →
      TotalOutcome (runOne buf true (identifierLoop f acc) cur)
  | 0, acc, cur => by
    intro hcur hf
    omega
  | f + 1, acc, cur => by
    intro hcur hf
    simp only [identifierLoop]
    by_cases hlt : cur < buf.length
    · rw [runOne_tryPeek_bind_lt true _ hlt]
      by_cases hid : isIdentifierPartCp (some (buf.get ⟨cur, hlt⟩)) = true
      · rw [if_pos hid, runOne_psConsume_bind_lt true _ hlt]
        exact identifierLoop_total buf f (acc ++ [buf.get ⟨cur, hlt⟩]) (cur + 1)
          (by omega) (by omega)
      · rw [if_neg hid, runOne_done]
        exact Or.inl ⟨_, _, Or.inl rfl⟩
    · rw [runOne_tryPeek_bind_eof _ (by omega)]
      exact Or.inl ⟨some ⟨TokKind.identifier, acc⟩, cur, Or.inr rfl⟩

/-- The string scan loop terminates on terminal input once the fuel covers
the remaining buffer (with either a token or "Unclosed string literal"). -/
theorem stringLoop_total (buf : List CodePoint) :
    ∀ (f q : Nat) (acc : List CodePoint) (cur : Nat), cur ≤ buf.length →
      buf.length + 1 - cur ≤ f →
      TotalOutcome (runOne buf true (stringLoop f q acc) cur)
  | 0, q, acc, cur => by
    intro hcur hf
    omega
  | f + 1, q, acc, cur => by
    intro hcur hf
    simp only [stringLoop]
    by_cases hlt : cur < buf.length
    · rw [runOne_tryConsume_bind_lt true _ hlt]
      simp only []
      by_cases h10 : (buf.get ⟨cur, hlt⟩).code = 10
      · rw [if_pos h10, runOne_fail]
        exact Or.inr ⟨unclosedStringErr, cur + 1, Or.inl rfl, by decide⟩
      · rw [if_neg h10]
        by_cases hq : (buf.get ⟨cur, hlt⟩).code = q
        · rw [if_pos hq, runOne_done]
          exact Or.inl ⟨_, _, Or.inl rfl⟩
        · rw [if_neg hq]
          exact stringLoop_total buf f q (acc ++ [buf.get ⟨cur, hlt⟩]) (cur + 1)
            (by omega) (by omega)
    · rw [runOne_tryConsume_bind_eof _ (by omega)]
      exact Or.inr ⟨unclosedStringErr, cur, Or.inr rfl, by decide⟩

/-- The lineTerminator rule terminates on terminal input (it has no loop). -/
theorem lineTerminatorRule_total (buf : List CodePoint) (i : CodePoint) :
    ∀ (cur : Nat), cur ≤ buf.length →
      TotalOutcome (runOne buf true (lineTerminatorRule i) cur) := by
  intro cur hcur
  rw [lineTerminatorRule]
  by_cases h13 : i.code = 13
  · rw [if_pos h13]
    by_cases hlt : cur < buf.length
    · rw [runOne_psPosition_bind_lt true _ _ hlt]
      simp only [Option.getD_none]
      rw [runOne_tryConsume_bind_lt true _ hlt]
      simp only []
      by_cases h10 : (buf.get ⟨cur, hlt⟩).code = 10
      · rw [if_pos h10, runOne_done]
        exact Or.inl ⟨_, _, Or.inl rfl⟩
      · rw [if_neg h10]
        rw [runOne_psPosition_bind _ _ (show cur + 1 ≤ buf.length by omega)]
        simp only [Option.getD_some]
        rw [lineTerminatorTail, if_neg (by omega), runOne_done]
        exact Or.inl ⟨_, _, Or.inl rfl⟩
    · rw [runOne_psPosition_bind _ _ hcur]
      simp only [Option.getD_none]
      rw [runOne_tryConsume_bind_eof _ (by omega)]
      simp only []
      rw [injStep_psPosition_bind]
      rw [runOne_psPosition_bind _ _ hcur]
      simp only [Option.getD_some]
      rw [lineTerminatorTail, if_neg (by omega), runOne_done]
      exact Or.inl ⟨_, _, Or.inl rfl⟩
  · rw [if_neg h13, lineTerminatorTail]
    by_cases h10 : i.code = 10
    · rw [if_pos h10, runOne_done]
      exact Or.inl ⟨_, _, Or.inl rfl⟩
    · rw [if_neg h10, runOne_done]
      exact Or.inl ⟨_, _, Or.inl rfl⟩

/-- The whitespace rule terminates on terminal input. -/
theorem whitespaceRule_total (buf : List CodePoint) (f : Nat) (i : CodePoint) :
    ∀ (cur : Nat), cur ≤ buf.length → buf.length + 1 - cur ≤ f →
      TotalOutcome (runOne buf true (whitespaceRule f i) cur) := by
  intro cur hcur hf
  rw [whitespaceRule]
  by_cases hws : isWhitespaceCp (some i) = true
  · rw [if_pos hws]
    exact whitespaceLoop_total buf f [i] cur hcur hf
  · rw [if_neg hws, runOne_done]
    exact Or.inl ⟨_, _, Or.inl rfl⟩

/-- The punctuator rule terminates (it has no loop). -/
theorem punctuatorRule_total (buf : List CodePoint) (i : CodePoint) :
    ∀ (cur : Nat), cur ≤ buf.length →
      TotalOutcome (runOne buf true (punctuatorRule i) cur) := by
  intro cur hcur
  rw [punctuatorRule]
  by_cases hp : (cpIs 44 (some i) || cpIs 46 (some i) || cpIs 59 (some i) ||
      cpIs 40 (some i) || cpIs 41 (some i)) = true
  · rw [if_pos hp, runOne_done]
    exact Or.inl ⟨_, _, Or.inl rfl⟩
  · rw [if_neg hp, runOne_done]
    exact Or.inl ⟨_, _, Or.inl rfl⟩

/-- The identifier rule terminates on terminal input. -/
theorem identifierRule_total (buf : List CodePoint) (f : Nat) (i : CodePoint) :
    ∀ (cur : Nat), cur ≤ buf.length → buf.length + 1 - cur ≤ f →
      TotalOutcome (runOne buf true (identifierRule f i) cur) := by
  intro cur hcur hf
  rw [identifierRule]
  by_cases hid : isIdentifierStartCp (some i) = true
  · rw [if_pos hid]
    exact identifierLoop_total buf f [i] cur hcur hf
  · rw [if_neg hid, runOne_done]
    exact Or.inl ⟨_, _, Or.inl rfl⟩

/-- The string rule terminates on terminal input. -/
theorem stringRule_total (buf : List CodePoint) (f : Nat) (i : CodePoint) :
    ∀ (cur : Nat), cur ≤ buf.length → buf.length + 1 - cur ≤ f →
      TotalOutcome (runOne buf true (stringRule f i) cur) := by
  intro cur hcur hf
  rw [stringRule]
  by_cases hq : (cpIs 34 (some i) || cpIs 39 (some i)) = true
  · rw [if_pos hq]
    exact stringLoop_total buf f i.code [i] cur hcur hf
  · rw [if_neg hq, runOne_done]
    exact Or.inl ⟨_, _, Or.inl rfl⟩

/-- The unknown-token fallback terminates immediately. -/
theorem unknownTail_total (buf : List CodePoint) (i : CodePoint) :
    ∀ (cur : Nat),
      TotalOutcome (runOne buf true ((unknownRule i).bind fun u => Coro.done u) cur) := by
  intro cur
  exact Or.inl ⟨⟨TokKind.unknown, [i]⟩, cur, Or.inl rfl⟩

/-- Termination propagates through one stage of the rule chain. -/
theorem ruleStep_total (buf : List CodePoint) (i : CodePoint)
    (c : Coro CodePoint (Option Tok)) (rest : Coro CodePoint Tok)
    (hc_cov : ∀ (eof : Bool) (cur : Nat) (r : Option Tok) (c2 : Nat),
      cur ≤ buf.length →
      (runOne buf eof c cur = .done r c2 ∨ runOne buf eof c cur = .doneInj r c2) →
      RuleCov buf i cur r c2)
    (hc_total : ∀ (cur : Nat), cur ≤ buf.length →
      TotalOutcome (runOne buf true c cur))
    (hrest : ∀ (cur : Nat), cur ≤ buf.length →
      TotalOutcome (runOne buf true rest cur)) :
    ∀ (cur : Nat), cur ≤ buf.length →
      TotalOutcome (runOne buf true (ruleStep c rest) cur) := by
  intro cur hcur
  rw [ruleStep, runOne_bind]
  rcases hc_total cur hcur with ⟨r, c1, hres | hres⟩ | ⟨e, c1, hres | hres, hne⟩
  · rw [hres]
    simp only []
    rcases r with _ | tk
    · have hc1 : c1 = cur := hc_cov true cur none c1 hcur (Or.inl hres)
      rw [hc1]
      exact hrest cur hcur
    · rw [runOne_done]
      exact Or.inl ⟨tk, c1, Or.inl rfl⟩
  · rw [hres]
    simp only []
    rcases r with _ | tk
    · have hc1 : c1 = cur := hc_cov true cur none c1 hcur (Or.inr hres)
      rw [hc1]
      exact injStep_total (hrest cur hcur)
    · exact Or.inl ⟨tk, c1, Or.inr rfl⟩
  · rw [hres]
    exact Or.inr ⟨e, c1, Or.inl rfl, hne⟩
  · rw [hres]
    exact Or.inr ⟨e, c1, Or.inr rfl, hne⟩

/-- C10: every invocation of the lexer coroutine Token.parse terminates after
finitely many Peek/Consume/Position commands: on terminal input, with the
fuel of the shallow embedding merely exceeding the buffer length, the run
always ends in a completed value or a raised error (never in the model's
fuel sentinel and never demanding input forever), because each iteration of
the whitespace, identifier, and string loops consumes one buffered item and
at end of input every pending Peek/Consume raises into the coroutine. -/
theorem c10_tokenParse_terminates :
    ∀ (f : Nat) (buf : List CodePoint) (cur : Nat),
      cur ≤ buf.length → buf.length + 1 ≤ f →
      TotalOutcome (runOne buf true (tokenParse f) cur) := by
  intro f buf cur hcur hf
  rw [tokenParse_eq]
  by_cases hlt : cur < buf.length
  · rw [runOne_psConsume_bind_lt true _ hlt]
    rw [tokenChain]
    refine ruleStep_total buf (buf.get ⟨cur, hlt⟩) _ _
      (lineTerminatorRule_cov buf _)
      (fun cur2 hcur2 => lineTerminatorRule_total buf _ cur2 hcur2)
      (ruleStep_total buf _ _ _ (whitespaceRule_cov buf f _)
        (fun cur2 hcur2 => whitespaceRule_total buf f _ cur2 hcur2 (by omega))
        (ruleStep_total buf _ _ _ (punctuatorRule_cov buf _)
          (fun cur2 hcur2 => punctuatorRule_total buf _ cur2 hcur2)
          (ruleStep_total buf _ _ _ (identifierRule_cov buf f _)
            (fun cur2 hcur2 => identifierRule_total buf f _ cur2 hcur2 (by omega))
            (ruleStep_total buf _ _ _ (stringRule_cov buf f _)
              (fun cur2 hcur2 => stringRule_total buf f _ cur2 hcur2 (by omega))
              (fun cur2 hcur2 => unknownTail_total buf _ cur2)))))
      (cur + 1) (by omega)
  · rw [runOne_psConsume_bind_eof _ (by omega)]
    exact Or.inr ⟨eosErr, cur, Or.inr rfl, by decide⟩

/-- C10 witness: on the one-code-point buffer "(" with fuel 2, Token.parse
reaches an outcome. -/
theorem c10_tokenParse_terminates_witness :
    TotalOutcome (runOne [(⟨40, ⟨⟨0, 0, 0⟩, ⟨1, 1, 0⟩⟩⟩ : CodePoint)] true
      (tokenParse 2) 0) :=
  c10_tokenParse_terminates 2 [⟨40, ⟨⟨0, 0, 0⟩, ⟨1, 1, 0⟩⟩⟩] 0 (by decide) (by decide)

/-- In streaming mode a run only completes, throws, or waits for input:
injection and hanging belong to terminal mode. -/
theorem runOne_false_shape {I O : Type} {buf : List I} :
    ∀ (c : Coro I O) (cur : Nat),
      (∃ v c2, runOne buf false c cur = .done v c2) ∨
      (∃ e c2, runOne buf false c cur = .fail e c2) ∨
      (∃ c' cur', runOne buf false c cur = .blocked c' cur')
  | .done v, cur => Or.inl ⟨v, cur, rfl⟩
  | .fail e, cur => Or.inr (Or.inl ⟨e, cur, rfl⟩)
  | .peek k h, cur => by
    by_cases hlt : cur < buf.length
    · rw [runOne_peek_lt false _ _ hlt]
      exact runOne_false_shape (k (buf.get ⟨cur, hlt⟩)) cur
    · rw [runOne_peek_block _ _ hlt]
      exact Or.inr (Or.inr ⟨_, _, rfl⟩)
  | .consume k h, cur => by
    by_cases hlt : cur < buf.length
    · rw [runOne_consume_lt false _ _ hlt]
      exact runOne_false_shape (k (buf.get ⟨cur, hlt⟩)) (cur + 1)
    · rw [runOne_consume_block _ _ hlt]
      exact Or.inr (Or.inr ⟨_, _, rfl⟩)
  | .position a k, cur => by
    by_cases hlt : cur < buf.length
    · rw [runOne_position_lt false _ _ hlt]
      exact runOne_false_shape (k cur) (a.getD cur)
    · rw [runOne_position_block _ _ hlt]
      exact Or.inr (Or.inr ⟨_, _, rfl⟩)

/-- Extension-stable version of the suspension invariant: a suspended
coroutine resumes exactly like a fresh parser run from 0, on the current
buffer extended by any future input. -/
def SPendRel {I O : Type} (p : Coro I O) (buf : List I) (cur : Nat) :
    Option (Coro I O) → Prop
  | none => cur = 0
  | some c => ∀ (ext : List I) (eof2 : Bool),
      runOne (buf ++ ext) eof2 c cur = runOne (buf ++ ext) eof2 p 0

/-- The extension-stable invariant implies the plain one. -/
theorem SPendRel.toRel {I O : Type} {p : Coro I O} {buf : List I} {cur : Nat}
    {pend : Option (Coro I O)} (h : SPendRel p buf cur pend) :
    PendRel p buf cur pend := by
  cases pend with
  | none => exact h
  | some c =>
    intro eof2
    have h2 := h [] eof2
    rwa [List.append_nil] at h2

/-- The extension-stable invariant survives appending input to the buffer. -/
theorem SPendRel.extend {I O : Type} {p : Coro I O} {buf : List I} {cur : Nat}
    {pend : Option (Coro I O)} (h : SPendRel p buf cur pend) (a : List I) :
    SPendRel p (buf ++ a) cur pend := by
  cases pend with
  | none => exact h
  | some c =>
    intro ext eof2
    have h2 := h (a ++ ext) eof2
    rwa [← List.append_assoc] at h2

/-- A blocked round of the streaming loop establishes the extension-stable
suspension invariant. -/
theorem driveStep_blocked_strong {I O : Type} {p : Coro I O} {buf : List I}
    {cur : Nat} {pend : Option (Coro I O)} {c' : Coro I O} {cur' : Nat}
    (hrel : SPendRel p buf cur pend)
    (hstep : driveStep p buf cur pend = .blocked c' cur') :
    SPendRel p buf cur' (some c') := by
  cases pend with
  | some c =>
    simp only [driveStep] at hstep
    rcases hres : runOne buf false c cur with ⟨v1, c1⟩ | ⟨v1, c1⟩ | ⟨e1, c1⟩ |
        ⟨e1, c1⟩ | ⟨cc, c1⟩ | c1 <;> rw [hres] at hstep <;> simp only [] at hstep
    · cases hstep
    · cases hstep
    · cases hstep
    · cases hstep
    · cases hstep
      intro ext eof2
      exact (runOne_extend_blocked c cur buf c' cur' hres ext eof2).symm.trans
        (hrel ext eof2)
    · cases hstep
  | none =>
    have h0 : cur = 0 := hrel
    subst h0
    simp only [driveStep] at hstep
    by_cases hlen : 0 < buf.length
    · rw [if_pos hlen] at hstep
      simp only [] at hstep
      rcases hres : runOne buf false p 0 with ⟨v1, c1⟩ | ⟨v1, c1⟩ | ⟨e1, c1⟩ |
          ⟨e1, c1⟩ | ⟨cc, c1⟩ | c1 <;> rw [hres] at hstep <;> simp only [] at hstep
      · cases hstep
      · cases hstep
      · cases hstep
      · cases hstep
      · cases hstep
        intro ext eof2
        exact (runOne_extend_blocked p 0 buf c' cur' hres ext eof2).symm
      · cases hstep
    · rw [if_neg hlen] at hstep
      simp only [] at hstep
      cases hstep

/-- What an erroring round of the streaming loop says: a fresh parser run
from 0 on the current buffer throws that error. -/
theorem driveStep_bad {I O : Type} {p : Coro I O} {buf : List I} {cur : Nat}
    {pend : Option (Coro I O)} {e : Err}
    (hrel : PendRel p buf cur pend)
    (hstep : driveStep p buf cur pend = .bad e) :
    ∃ c1, runOne buf false p 0 = .fail e c1 := by
  cases pend with
  | some c =>
    simp only [driveStep] at hstep
    rcases runOne_false_shape c cur with ⟨v1, c1, hres⟩ | ⟨e1, c1, hres⟩ |
        ⟨cc, c1, hres⟩ <;> rw [hres] at hstep <;> simp only [] at hstep
    · cases hstep
    · cases hstep
      exact ⟨c1, ((hrel false).symm).trans hres⟩
    · cases hstep
  | none =>
    have h0 : cur = 0 := hrel
    subst h0
    simp only [driveStep] at hstep
    by_cases hlen : 0 < buf.length
    · rw [if_pos hlen] at hstep
      simp only [] at hstep
      rcases @runOne_false_shape I O buf p 0 with ⟨v1, c1, hres⟩ |
          ⟨e1, c1, hres⟩ | ⟨cc, c1, hres⟩ <;> rw [hres] at hstep <;>
        simp only [] at hstep
      · cases hstep
      · cases hstep
        exact ⟨c1, hres⟩
      · cases hstep
    · rw [if_neg hlen] at hstep
      simp only [] at hstep
      cases hstep

/-- The streaming loop's fuel is irrelevant once it covers the buffer: every
commit of a parser that never overruns the buffer discards at least one and
at most all of the buffered items. -/
theorem driveAux_fuel {I O : Type} (p : Coro I O)
    (hp0 : ∀ (buf : List I) (v : O) (c2 : Nat),
      runOne buf false p 0 = .done v c2 → c2 ≤ buf.length) :
    ∀ (f1 f2 : Nat) (buf : List I) (cur : Nat) (pend : Option (Coro I O))
      (outs : List O), SPendRel p buf cur pend →
      buf.length + 1 ≤ f1 → buf.length + 1 ≤ f2 →
      driveAux p f1 buf cur pend outs = driveAux p f2 buf cur pend outs
  | 0, _, buf, cur, pend, outs => by
    intro hrel h1 h2
    omega
  | _ + 1, 0, buf, cur, pend, outs => by
    intro hrel h1 h2
    omega
  | g1 + 1, g2 + 1, buf, cur, pend, outs => by
    intro hrel h1 h2
    simp only [driveAux]
    rcases hstep : driveStep p buf cur pend with _ | ⟨c1, cur1⟩ | ⟨v, cur1⟩ | e1
    · rfl
    · rfl
    · simp only []
      by_cases hz : cur1 = 0
      · rw [if_pos hz, if_pos hz]
      · rw [if_neg hz, if_neg hz]
        have hcur1 := hp0 buf v cur1 (driveStep_commit hrel.toRel hstep)
        exact driveAux_fuel p hp0 g1 g2 (buf.drop cur1) 0 none (outs ++ [v]) rfl
          (by rw [List.length_drop]; omega) (by rw [List.length_drop]; omega)
    · rfl

/-- The streaming loop preserves the extension-stable suspension invariant
and never grows the buffer. -/
theorem driveAux_state {I O : Type} (p : Coro I O) :
    ∀ (fuel : Nat) (buf : List I) (cur : Nat) (pend : Option (Coro I O))
      (outs : List O) (st : ESt I O),
      SPendRel p buf cur pend →
      driveAux p fuel buf cur pend outs = .ok st →
      SPendRel p st.buf st.cur st.pend ∧ st.buf.length ≤ buf.length
  | 0, buf, cur, pend, outs, st => by
    intro hrel hr
    simp only [driveAux] at hr
    cases hr
  | fuel + 1, buf, cur, pend, outs, st => by
    intro hrel hr
    simp only [driveAux] at hr
    rcases hstep : driveStep p buf cur pend with _ | ⟨c1, cur1⟩ | ⟨v, cur1⟩ | e1 <;>
      rw [hstep] at hr <;> simp only [] at hr
    · cases hr
      exact ⟨hrel, Nat.le_refl _⟩
    · cases hr
      exact ⟨driveStep_blocked_strong hrel hstep, Nat.le_refl _⟩
    · by_cases hz : cur1 = 0
      · rw [if_pos hz] at hr
        cases hr
      · rw [if_neg hz] at hr
        have ih := driveAux_state p fuel (buf.drop cur1) 0 none (outs ++ [v]) st
          rfl hr
        refine ⟨ih.1, ?_⟩
        have h2 := ih.2
        rw [List.length_drop] at h2
        omega
    · cases hr

/-- Driving a suspended coroutine equals driving any coroutine whose run on
the current buffer agrees with it. -/
theorem driveAux_align {I O : Type} (p : Coro I O) (buf : List I)
    {c c' : Coro I O} {cur cur' : Nat}
    (h : runOne buf false c cur = runOne buf false c' cur') :
    ∀ (fuel : Nat) (outs : List O),
      driveAux p fuel buf cur (some c) outs =
        driveAux p fuel buf cur' (some c') outs := by
  intro fuel outs
  cases fuel with
  | zero => rfl
  | succ g =>
    simp only [driveAux]
    rcases hres : runOne buf false c cur with ⟨v, c2⟩ | ⟨v, c2⟩ | ⟨e, c2⟩ |
        ⟨e, c2⟩ | ⟨cc, c2⟩ | c2 <;>
      rw [show driveStep p buf cur (some c) = driveStep p buf cur' (some c') from by
            simp only [driveStep, h],
          show driveStep p buf cur' (some c') =
              (match runOne buf false c' cur' with
               | .blocked c2 cur2 => DStep.blocked c2 cur2
               | .done v cur2 => DStep.commit v cur2
               | .doneInj _ _ => DStep.bad engineBugErr
               | .fail e _ => DStep.bad e
               | .failInj _ _ => DStep.bad engineBugErr
               | .hang _ => DStep.bad engineBugErr) from rfl,
          ← h, hres]

/-- Driving an idle engine on a non-empty buffer equals driving any suspended
coroutine whose run agrees with a fresh parser run. -/
theorem driveAux_align_fresh {I O : Type} (p : Coro I O) (buf : List I)
    {c' : Coro I O} {cur' : Nat} (hlen : 0 < buf.length)
    (h : runOne buf false p 0 = runOne buf false c' cur') :
    ∀ (fuel : Nat) (outs : List O),
      driveAux p fuel buf 0 none outs = driveAux p fuel buf cur' (some c') outs := by
  intro fuel outs
  cases fuel with
  | zero => rfl
  | succ g =>
    simp only [driveAux]
    rcases hres : runOne buf false p 0 with ⟨v, c2⟩ | ⟨v, c2⟩ | ⟨e, c2⟩ |
        ⟨e, c2⟩ | ⟨cc, c2⟩ | c2 <;>
      rw [show driveStep p buf 0 none =
            (match runOne buf false p 0 with
             | .blocked c2 cur2 => DStep.blocked c2 cur2
             | .done v cur2 => DStep.commit v cur2
             | .doneInj _ _ => DStep.bad engineBugErr
             | .fail e _ => DStep.bad e
             | .failInj _ _ => DStep.bad engineBugErr
             | .hang _ => DStep.bad engineBugErr) from by
            simp only [driveStep, if_pos hlen],
          show driveStep p buf cur' (some c') =
              (match runOne buf false c' cur' with
               | .blocked c2 cur2 => DStep.blocked c2 cur2
               | .done v cur2 => DStep.commit v cur2
               | .doneInj _ _ => DStep.bad engineBugErr
               | .fail e _ => DStep.bad e
               | .failInj _ _ => DStep.bad engineBugErr
               | .hang _ => DStep.bad engineBugErr) from rfl,
          ← h, hres]

/-- A commit of the streaming loop happens identically on any extension of
the buffer. -/
theorem driveStep_extend_commit {I O : Type} {p : Coro I O} {buf : List I}
    {cur : Nat} {pend : Option (Coro I O)} {v : O} {cur1 : Nat} (ext : List I)
    (hrel : SPendRel p buf cur pend)
    (hstep : driveStep p buf cur pend = .commit v cur1) :
    driveStep p (buf ++ ext) cur pend = .commit v cur1 := by
  have hdone := driveStep_commit hrel.toRel hstep
  have hstable : runOne (buf ++ ext) false p 0 = .done v cur1 :=
    runOne_extend_stable p 0 buf _ hdone (Or.inl ⟨v, cur1, rfl⟩) ext false
  cases pend with
  | some c =>
    have hc : runOne (buf ++ ext) false c cur = .done v cur1 :=
      (hrel ext false).trans hstable
    simp only [driveStep, hc]
  | none =>
    have h0 : cur = 0 := hrel
    subst h0
    by_cases hlen : 0 < buf.length
    · have hlen2 : 0 < (buf ++ ext).length := by
        rw [List.length_append]
        omega
      simp only [driveStep, if_pos hlen2, hstable]
    · exfalso
      simp only [driveStep, if_neg hlen] at hstep
      cases hstep

/-- A streaming-loop error happens identically on any extension of the
buffer. -/
theorem driveStep_extend_bad {I O : Type} {p : Coro I O} {buf : List I}
    {cur : Nat} {pend : Option (Coro I O)} {e : Err} (ext : List I)
    (hrel : SPendRel p buf cur pend)
    (hstep : driveStep p buf cur pend = .bad e) :
    driveStep p (buf ++ ext) cur pend = .bad e := by
  obtain ⟨c1, hfail⟩ := driveStep_bad hrel.toRel hstep
  have hstable : runOne (buf ++ ext) false p 0 = .fail e c1 :=
    runOne_extend_stable p 0 buf _ hfail (Or.inr ⟨e, c1, rfl⟩) ext false
  cases pend with
  | some c =>
    have hc : runOne (buf ++ ext) false c cur = .fail e c1 :=
      (hrel ext false).trans hstable
    simp only [driveStep, hc]
  | none =>
    have h0 : cur = 0 := hrel
    subst h0
    by_cases hlen : 0 < buf.length
    · have hlen2 : 0 < (buf ++ ext).length := by
        rw [List.length_append]
        omega
      simp only [driveStep, if_pos hlen2, hstable]
    · exfalso
      simp only [driveStep, if_neg hlen] at hstep
      cases hstep

/-- Streaming composition: driving a buffer extended by future input is the
same as first driving the buffer alone to quiescence and then driving its
leftover together with the future input. -/
theorem driveAux_extend_ok {I O : Type} (p : Coro I O)
    (hp0 : ∀ (buf : List I) (v : O) (c2 : Nat),
      runOne buf false p 0 = .done v c2 → c2 ≤ buf.length) :
    ∀ (fuel : Nat) (buf : List I) (cur : Nat) (pend : Option (Coro I O))
      (outs : List O) (st : ESt I O) (ext : List I),
      SPendRel p buf cur pend →
      driveAux p fuel buf cur pend outs = .ok st →
      ∀ (fuel2 fuel3 : Nat),
        (buf ++ ext).length + 1 ≤ fuel2 → (st.buf ++ ext).length + 1 ≤ fuel3 →
        driveAux p fuel2 (buf ++ ext) cur pend outs =
          driveAux p fuel3 (st.buf ++ ext) st.cur st.pend st.outs
  | 0, buf, cur, pend, outs, st, ext => by
    intro hrel hr fuel2 fuel3 hf2 hf3
    simp only [driveAux] at hr
    cases hr
  | fuel + 1, buf, cur, pend, outs, st, ext => by
    intro hrel hr fuel2 fuel3 hf2 hf3
    simp only [driveAux] at hr
    rcases hstep : driveStep p buf cur pend with _ | ⟨c1, cur1⟩ | ⟨v, cur1⟩ | e1 <;>
      rw [hstep] at hr <;> simp only [] at hr
    · cases hr
      exact driveAux_fuel p hp0 fuel2 fuel3 (buf ++ ext) cur pend outs
        (hrel.extend ext) hf2 hf3
    · cases hr
      rw [driveAux_fuel p hp0 fuel2 fuel3 (buf ++ ext) cur pend outs
        (hrel.extend ext) hf2 hf3]
      have hstrong := driveStep_blocked_strong hrel hstep
      cases pend with
      | some c =>
        exact driveAux_align p (buf ++ ext)
          ((hrel ext false).trans ((hstrong ext false)).symm) fuel3 outs
      | none =>
        have h0 : cur = 0 := hrel
        subst h0
        by_cases hlen : 0 < buf.length
        · exact driveAux_align_fresh p (buf ++ ext)
            (by rw [List.length_append]; omega) ((hstrong ext false)).symm fuel3 outs
        · exfalso
          simp only [driveStep, if_neg hlen] at hstep
          cases hstep
    · by_cases hz : cur1 = 0
      · rw [if_pos hz] at hr
        cases hr
      · rw [if_neg hz] at hr
        have hcur1 := hp0 buf v cur1 (driveStep_commit hrel.toRel hstep)
        cases fuel2 with
        | zero => omega
        | succ h2 =>
          have hstep2 := driveStep_extend_commit ext hrel hstep
          simp only [driveAux]
          rw [hstep2]
          simp only []
          rw [if_neg hz, List.drop_append_of_le_length hcur1]
          exact driveAux_extend_ok p hp0 fuel (buf.drop cur1) 0 none (outs ++ [v])
            st ext rfl hr h2 fuel3
            (by simp only [List.length_append, List.length_drop] at hf2 ⊢; omega) hf3
    · cases hr

/-- Streaming composition, error case: once the buffer alone makes the
stream terminate with an error, any future input is irrelevant. -/
theorem driveAux_extend_err {I O : Type} (p : Coro I O)
    (hp0 : ∀ (buf : List I) (v : O) (c2 : Nat),
      runOne buf false p 0 = .done v c2 → c2 ≤ buf.length) :
    ∀ (fuel : Nat) (buf : List I) (cur : Nat) (pend : Option (Coro I O))
      (outs : List O) (outs2 : List O) (e : Err) (ext : List I),
      SPendRel p buf cur pend →
      buf.length + 1 ≤ fuel →
      driveAux p fuel buf cur pend outs = .err outs2 e →
      ∀ (fuel2 : Nat), (buf ++ ext).length + 1 ≤ fuel2 →
        driveAux p fuel2 (buf ++ ext) cur pend outs = .err outs2 e
  | 0, buf, cur, pend, outs, outs2, e, ext => by
    intro hrel hfuel hr fuel2 hf2
    omega
  | fuel + 1, buf, cur, pend, outs, outs2, e, ext => by
    intro hrel hfuel hr fuel2 hf2
    simp only [driveAux] at hr
    rcases hstep : driveStep p buf cur pend with _ | ⟨c1, cur1⟩ | ⟨v, cur1⟩ | e1 <;>
      rw [hstep] at hr <;> simp only [] at hr
    · cases hr
    · cases hr
    · by_cases hz : cur1 = 0
      · rw [if_pos hz] at hr
        cases hr
        cases fuel2 with
        | zero => omega
        | succ h2 =>
          have hstep2 := driveStep_extend_commit ext hrel hstep
          simp only [driveAux]
          rw [hstep2]
          simp only []
          rw [if_pos hz]
      · rw [if_neg hz] at hr
        have hcur1 := hp0 buf v cur1 (driveStep_commit hrel.toRel hstep)
        cases fuel2 with
        | zero => omega
        | succ h2 =>
          have hstep2 := driveStep_extend_commit ext hrel hstep
          simp only [driveAux]
          rw [hstep2]
          simp only []
          rw [if_neg hz, List.drop_append_of_le_length hcur1]
          exact driveAux_extend_err p hp0 fuel (buf.drop cur1) 0 none (outs ++ [v])
            outs2 e ext rfl (by rw [List.length_drop]; omega) hr h2
            (by simp only [List.length_append, List.length_drop] at hf2 ⊢; omega)
    · cases hr
      cases fuel2 with
      | zero => omega
      | succ h2 =>
        have hstep2 := driveStep_extend_bad ext hrel hstep
        simp only [driveAux]
        rw [hstep2]

/-- A terminated stream ignores any further chunks. -/
theorem foldl_feed_err {I O : Type} (p : Coro I O) (outs : List O) (e : Err) :
    ∀ (chunks : List (List I)),
      List.foldl (feedChunk p) (.err outs e) chunks = .err outs e
  | [] => rfl
  | a :: rest => by
    simp only [List.foldl]
    exact foldl_feed_err p outs e rest

/-- Feeding chunks one by one equals driving their concatenation at once,
starting from a freshly driven engine state. -/
theorem runChunks_extend {I O : Type} (p : Coro I O)
    (hp0 : ∀ (buf : List I) (v : O) (c2 : Nat),
      runOne buf false p 0 = .done v c2 → c2 ≤ buf.length) :
    ∀ (chunks : List (List I)) (buf : List I) (cur : Nat)
      (pend : Option (Coro I O)) (outs : List O) (fuel3 : Nat),
      SPendRel p buf cur pend →
      (buf ++ chunks.flatten).length + 1 ≤ fuel3 →
      List.foldl (feedChunk p) (driveTop p buf cur pend outs) chunks =
        driveAux p fuel3 (buf ++ chunks.flatten) cur pend outs
  | [], buf, cur, pend, outs, fuel3 => by
    intro hrel hf3
    rw [List.flatten_nil, List.append_nil] at hf3 ⊢
    simp only [List.foldl]
    rw [driveTop]
    exact driveAux_fuel p hp0 (buf.length + 2) fuel3 buf cur pend outs hrel
      (by omega) hf3
  | a :: rest, buf, cur, pend, outs, fuel3 => by
    intro hrel hf3
    rw [List.flatten_cons] at hf3 ⊢
    simp only [List.foldl]
    rcases hdt : driveTop p buf cur pend outs with st | ⟨outsE, eE⟩
    · have hstate := driveAux_state p (buf.length + 2) buf cur pend outs st hrel hdt
      simp only [feedChunk]
      have ih := runChunks_extend p hp0 rest (st.buf ++ a) st.cur st.pend st.outs
        fuel3 (hstate.1.extend a)
        (by simp only [List.length_append] at hf3 ⊢
            have h2 := hstate.2
            omega)
      rw [ih]
      have hext := driveAux_extend_ok p hp0 (buf.length + 2) buf cur pend outs st
        (a ++ rest.flatten) hrel hdt fuel3 fuel3
        (by simp only [List.length_append] at hf3 ⊢; omega)
        (by simp only [List.length_append] at hf3 ⊢
            have h2 := hstate.2
            omega)
      rw [List.append_assoc]
      exact hext.symm
    · simp only [feedChunk]
      rw [foldl_feed_err]
      exact (driveAux_extend_err p hp0 (buf.length + 2) buf cur pend outs outsE eE
        (a ++ rest.flatten) hrel (by omega) hdt fuel3
        (by simp only [List.length_append] at hf3 ⊢; omega)).symm

/-- CodePointsStream processes concatenated text chunk-compositionally: the
position state threads through. -/
theorem cpChunk_append : ∀ (st : CPSt) (a b : List Nat),
    cpChunk st (a ++ b) =
      ((cpChunk (cpChunk st a).1 b).1,
       (cpChunk st a).2 ++ (cpChunk (cpChunk st a).1 b).2)
  | st, [], b => by simp [cpChunk]
  | st, c :: rest, b => by
    simp only [List.cons_append, cpChunk, List.append_eq]
    rw [cpChunk_append _ rest b]

/-- The code points produced chunk-by-chunk are the code points of the
concatenated source. -/
theorem cpChunks_flatten : ∀ (st : CPSt) (chunks : List (List Nat)),
    (cpChunks st chunks).flatten = (cpChunk st chunks.flatten).2
  | st, [] => rfl
  | st, a :: rest => by
    simp only [cpChunks, List.flatten_cons]
    rw [cpChunks_flatten _ rest, cpChunk_append]

/-- C5: chunk boundaries never change the lexical stage's outcome.  Feeding
any chunking of a source text through the code-point stream and the lexical
stage gives exactly the result of feeding the whole source as one chunk:
same final status, same tokens (kinds, payloads, and spans). -/
theorem c5_chunk_invariance :
    ∀ (f : Nat) (src : List Nat) (chunks : List (List Nat)),
      chunks.flatten = src →
      runChunked (tokenParse f) (cpChunks ⟨0, 0, 0⟩ chunks) = lexSource f src := by
  intro f src chunks hflat
  subst hflat
  have hp0 : ∀ (buf : List CodePoint) (v : Tok) (c2 : Nat),
      runOne buf false (tokenParse f) 0 = .done v c2 → c2 ≤ buf.length := by
    intro buf v c2 h
    exact (tokenParse_cov f buf false 0 v c2 (Nat.zero_le _) (Or.inl h)).2.2
  have hchunked : runChunks (tokenParse f) (cpChunks ⟨0, 0, 0⟩ chunks) =
      driveAux (tokenParse f)
        (((cpChunks ⟨0, 0, 0⟩ chunks).flatten).length + 2)
        ([] ++ (cpChunks ⟨0, 0, 0⟩ chunks).flatten) 0 none [] := by
    rw [runChunks]
    rw [show (Feed.ok (⟨[], 0, none, []⟩ : ESt CodePoint Tok)) =
      driveTop (tokenParse f) [] 0 none [] from rfl]
    exact runChunks_extend (tokenParse f) hp0 (cpChunks ⟨0, 0, 0⟩ chunks) [] 0 none []
      _ rfl (by simp only [List.nil_append]; omega)
  have hsingle : runChunks (tokenParse f) [(cpChunk ⟨0, 0, 0⟩ chunks.flatten).2] =
      driveTop (tokenParse f) ((cpChunk ⟨0, 0, 0⟩ chunks.flatten).2) 0 none [] := rfl
  rw [runChunked, lexSource, runChunked, hchunked, hsingle, cpChunks_flatten]
  rw [driveTop]
  rw [show ([] : List CodePoint) ++ (cpChunk ⟨0, 0, 0⟩ chunks.flatten).2 =
    (cpChunk ⟨0, 0, 0⟩ chunks.flatten).2 from rfl]

/-- C5 witness: the source "f(" lexed in two one-character chunks equals the
single-chunk run. -/
theorem c5_chunk_invariance_witness :
    runChunked (tokenParse 5) (cpChunks ⟨0, 0, 0⟩ [[102], [40]]) =
      lexSource 5 [102, 40] :=
  c5_chunk_invariance 5 [102, 40] [[102], [40]] rfl

/-- The non-fatal error of Token.consume (its Deno.inspect suffix elided). -/
def unexpectedTokenErr : Err := ⟨false, false, "reached unexpected token"⟩

/-- Cursor rendering of code_point.ts (customInspect): 1-based line and
column.  The source URL prefix is carried verbatim by the code and elided by
the model, which tracks no URLs. -/
def curInspect (c : Cur) : String :=
  toString (c.line + 1) ++ ":" ++ toString (c.col + 1)

/-- Token.consume of token.ts: peek the next token; if it is an instance of
the requested class and (when a payload is requested) carries that payload,
consume and return it, otherwise throw an ordinary Error. -/
def tokConsume (kind : TokKind) (payload : Option (List Nat)) : Coro Tok Tok :=
  PS.peek.bind fun t =>
    if t.kind = kind ∧ (payload = none ∨ payload = some t.payload) then
      PS.consume.bind fun t2 => Coro.done t2
    else Coro.fail unexpectedTokenErr

/-- Syntax-tree nodes of languages/ecmascript.ts.  An argument node is the
pair of its expression and optional comma token. -/
inductive ENode where
  | ident (t : Tok)
  | strLit (t : Tok)
  | member (obj : ENode) (dot : Tok) (id : Tok)
  | call (callee : ENode) (lp : Tok) (args : List (ENode × Option Tok)) (rp : Tok)

/-- IdentifierNode.parse. -/
def identifierNodeParse : Coro Tok ENode :=
  (tokConsume .identifier none).bind fun t => Coro.done (.ident t)

/-- StringLiteralNode.parse. -/
def stringLiteralNodeParse : Coro Tok ENode :=
  (tokConsume .string none).bind fun t => Coro.done (.strLit t)

/-- LiteralExpressionNode.parse: first over its derived classes
(StringLiteralNode). -/
def literalExpressionParse : Coro Tok ENode :=
  (PS.first [stringLiteralNodeParse]).bind fun r => Coro.done r.value

/-- PrimaryExpressionNode.parse: first over IdentifierNode and
LiteralExpressionNode, in registration order. -/
def primaryExpressionParse : Coro Tok ENode :=
  (PS.first [identifierNodeParse, literalExpressionParse]).bind fun r =>
    Coro.done r.value

/-- MemberExpressionNode.parse with the left-hand expression supplied: a full
stop punctuator then an identifier. -/
def memberParse (e : ENode) : Coro Tok ENode :=
  (tokConsume .punctuator (some [46])).bind fun dot =>
    (tokConsume .identifier none).bind fun id =>
      Coro.done (.member e dot id)

mutual

/-- ExpressionNode.parse: a primary expression then the left-hand loop. -/
def expressionParse : Nat → Coro Tok ENode
  | 0 => Coro.fail fuelErr
  | f + 1 =>
    (PS.first [primaryExpressionParse]).bind fun r => exprLoop f r.value

/-- The for-loop of ExpressionNode.parse: repeatedly try the left-hand
derived classes (with null as the stopping branch). -/
def exprLoop : Nat → ENode → Coro Tok ENode
  | 0, _ => Coro.fail fuelErr
  | f + 1, e =>
    (PS.first [(leftHandParse f e).bind fun n => Coro.done (some n),
      PS.nullGen]).bind fun r =>
      match r.value with
      | some e2 => exprLoop f e2
      | none => Coro.done e

/-- LeftHandExpressionNode.parse with the left-hand expression supplied:
first over MemberExpressionNode and CallExpressionNode. -/
def leftHandParse : Nat → ENode → Coro Tok ENode
  | 0, _ => Coro.fail fuelErr
  | f + 1, e =>
    (PS.first [memberParse e, callParse f e]).bind fun r => Coro.done r.value

/-- CallExpressionNode.parse with the callee supplied: consume the opening
parenthesis, then the argument loop. -/
def callParse : Nat → ENode → Coro Tok ENode
  | 0, _ => Coro.fail fuelErr
  | f + 1, e =>
    (tokConsume .punctuator (some [40])).bind fun lp => callLoop f e lp []

/-- ArgumentNode.parse: an expression and an optional comma. -/
def argumentParse : Nat → Coro Tok (ENode × Option Tok)
  | 0 => Coro.fail fuelErr
  | f + 1 =>
    (expressionParse f).bind fun e =>
      (PS.maybe (tokConsume .punctuator (some [44]))).bind fun comma =>
        Coro.done (e, comma)

/-- The for-loop of CallExpressionNode.parse: inside ParserStream.fatal, try
the closing parenthesis (and, unless the previous argument lacked its comma,
a further argument); on any caught error rewind one token, consume it, and
throw the fatal diagnostic rendered at that token's end cursor. -/
def callLoop : Nat → ENode → Tok → List (ENode × Option Tok) → Coro Tok ENode
  | 0, _, _, _ => Coro.fail fuelErr
  | f + 1, callee, lp, args =>
    Coro.tryCatch
      (PS.fatal
        (if args.isEmpty = true ∨ ¬ (args.getLast?.map (fun a => a.2) = some none) then
          (PS.first [(tokConsume .punctuator (some [41])).bind fun rp =>
              Coro.done (Sum.inl rp),
            (argumentParse f).bind fun a => Coro.done (Sum.inr a)]).bind fun r =>
            Coro.done r.value
        else
          (PS.first [(tokConsume .punctuator (some [41])).bind fun rp =>
              Coro.done (Sum.inl rp)]).bind fun r => Coro.done r.value))
      (fun tmp =>
        match tmp with
        | Sum.inl rp => Coro.done (.call callee lp args rp)
        | Sum.inr a => callLoop f callee lp (args ++ [a]))
      (fun _ =>
        (PS.position none).bind fun position =>
          (PS.position (some (position - 1))).bind fun _ =>
            PS.consume.bind fun lastToken =>
              if ¬ (lastToken.kind = TokKind.punctuator) ∧ lastToken.payload = [44] then
                Coro.fail ⟨false, true,
                  curInspect lastToken.span.endCur ++ ", or ) expected"⟩
              else
                Coro.fail ⟨false, true,
                  curInspect lastToken.span.endCur ++ ": Expression or ) expected"⟩)

end

/-- ExpressionStatementNode.parse: an expression and an optional semicolon. -/
def expressionStatementParse (f : Nat) : Coro Tok (ENode × Option Tok) :=
  (expressionParse f).bind fun e =>
    (PS.maybe (tokConsume .punctuator (some [59]))).bind fun semi =>
      Coro.done (e, semi)

/-- StatementNode.parse: first over its derived classes
(ExpressionStatementNode). -/
def statementParse (f : Nat) : Coro Tok (ENode × Option Tok) :=
  (PS.first [expressionStatementParse f]).bind fun r => Coro.done r.value

/-- Whether a stage completed successfully. -/
def Final.isSuccess {I O : Type} : Final I O → Bool
  | .success _ => true
  | _ => false

set_option maxRecDepth 8192 in
/-- C8: in CallExpressionNode.parse the argument list and closing parenthesis
are guarded by ParserStream.fatal and the catch turns any failure after the
consumed opening parenthesis into a FatalError (which maybe/first do not
catch), so on the truncated source "f(a," the full pipeline (code points,
lexical stage, syntax stage) terminates with a fatal diagnostic rendered at
the end cursor of the last token - end of input - whose message ends with
": Expression or ) expected"; on the source "f" alone the parenthesis
failure is recoverable and the statement parses as a plain identifier. -/
theorem c8_call_expression_fatal :
    ∃ (toks toks1 : List Tok) (pre : String),
      lexSource 20 [102, 40, 97, 44] = .success toks ∧
      finalErr (runChunked (statementParse 20) [toks]) =
        some ⟨false, true, pre ++ ": Expression or ) expected"⟩ ∧
      pre = curInspect ⟨4, 4, 0⟩ ∧
      lexSource 20 [102] = .success toks1 ∧
      (runChunked (statementParse 20) [toks1]).isSuccess = true := by
  refine ⟨
    [⟨.identifier, [⟨102, ⟨⟨0, 0, 0⟩, ⟨1, 1, 0⟩⟩⟩]⟩,
     ⟨.punctuator, [⟨40, ⟨⟨1, 1, 0⟩, ⟨2, 2, 0⟩⟩⟩]⟩,
     ⟨.identifier, [⟨97, ⟨⟨2, 2, 0⟩, ⟨3, 3, 0⟩⟩⟩]⟩,
     ⟨.punctuator, [⟨44, ⟨⟨3, 3, 0⟩, ⟨4, 4, 0⟩⟩⟩]⟩],
    [⟨.identifier, [⟨102, ⟨⟨0, 0, 0⟩, ⟨1, 1, 0⟩⟩⟩]⟩], "1:5", ?_, ?_, ?_, ?_, ?_⟩
  · rfl
  · decide
  · rfl
  · rfl
  · decide

/-- Token kinds of the decision-tree lexer (lexical_analysis.ts with
TokenParser; the const-enum bitmask values are abstracted). -/
inductive TKind where
  | string
  | punctuator
  | whitespace
  | identifier
  | lineComment
  | lineTerminator
  | unknown
deriving DecidableEq, Repr

/-- A tokenizer generator of the TokenParser design: it yields Peek/Consume
commands and receives the current character (null at end of input); a thrown
Error aborts tokenisation. -/
inductive TCoro (R : Type) : Type where
  | done (r : R)
  | fail (msg : String)
  | peekT (k : Option Nat → TCoro R)
  | consumeT (k : Option Nat → TCoro R)

/-- yield* composition of tokenizer generators. -/
def TCoro.bind {A B : Type} : TCoro A → (A → TCoro B) → TCoro B
  | .done r, f => f r
  | .fail m, _ => .fail m
  | .peekT k, f => .peekT (fun c => (k c).bind f)
  | .consumeT k, f => .consumeT (fun c => (k c).bind f)

/-- yield Command.Peek. -/
def tPeek : TCoro (Option Nat) := .peekT .done

/-- yield Command.Consume (the generator receives the consumed character). -/
def tConsume : TCoro (Option Nat) := .consumeT .done

/-- isLineTerminator of ecmascript/parser.ts: LF, CR, LS, PS. -/
def isLineTerminatorChar : Option Nat → Bool
  | some n => n = 10 || n = 13 || n = 8232 || n = 8233
  | none => false

/-- isWhitespace of ecmascript/parser.ts. -/
def isWhitespaceChar : Option Nat → Bool
  | some n =>
    n = 9 || n = 11 || n = 12 || n = 32 || n = 160 || n = 65279 ||
    (8192 ≤ n && n ≤ 8207) || n = 8232 || n = 8233 || n = 8287 || n = 12288
  | none => false

/-- ASCII approximation of the Unicode letter class \p{L} used by the
identifier predicates (the claim under study involves no letters). -/
def isLetterChar (n : Nat) : Bool :=
  (65 ≤ n && n ≤ 90) || (97 ≤ n && n ≤ 122)

/-- isIdentifierStart of ecmascript/parser.ts (letters ASCII-approximated). -/
def isIdentifierStartChar : Option Nat → Bool
  | some n => n = 36 || n = 95 || isLetterChar n || n = 92 || n = 8204 || n = 8205
  | none => false

/-- isIdentifierPart of ecmascript/parser.ts (letters and digits
ASCII-approximated). -/
def isIdentifierPartChar : Option Nat → Bool
  | some n =>
    n = 36 || n = 95 || isLetterChar n || (48 ≤ n && n ≤ 57) ||
    n = 8204 || n = 8205
  | none => false

/-- The do/while loop of utils.manyOf: consume, then keep going while the
part predicate accepts the peeked character. -/
def manyOfLoop (part : Option Nat → Bool) : Nat → TCoro Bool
  | 0 => .fail "model fuel exhausted"
  | f + 1 =>
    tConsume.bind fun _ =>
      tPeek.bind fun c =>
        if part c then manyOfLoop part f else .done true

/-- utils.manyOf of lexical_analysis.ts. -/
def manyOf (start part : Option Nat → Bool) (f : Nat) (init : Option Nat) :
    TCoro Bool :=
  if start init then manyOfLoop part f else .done false

/-- The scan loop of utils.string: peek; a line terminator raises "Unclosed
string literal"; consume; stop after consuming the indicator. -/
def stringLoopT (indicator : Nat) (isLT : Option Nat → Bool) : Nat → TCoro Bool
  | 0 => .fail "model fuel exhausted"
  | f + 1 =>
    tPeek.bind fun c =>
      if isLT c then .fail "Unclosed string literal"
      else
        tConsume.bind fun _ =>
          if c = some indicator then .done true else stringLoopT indicator isLT f

/-- utils.string of lexical_analysis.ts. -/
def stringT (indicator : Nat) (isLT : Option Nat → Bool) (f : Nat)
    (init : Option Nat) : TCoro Bool :=
  if init = some indicator then tConsume.bind fun _ => stringLoopT indicator isLT f
  else .done false

/-- The punctuator decision tree of ecmascript/parser.ts: a switch on the
initial character; each level consumes and peeks ahead for the longer
operators, so >>>= is matched in preference to >>>, >>, and >. -/
def punctuatorT (init : Option Nat) : TCoro Bool :=
  match init with
  | some 123 => tConsume.bind fun _ => .done true
  | some 125 => tConsume.bind fun _ => .done true
  | some 40 => tConsume.bind fun _ => .done true
  | some 41 => tConsume.bind fun _ => .done true
  | some 91 => tConsume.bind fun _ => .done true
  | some 93 => tConsume.bind fun _ => .done true
  | some 46 => tConsume.bind fun _ => .done true
  | some 59 => tConsume.bind fun _ => .done true
  | some 44 => tConsume.bind fun _ => .done true
  | some 126 => tConsume.bind fun _ => .done true
  | some 63 => tConsume.bind fun _ => .done true
  | some 58 => tConsume.bind fun _ => .done true
  | some 60 =>
    tConsume.bind fun _ => tPeek.bind fun c =>
      match c with
      | some 61 => tConsume.bind fun _ => .done true
      | some 60 =>
        tConsume.bind fun _ => tPeek.bind fun c2 =>
          match c2 with
          | some 61 => tConsume.bind fun _ => .done true
          | _ => .done true
      | _ => .done true
  | some 62 =>
    tConsume.bind fun _ => tPeek.bind fun c =>
      match c with
      | some 61 => tConsume.bind fun _ => .done true
      | some 62 =>
        tConsume.bind fun _ => tPeek.bind fun c2 =>
          match c2 with
          | some 62 =>
            tConsume.bind fun _ => tPeek.bind fun c3 =>
              match c3 with
              | some 61 => tConsume.bind fun _ => .done true
              | _ => .done true
          | some 61 => tConsume.bind fun _ => .done true
          | _ => .done true
      | _ => .done true
  | some 61 =>
    tConsume.bind fun _ => tPeek.bind fun c =>
      match c with
      | some 61 =>
        tConsume.bind fun _ => tPeek.bind fun c2 =>
          match c2 with
          | some 61 => tConsume.bind fun _ => .done true
          | _ => .done true
      | _ => .done true
  | some 33 =>
    tConsume.bind fun _ => tPeek.bind fun c =>
      match c with
      | some 61 =>
        tConsume.bind fun _ => tPeek.bind fun c2 =>
          match c2 with
          | some 61 => tConsume.bind fun _ => .done true
          | _ => .done true
      | _ => .done true
  | some 43 =>
    tConsume.bind fun _ => tPeek.bind fun c =>
      match c with
      | some 43 => tConsume.bind fun _ => .done true
      | some 61 => tConsume.bind fun _ => .done true
      | _ => .done true
  | some 45 =>
    tConsume.bind fun _ => tPeek.bind fun c =>
      match c with
      | some 45 => tConsume.bind fun _ => .done true
      | some 61 => tConsume.bind fun _ => .done true
      | _ => .done true
  | some 42 =>
    tConsume.bind fun _ => tPeek.bind fun c =>
      match c with
      | some 61 => tConsume.bind fun _ => .done true
      | _ => .done true
  | some 37 =>
    tConsume.bind fun _ => tPeek.bind fun c =>
      match c with
      | some 61 => tConsume.bind fun _ => .done true
      | _ => .done true
  | some 38 =>
    tConsume.bind fun _ => tPeek.bind fun c =>
      match c with
      | some 38 => tConsume.bind fun _ => .done true
      | some 61 => tConsume.bind fun _ => .done true
      | _ => .done true
  | some 124 =>
    tConsume.bind fun _ => tPeek.bind fun c =>
      match c with
      | some 124 => tConsume.bind fun _ => .done true
      | some 61 => tConsume.bind fun _ => .done true
      | _ => .done true
  | some 94 =>
    tConsume.bind fun _ => tPeek.bind fun c =>
      match c with
      | some 61 => tConsume.bind fun _ => .done true
      | _ => .done true
  | _ => .done false

/-- The line-comment scan loop: consume until a line terminator is peeked. -/
def lineCommentLoop : Nat → TCoro (Option TKind)
  | 0 => .fail "model fuel exhausted"
  | f + 1 =>
    tPeek.bind fun c =>
      if isLineTerminatorChar c then .done (some .lineComment)
      else tConsume.bind fun _ => lineCommentLoop f

/-- divPunctuatorOrLineComment of ecmascript/parser.ts: a slash starts a
line comment (//), the /= punctuator, or the / punctuator. -/
def divPunctuatorOrLineComment (f : Nat) (init : Option Nat) :
    TCoro (Option TKind) :=
  match init with
  | some 47 =>
    tConsume.bind fun _ => tPeek.bind fun c =>
      match c with
      | some 47 => tConsume.bind fun _ => lineCommentLoop f
      | some 61 => tConsume.bind fun _ => .done (some .punctuator)
      | _ => .done (some .punctuator)
  | _ => .done none

/-- unknown of ecmascript/parser.ts: consume one character. -/
def unknownT : TCoro TKind :=
  tConsume.bind fun _ => .done .unknown

/-- tokenizer of ecmascript/parser.ts: strings, then the punctuator decision
tree, whitespace, identifier, line terminator, and finally the slash forms
or the unknown fallback. -/
def tokenizerT (f : Nat) (init : Option Nat) : TCoro TKind :=
  match init with
  | none =>
    (divPunctuatorOrLineComment f none).bind fun r =>
      match r with
      | some k => .done k
      | none => unknownT
  | some c0 =>
    (stringT 34 isLineTerminatorChar f (some c0)).bind fun b1 =>
      if b1 then .done .string
      else
        (stringT 39 isLineTerminatorChar f (some c0)).bind fun b2 =>
          if b2 then .done .string
          else
            (punctuatorT (some c0)).bind fun bp =>
              if bp then .done .punctuator
              else
                (manyOf isWhitespaceChar isWhitespaceChar f (some c0)).bind fun bw =>
                  if bw then .done .whitespace
                  else
                    (manyOf isIdentifierStartChar isIdentifierPartChar f
                        (some c0)).bind fun bi =>
                      if bi then .done .identifier
                      else
                        (manyOf isLineTerminatorChar isLineTerminatorChar f
                            (some c0)).bind fun bl =>
                          if bl then .done .lineTerminator
                          else
                            (divPunctuatorOrLineComment f (some c0)).bind fun r =>
                              match r with
                              | some k => .done k
                              | none => unknownT

/-- A token of the TokenParser design: kind, payload (as code values), and
the begin/end cursors of its span (the source URL is elided). -/
structure TTok where
  kind : TKind
  payload : List Nat
  beginCur : Cur
  endCur : Cur
deriving DecidableEq, Repr

/-- The live tokenizer state of TokenParser.parse: the generator's current
suspension, the begin cursor, and the payload collected so far. -/
structure GState where
  node : TCoro TKind
  beginCur : Cur
  payload : List Nat

/-- The payload fragment appended by a Consume command: the character, or the
four letters of "null" when the virtual end-of-input character is consumed
(JavaScript string concatenation of null). -/
def consumedChars : Option Nat → List Nat
  | some c => [c]
  | none => [110, 117, 108, 108]

/-- The inner while loop of TokenParser.parse for one input character: start
a generator when idle (only with a real character), emit a token whenever
the generator finished, feed Peek commands the current character in place,
and stop on a Consume (appending the character to the payload). Returns the
surviving state and the tokens emitted so far; none is the model's fuel
sentinel and also stands for a thrown tokenizer error aborting the parse. -/
def charLoop (tokenizer : Option Nat → TCoro TKind) :
    Nat → Option Nat → Cur → Option GState → List TTok →
      Option (Option GState × List TTok)
  | 0, _, _, _, _ => none
  | f + 1, char, cursor, none, acc =>
    match char with
    | none => some (none, acc)
    | some c => charLoop tokenizer f char cursor
        (some ⟨tokenizer (some c), cursor, []⟩) acc
  | f + 1, char, cursor, some st, acc =>
    match st.node with
    | .done k =>
      charLoop tokenizer f char cursor none
        (acc ++ [⟨k, st.payload, st.beginCur, cursor⟩])
    | .fail _ => none
    | .peekT k =>
      charLoop tokenizer f char cursor (some ⟨k char, st.beginCur, st.payload⟩) acc
    | .consumeT k =>
      some (some ⟨k char, st.beginCur, st.payload ++ consumedChars char⟩, acc)

/-- The per-character cursor update of TokenParser.parse. -/
def tpBump (char : Option Nat) (c : Cur) : Cur :=
  if char = some 10 then ⟨c.pos + 1, 0, c.line + 1⟩
  else ⟨c.pos + 1, c.col + 1, c.line⟩

/-- The outer for loop of TokenParser.parse over the characters (the source
followed by one virtual null in non-stream mode). -/
def tpChars (tokenizer : Option Nat → TCoro TKind) (f : Nat) :
    List (Option Nat) → Cur → Option GState → List TTok →
      Option (List TTok × Option GState)
  | [], _, st, acc => some (acc, st)
  | char :: rest, cursor, st, acc =>
    match charLoop tokenizer f char cursor st acc with
    | none => none
    | some (st2, acc2) => tpChars tokenizer f rest (tpBump char cursor) st2 acc2

/-- TokenParser.parse in non-stream mode on a whole source. -/
def tpParse (f : Nat) (tokenizer : Option Nat → TCoro TKind) (src : List Nat) :
    Option (List TTok) :=
  match tpChars tokenizer f (src.map some ++ [none]) ⟨0, 0, 0⟩ none [] with
  | some (acc, _) => some acc
  | none => none

/-- C7: on the input >>>= the decision-tree lexer emits exactly one
Punctuator token whose payload is >>>= spanning the whole input: the
punctuator switch peeks ahead level by level, so >>>= wins over >>>, which
wins over >> and >, as the shorter-input runs also show. -/
theorem c7_punctuator_maximal_munch :
    tpParse 20 (tokenizerT 20) [62, 62, 62, 61] =
      some [⟨.punctuator, [62, 62, 62, 61], ⟨0, 0, 0⟩, ⟨4, 4, 0⟩⟩] ∧
    tpParse 20 (tokenizerT 20) [62, 62, 62] =
      some [⟨.punctuator, [62, 62, 62], ⟨0, 0, 0⟩, ⟨3, 3, 0⟩⟩] ∧
    tpParse 20 (tokenizerT 20) [62, 62] =
      some [⟨.punctuator, [62, 62], ⟨0, 0, 0⟩, ⟨2, 2, 0⟩⟩] ∧
    tpParse 20 (tokenizerT 20) [62] =
      some [⟨.punctuator, [62], ⟨0, 0, 0⟩, ⟨1, 1, 0⟩⟩] ∧
    tpParse 20 (tokenizerT 20) [62, 61, 62] =
      some [⟨.punctuator, [62, 61], ⟨0, 0, 0⟩, ⟨2, 2, 0⟩⟩,
            ⟨.punctuator, [62], ⟨2, 2, 0⟩, ⟨3, 3, 0⟩⟩] := by
  refine ⟨?_, ?_, ?_, ?_, ?_⟩
  · decide
  · decide
  · decide
  · decide
  · decide
